import Mathlib

/-!
# One-time passwords (HOTP / TOTP): a shallow embedding of `blockcdn-go/otp`

The Go packages `otp`, `otp/hotp` and `otp/totp` are embedded as pure Lean
functions.

Conventions of the embedding

* A Go `string` is what it is in Go, a sequence of bytes: `len` is the length
  of the list and `[]byte(s)` is the list itself. Text is held in UTF-8.
* A `[]byte` is a `List Nat` whose entries are below 256.
* Go's fixed-width integers are `Nat` / `Int` with explicit wrap-around; `int`
  and `uint` are 64 bits wide, as on amd64 and arm64.
* A Go call returns its result tuple, panics, or does not return: `Run`.
* Memory is not bounded: an allocation fails only where it passes the limit of
  the Go runtime on one allocation, `maxAlloc`. That limit is modelled for
  `make([]byte, opts.SecretSize)` in `Generate`. The slice `counters` of
  `totp.ValidateCustom` and the buffers of the standard library are lists
  without bound; the statements that depend on their size keep the skew below
  `2^43` and the secret size at or below `2^47`, where they stay below the
  limit.
* The standard library (`crypto/*`, `encoding/base32`, `strings`, `fmt`,
  `math`, `net/url`) is not part of the repository; the functions used by the
  repository are written out here after their reference behaviour. Of
  `net/url` the URLs without user information, bracketed host and fragment are
  covered; `url.Parse` answers `outside` for any other text.
* `crypto/rand.Read` is an argument of `Generate`: a function that gives, for a
  length, the bytes left in the slice, or `none` when it reports an error.
-/

/-- A sequence of bytes (`[]byte`); every entry is meant to be below 256. -/
abbrev Bytes := List Nat

/-- A Go string: a sequence of bytes. -/
abbrev GoString := List Nat

/-- Outcome of a Go call: it returns a value, it panics, or it never returns. -/
inductive Run (α : Type) where
  | returns : α → Run α
  | panics : Run α
  | hangs : Run α
  deriving DecidableEq, Repr

/-! ## Words and bytes -/

/-- Big-endian bytes of `x`, exactly `n` of them (the low `8*n` bits). -/
def beBytes : Nat → Nat → Bytes
  | 0, _ => []
  | n + 1, x => (x / 256 ^ n) % 256 :: beBytes n x

/-- Little-endian bytes of `x`, exactly `n` of them. -/
def leBytes : Nat → Nat → Bytes
  | 0, _ => []
  | n + 1, x => x % 256 :: leBytes n (x / 256)

/-- Big-endian value of a byte sequence. -/
def beValue (bs : Bytes) : Nat := bs.foldl (fun acc b => acc * 256 + b) 0

/-- Little-endian value of a byte sequence. -/
def leValue : Bytes → Nat
  | [] => 0
  | b :: bs => b + 256 * leValue bs

/-- Cut a list into consecutive pieces of `n` elements (`fuel` bounds the number of pieces). -/
def chunksOf {α : Type} (n : Nat) : Nat → List α → List (List α)
  | 0, _ => []
  | fuel + 1, xs => if xs.isEmpty then [] else xs.take n :: chunksOf n fuel (xs.drop n)

/-- Rotate a `w`-bit word left by `n` bits. -/
def rotl (w x n : Nat) : Nat := ((x <<< n) ||| (x >>> (w - n))) % 2 ^ w

/-- Rotate a `w`-bit word right by `n` bits. -/
def rotr (w x n : Nat) : Nat := ((x >>> n) ||| (x <<< (w - n))) % 2 ^ w

/-- Bitwise complement of a `w`-bit word. -/
def notw (w x : Nat) : Nat := (2 ^ w - 1) ^^^ x

/-- Merkle–Damgård padding with a big-endian bit length field (SHA family):
`0x80`, zeros, then the message length in bits on `lenBytes` bytes, filling a
multiple of `block` bytes. -/
def mdPadBE (block lenBytes : Nat) (msg : Bytes) : Bytes :=
  let used := (msg.length + 1 + lenBytes) % block
  let zeros := (block - used) % block
  msg ++ [0x80] ++ List.replicate zeros 0 ++ beBytes lenBytes ((8 * msg.length) % 2 ^ (8 * lenBytes))

/-- The same padding with a little-endian 64-bit length field (MD5). -/
def mdPadLE (msg : Bytes) : Bytes :=
  let used := (msg.length + 1 + 8) % 64
  let zeros := (64 - used) % 64
  msg ++ [0x80] ++ List.replicate zeros 0 ++ leBytes 8 ((8 * msg.length) % 2 ^ 64)

/-! ## SHA-1 (`crypto/sha1`) -/

namespace sha1

/-- Chaining value: the five 32-bit words `h0 .. h4`. -/
structure State where
  a : Nat
  b : Nat
  c : Nat
  d : Nat
  e : Nat
  deriving DecidableEq, Repr

def init : State := ⟨0x67452301, 0xEFCDAB89, 0x98BADCFE, 0x10325476, 0xC3D2E1F0⟩

/-- Message schedule: from the sliding window of the last 16 words, the next `n` words. -/
def expand : Nat → List Nat → List Nat
  | 0, _ => []
  | n + 1, win =>
    let x := rotl 32 (win.getD 13 0 ^^^ win.getD 8 0 ^^^ win.getD 2 0 ^^^ win.getD 0 0) 1
    x :: expand n (win.tail ++ [x])

def schedule (block : Bytes) : List Nat :=
  let w16 := (chunksOf 4 16 block).map beValue
  w16 ++ expand 64 w16

/-- One of the 80 rounds; `t` is the round index, `w` the schedule word. -/
def round (s : State) (t w : Nat) : State :=
  let f :=
    if t < 20 then (s.b &&& s.c) ||| (notw 32 s.b &&& s.d)
    else if t < 40 then s.b ^^^ s.c ^^^ s.d
    else if t < 60 then (s.b &&& s.c) ||| (s.b &&& s.d) ||| (s.c &&& s.d)
    else s.b ^^^ s.c ^^^ s.d
  let k :=
    if t < 20 then 0x5A827999
    else if t < 40 then 0x6ED9EBA1
    else if t < 60 then 0x8F1BBCDC
    else 0xCA62C1D6
  ⟨(rotl 32 s.a 5 + f + s.e + k + w) % 2 ^ 32, s.a, rotl 32 s.b 30, s.c, s.d⟩

def rounds : State → Nat → List Nat → State
  | s, _, [] => s
  | s, t, w :: ws => rounds (round s t w) (t + 1) ws

def compress (h : State) (block : Bytes) : State :=
  let s := rounds h 0 (schedule block)
  ⟨(h.a + s.a) % 2 ^ 32, (h.b + s.b) % 2 ^ 32, (h.c + s.c) % 2 ^ 32,
   (h.d + s.d) % 2 ^ 32, (h.e + s.e) % 2 ^ 32⟩

/-- The SHA-1 digest of a message: 20 bytes. -/
def sum (msg : Bytes) : Bytes :=
  let p := mdPadBE 64 8 msg
  let h := (chunksOf 64 p.length p).foldl compress init
  beBytes 4 h.a ++ beBytes 4 h.b ++ beBytes 4 h.c ++ beBytes 4 h.d ++ beBytes 4 h.e

end sha1

/-! ## SHA-256 and SHA-512 (`crypto/sha256`, `crypto/sha512`) -/

namespace sha2

/-- Chaining value: the eight working words. -/
structure State where
  a : Nat
  b : Nat
  c : Nat
  d : Nat
  e : Nat
  f : Nat
  g : Nat
  h : Nat
  deriving DecidableEq, Repr

/-- What distinguishes the two functions: word size in bits, the rotation
amounts of the four sigma functions (for the two small ones the third amount is
a shift), the round constants and the initial chaining value. -/
structure Params where
  w : Nat
  bigS0 : Nat × Nat × Nat
  bigS1 : Nat × Nat × Nat
  smallS0 : Nat × Nat × Nat
  smallS1 : Nat × Nat × Nat
  k : List Nat
  init : State

def bigSigma (p : Params) (r : Nat × Nat × Nat) (x : Nat) : Nat :=
  rotr p.w x r.1 ^^^ rotr p.w x r.2.1 ^^^ rotr p.w x r.2.2

def smallSigma (p : Params) (r : Nat × Nat × Nat) (x : Nat) : Nat :=
  rotr p.w x r.1 ^^^ rotr p.w x r.2.1 ^^^ (x >>> r.2.2)

/-- Message schedule: from the sliding window of the last 16 words, the next `n` words. -/
def expand (p : Params) : Nat → List Nat → List Nat
  | 0, _ => []
  | n + 1, win =>
    let x := (smallSigma p p.smallS1 (win.getD 14 0) + win.getD 9 0
              + smallSigma p p.smallS0 (win.getD 1 0) + win.getD 0 0) % 2 ^ p.w
    x :: expand p n (win.tail ++ [x])

def schedule (p : Params) (block : Bytes) : List Nat :=
  let w16 := (chunksOf (p.w / 8) 16 block).map beValue
  w16 ++ expand p (p.k.length - 16) w16

def round (p : Params) (s : State) (kw : Nat × Nat) : State :=
  let ch := (s.e &&& s.f) ^^^ (notw p.w s.e &&& s.g)
  let maj := (s.a &&& s.b) ^^^ (s.a &&& s.c) ^^^ (s.b &&& s.c)
  let t1 := s.h + bigSigma p p.bigS1 s.e + ch + kw.1 + kw.2
  let t2 := bigSigma p p.bigS0 s.a + maj
  ⟨(t1 + t2) % 2 ^ p.w, s.a, s.b, s.c, (s.d + t1) % 2 ^ p.w, s.e, s.f, s.g⟩

def compress (p : Params) (h : State) (block : Bytes) : State :=
  let s := (p.k.zip (schedule p block)).foldl (round p) h
  ⟨(h.a + s.a) % 2 ^ p.w, (h.b + s.b) % 2 ^ p.w, (h.c + s.c) % 2 ^ p.w, (h.d + s.d) % 2 ^ p.w,
   (h.e + s.e) % 2 ^ p.w, (h.f + s.f) % 2 ^ p.w, (h.g + s.g) % 2 ^ p.w, (h.h + s.h) % 2 ^ p.w⟩

/-- The digest: the eight chaining words, big-endian. -/
def sum (p : Params) (msg : Bytes) : Bytes :=
  let n := p.w / 8
  let padded := mdPadBE (16 * n) (2 * n) msg
  let h := (chunksOf (16 * n) padded.length padded).foldl (compress p) p.init
  beBytes n h.a ++ beBytes n h.b ++ beBytes n h.c ++ beBytes n h.d ++
  beBytes n h.e ++ beBytes n h.f ++ beBytes n h.g ++ beBytes n h.h

end sha2

namespace sha256

def params : sha2.Params where
  w := 32
  bigS0 := (2, 13, 22)
  bigS1 := (6, 11, 25)
  smallS0 := (7, 18, 3)
  smallS1 := (17, 19, 10)
  k := [
   0x428A2F98, 0x71374491, 0xB5C0FBCF, 0xE9B5DBA5, 0x3956C25B, 0x59F111F1,
   0x923F82A4, 0xAB1C5ED5, 0xD807AA98, 0x12835B01, 0x243185BE, 0x550C7DC3,
   0x72BE5D74, 0x80DEB1FE, 0x9BDC06A7, 0xC19BF174, 0xE49B69C1, 0xEFBE4786,
   0x0FC19DC6, 0x240CA1CC, 0x2DE92C6F, 0x4A7484AA, 0x5CB0A9DC, 0x76F988DA,
   0x983E5152, 0xA831C66D, 0xB00327C8, 0xBF597FC7, 0xC6E00BF3, 0xD5A79147,
   0x06CA6351, 0x14292967, 0x27B70A85, 0x2E1B2138, 0x4D2C6DFC, 0x53380D13,
   0x650A7354, 0x766A0ABB, 0x81C2C92E, 0x92722C85, 0xA2BFE8A1, 0xA81A664B,
   0xC24B8B70, 0xC76C51A3, 0xD192E819, 0xD6990624, 0xF40E3585, 0x106AA070,
   0x19A4C116, 0x1E376C08, 0x2748774C, 0x34B0BCB5, 0x391C0CB3, 0x4ED8AA4A,
   0x5B9CCA4F, 0x682E6FF3, 0x748F82EE, 0x78A5636F, 0x84C87814, 0x8CC70208,
   0x90BEFFFA, 0xA4506CEB, 0xBEF9A3F7, 0xC67178F2
  ]
  init := ⟨0x6A09E667, 0xBB67AE85, 0x3C6EF372, 0xA54FF53A, 0x510E527F, 0x9B05688C, 0x1F83D9AB,
    0x5BE0CD19⟩

/-- The SHA-256 digest of a message: 32 bytes. -/
def sum (msg : Bytes) : Bytes := sha2.sum params msg

end sha256

namespace sha512

def params : sha2.Params where
  w := 64
  bigS0 := (28, 34, 39)
  bigS1 := (14, 18, 41)
  smallS0 := (1, 8, 7)
  smallS1 := (19, 61, 6)
  k := [
   0x428A2F98D728AE22, 0x7137449123EF65CD, 0xB5C0FBCFEC4D3B2F, 0xE9B5DBA58189DBBC,
   0x3956C25BF348B538, 0x59F111F1B605D019, 0x923F82A4AF194F9B, 0xAB1C5ED5DA6D8118,
   0xD807AA98A3030242, 0x12835B0145706FBE, 0x243185BE4EE4B28C, 0x550C7DC3D5FFB4E2,
   0x72BE5D74F27B896F, 0x80DEB1FE3B1696B1, 0x9BDC06A725C71235, 0xC19BF174CF692694,
   0xE49B69C19EF14AD2, 0xEFBE4786384F25E3, 0x0FC19DC68B8CD5B5, 0x240CA1CC77AC9C65,
   0x2DE92C6F592B0275, 0x4A7484AA6EA6E483, 0x5CB0A9DCBD41FBD4, 0x76F988DA831153B5,
   0x983E5152EE66DFAB, 0xA831C66D2DB43210, 0xB00327C898FB213F, 0xBF597FC7BEEF0EE4,
   0xC6E00BF33DA88FC2, 0xD5A79147930AA725, 0x06CA6351E003826F, 0x142929670A0E6E70,
   0x27B70A8546D22FFC, 0x2E1B21385C26C926, 0x4D2C6DFC5AC42AED, 0x53380D139D95B3DF,
   0x650A73548BAF63DE, 0x766A0ABB3C77B2A8, 0x81C2C92E47EDAEE6, 0x92722C851482353B,
   0xA2BFE8A14CF10364, 0xA81A664BBC423001, 0xC24B8B70D0F89791, 0xC76C51A30654BE30,
   0xD192E819D6EF5218, 0xD69906245565A910, 0xF40E35855771202A, 0x106AA07032BBD1B8,
   0x19A4C116B8D2D0C8, 0x1E376C085141AB53, 0x2748774CDF8EEB99, 0x34B0BCB5E19B48A8,
   0x391C0CB3C5C95A63, 0x4ED8AA4AE3418ACB, 0x5B9CCA4F7763E373, 0x682E6FF3D6B2B8A3,
   0x748F82EE5DEFB2FC, 0x78A5636F43172F60, 0x84C87814A1F0AB72, 0x8CC702081A6439EC,
   0x90BEFFFA23631E28, 0xA4506CEBDE82BDE9, 0xBEF9A3F7B2C67915, 0xC67178F2E372532B,
   0xCA273ECEEA26619C, 0xD186B8C721C0C207, 0xEADA7DD6CDE0EB1E, 0xF57D4F7FEE6ED178,
   0x06F067AA72176FBA, 0x0A637DC5A2C898A6, 0x113F9804BEF90DAE, 0x1B710B35131C471B,
   0x28DB77F523047D84, 0x32CAAB7B40C72493, 0x3C9EBE0A15C9BEBC, 0x431D67C49C100D4C,
   0x4CC5D4BECB3E42B6, 0x597F299CFC657E2A, 0x5FCB6FAB3AD6FAEC, 0x6C44198C4A475817
  ]
  init := ⟨0x6A09E667F3BCC908, 0xBB67AE8584CAA73B, 0x3C6EF372FE94F82B, 0xA54FF53A5F1D36F1,
    0x510E527FADE682D1, 0x9B05688C2B3E6C1F, 0x1F83D9ABFB41BD6B, 0x5BE0CD19137E2179⟩

/-- The SHA-512 digest of a message: 64 bytes. -/
def sum (msg : Bytes) : Bytes := sha2.sum params msg

end sha512

/-! ## MD5 (`crypto/md5`) -/

namespace md5

/-- Chaining value: the four 32-bit words. -/
structure State where
  a : Nat
  b : Nat
  c : Nat
  d : Nat
  deriving DecidableEq, Repr

def init : State := ⟨0x67452301, 0xEFCDAB89, 0x98BADCFE, 0x10325476⟩

/-- Per-round left-rotation amounts. -/
def shifts : List Nat :=
  [7, 12, 17, 22, 7, 12, 17, 22, 7, 12, 17, 22, 7, 12, 17, 22,
   5, 9, 14, 20, 5, 9, 14, 20, 5, 9, 14, 20, 5, 9, 14, 20,
   4, 11, 16, 23, 4, 11, 16, 23, 4, 11, 16, 23, 4, 11, 16, 23,
   6, 10, 15, 21, 6, 10, 15, 21, 6, 10, 15, 21, 6, 10, 15, 21]

/-- Per-round additive constants `floor(2^32 * |sin(i+1)|)`. -/
def k : List Nat := [
   0xD76AA478, 0xE8C7B756, 0x242070DB, 0xC1BDCEEE, 0xF57C0FAF, 0x4787C62A,
   0xA8304613, 0xFD469501, 0x698098D8, 0x8B44F7AF, 0xFFFF5BB1, 0x895CD7BE,
   0x6B901122, 0xFD987193, 0xA679438E, 0x49B40821, 0xF61E2562, 0xC040B340,
   0x265E5A51, 0xE9B6C7AA, 0xD62F105D, 0x02441453, 0xD8A1E681, 0xE7D3FBC8,
   0x21E1CDE6, 0xC33707D6, 0xF4D50D87, 0x455A14ED, 0xA9E3E905, 0xFCEFA3F8,
   0x676F02D9, 0x8D2A4C8A, 0xFFFA3942, 0x8771F681, 0x6D9D6122, 0xFDE5380C,
   0xA4BEEA44, 0x4BDECFA9, 0xF6BB4B60, 0xBEBFBC70, 0x289B7EC6, 0xEAA127FA,
   0xD4EF3085, 0x04881D05, 0xD9D4D039, 0xE6DB99E5, 0x1FA27CF8, 0xC4AC5665,
   0xF4292244, 0x432AFF97, 0xAB9423A7, 0xFC93A039, 0x655B59C3, 0x8F0CCC92,
   0xFFEFF47D, 0x85845DD1, 0x6FA87E4F, 0xFE2CE6E0, 0xA3014314, 0x4E0811A1,
   0xF7537E82, 0xBD3AF235, 0x2AD7D2BB, 0xEB86D391
  ]

/-- Round `i` on the 16 little-endian message words `m`. -/
def round (m : List Nat) (s : State) (i : Nat) : State :=
  let f :=
    if i < 16 then (s.b &&& s.c) ||| (notw 32 s.b &&& s.d)
    else if i < 32 then (s.d &&& s.b) ||| (notw 32 s.d &&& s.c)
    else if i < 48 then s.b ^^^ s.c ^^^ s.d
    else s.c ^^^ (s.b ||| notw 32 s.d)
  let g :=
    if i < 16 then i
    else if i < 32 then (5 * i + 1) % 16
    else if i < 48 then (3 * i + 5) % 16
    else (7 * i) % 16
  let x := (f + s.a + k.getD i 0 + m.getD g 0) % 2 ^ 32
  ⟨s.d, (s.b + rotl 32 x (shifts.getD i 0)) % 2 ^ 32, s.b, s.c⟩

def compress (h : State) (block : Bytes) : State :=
  let m := (chunksOf 4 16 block).map leValue
  let s := (List.range 64).foldl (round m) h
  ⟨(h.a + s.a) % 2 ^ 32, (h.b + s.b) % 2 ^ 32, (h.c + s.c) % 2 ^ 32, (h.d + s.d) % 2 ^ 32⟩

/-- The MD5 digest of a message: 16 bytes. -/
def sum (msg : Bytes) : Bytes :=
  let p := mdPadLE msg
  let h := (chunksOf 64 p.length p).foldl compress init
  leBytes 4 h.a ++ leBytes 4 h.b ++ leBytes 4 h.c ++ leBytes 4 h.d

end md5

/-! ## HMAC (`crypto/hmac`) -/

/-- A hash function as `hash.Hash` presents it: digest of everything written,
block size and digest size in bytes. -/
structure HashFn where
  sum : Bytes → Bytes
  blockSize : Nat
  size : Nat

namespace hmac

/-- XOR every byte of the key block with `p`. -/
def xorPad (p : Nat) (block : Bytes) : Bytes := block.map (fun b => b ^^^ p)

/-- The key block: a key longer than the block size is hashed first; the key is
then zero-filled to the block size. -/
def keyBlock (h : HashFn) (key : Bytes) : Bytes :=
  let k := if key.length > h.blockSize then h.sum key else key
  k ++ List.replicate (h.blockSize - k.length) 0

/-- The value of `mac.Sum(nil)` after `hmac.New(h, key)` and `mac.Write(msg)`. -/
def sum (h : HashFn) (key msg : Bytes) : Bytes :=
  let kb := keyBlock h key
  h.sum (xorPad 0x5C kb ++ h.sum (xorPad 0x36 kb ++ msg))

end hmac

/-! ## Strings (`strings`, `unicode`) -/

/-- UTF-8 encoding of one code point. -/
def utf8Encode (c : Char) : Bytes :=
  let n := c.toNat
  if n < 0x80 then [n]
  else if n < 0x800 then [0xC0 + n / 64, 0x80 + n % 64]
  else if n < 0x10000 then [0xE0 + n / 4096, 0x80 + n / 64 % 64, 0x80 + n % 64]
  else [0xF0 + n / 262144, 0x80 + n / 4096 % 64, 0x80 + n / 64 % 64, 0x80 + n % 64]

/-- The Go string written as the literal `s`: its UTF-8 bytes. -/
def goStr (s : String) : GoString := s.toList.foldr (fun c acc => utf8Encode c ++ acc) []

namespace strings

/-- UTF-8 encodings of the code points for which `unicode.IsSpace` holds:
U+0009..U+000D, U+0020, U+0085, U+00A0, U+1680, U+2000..U+200A, U+2028, U+2029,
U+202F, U+205F, U+3000. -/
def spaces : List Bytes :=
  [[0x09], [0x0A], [0x0B], [0x0C], [0x0D], [0x20], [0xC2, 0x85], [0xC2, 0xA0],
   [0xE1, 0x9A, 0x80],
   [0xE2, 0x80, 0x80], [0xE2, 0x80, 0x81], [0xE2, 0x80, 0x82], [0xE2, 0x80, 0x83],
   [0xE2, 0x80, 0x84], [0xE2, 0x80, 0x85], [0xE2, 0x80, 0x86], [0xE2, 0x80, 0x87],
   [0xE2, 0x80, 0x88], [0xE2, 0x80, 0x89], [0xE2, 0x80, 0x8A],
   [0xE2, 0x80, 0xA8], [0xE2, 0x80, 0xA9], [0xE2, 0x80, 0xAF], [0xE2, 0x81, 0x9F],
   [0xE3, 0x80, 0x80]]

/-- Drop leading white space: as long as the string starts with the encoding of
a space, remove it. A byte that does not start a valid encoding decodes to
U+FFFD, which is not a space, and stops the scan. -/
def trimLeft : Nat → GoString → GoString
  | 0, s => s
  | fuel + 1, s =>
    match spaces.find? (fun e => e.isPrefixOf s) with
    | none => s
    | some e => trimLeft fuel (s.drop e.length)

/-- Drop trailing white space: as long as the last rune is a space, remove it. -/
def trimRight : Nat → GoString → GoString
  | 0, s => s
  | fuel + 1, s =>
    match spaces.find? (fun e => e.reverse.isPrefixOf s.reverse) with
    | none => s
    | some e => trimRight fuel (s.take (s.length - e.length))

/-- The function `strings.TrimSpace`: the string without leading and trailing white space. -/
def TrimSpace (s : GoString) : GoString :=
  let l := trimLeft s.length s
  trimRight l.length l

/-- The function `strings.ToUpper`, exact on ASCII text and on the two runes outside ASCII
whose upper-case form is an ASCII letter: `a..z` become `A..Z`, U+017F (long s,
bytes C5 BF) becomes `S` and U+0131 (dotless i, bytes C4 B1) becomes `I`. Every
other byte outside ASCII is kept as it is. There Go writes the upper-case form
of the rune, which is again outside ASCII but can differ and can have another
length (U+FFFD, three bytes, for a byte that is not valid UTF-8); what is proved
about upper-casing is therefore stated for ASCII text. -/
def ToUpper : GoString → GoString
  | [] => []
  | 0xC5 :: 0xBF :: rest => 0x53 :: ToUpper rest
  | 0xC4 :: 0xB1 :: rest => 0x49 :: ToUpper rest
  | b :: rest => (if 0x61 ≤ b ∧ b ≤ 0x7A then b - 0x20 else b) :: ToUpper rest

end strings

/-! ## Base32, standard alphabet with padding (`encoding/base32`, `StdEncoding`) -/

namespace base32

/-- The alphabet `ABCDEFGHIJKLMNOPQRSTUVWXYZ234567`. -/
def encodeStd : Bytes :=
  [65, 66, 67, 68, 69, 70, 71, 72, 73, 74, 75, 76, 77, 78, 79, 80, 81, 82, 83, 84, 85, 86, 87,
   88, 89, 90, 50, 51, 52, 53, 54, 55]

/-- The pad character `=`. -/
def padChar : Nat := 61

/-- Value of an alphabet character, `0xFF` for every other byte. -/
def decodeMap (c : Nat) : Nat :=
  if 65 ≤ c ∧ c ≤ 90 then c - 65 else if 50 ≤ c ∧ c ≤ 55 then c - 24 else 0xFF

/-- Encode one group of at most five bytes to eight characters. -/
def encodeGroup (g : Bytes) : Bytes :=
  let v := beValue (g ++ List.replicate (5 - g.length) 0)
  let idx := (List.range 8).map (fun i => (v >>> (35 - 5 * i)) % 32)
  let n := match g.length with
    | 1 => 2
    | 2 => 4
    | 3 => 5
    | 4 => 7
    | _ => 8
  (idx.take n).map (fun i => encodeStd.getD i 0) ++ List.replicate (8 - n) padChar

/-- The method `StdEncoding.EncodeToString`. -/
def EncodeToString (src : Bytes) : GoString :=
  ((chunksOf 5 src.length src).map encodeGroup).foldr (fun g acc => g ++ acc) []

/-- The function `stripNewlines`: carriage returns and line feeds are removed before decoding. -/
def stripNewlines (src : Bytes) : Bytes := src.filter (fun c => c != 13 && c != 10)

/-- The inner loop of `decode`: read the characters `j .. 7` of one quantum
(`fuel = 8 - j`). The result is `none` on corrupt input, else the number `dlen`
of characters read, whether padding ended the input, the rest of the input and
the 5-bit values read. -/
def readQuantum : Nat → Nat → Bytes → List Nat → Option (Nat × Bool × Bytes × List Nat)
  | 0, _, src, dbuf => some (8, false, src, dbuf)
  | fuel + 1, j, src, dbuf =>
    match src with
    | [] => none
    | c :: rest =>
      if c = padChar ∧ 2 ≤ j ∧ rest.length < 8 then
        if rest.length + j < 8 - 1 then none
        else if (rest.take (8 - 1 - j)).any (fun x => x != padChar) then none
        else if j = 1 ∨ j = 3 ∨ j = 6 then none
        else some (j, true, rest, dbuf)
      else if decodeMap c = 0xFF then none
      else readQuantum fuel (j + 1) rest (dbuf ++ [decodeMap c])

/-- Pack the 5-bit values of a quantum of `dlen` characters into bytes. -/
def pack (dlen : Nat) (dbuf : List Nat) : Bytes :=
  let d := fun i => dbuf.getD i 0
  let n := match dlen with
    | 8 => 5
    | 7 => 4
    | 5 => 3
    | 4 => 2
    | 2 => 1
    | _ => 0
  [((d 0 <<< 3) ||| (d 1 >>> 2)) % 256,
   ((d 1 <<< 6) ||| (d 2 <<< 1) ||| (d 3 >>> 4)) % 256,
   ((d 3 <<< 4) ||| (d 4 >>> 1)) % 256,
   ((d 4 <<< 7) ||| (d 5 <<< 2) ||| (d 6 >>> 3)) % 256,
   ((d 6 <<< 5) ||| d 7) % 256].take n

/-- The outer loop of `decode`: quantum after quantum while input remains and
no padding has been met. Every quantum consumes input, so `fuel` above the
input length is never exhausted. -/
def decode : Nat → Bytes → Option Bytes
  | 0, _ => none
  | fuel + 1, src =>
    if src.isEmpty then some []
    else
      match readQuantum 8 0 src [] with
      | none => none
      | some (dlen, true, _, dbuf) => some (pack dlen dbuf)
      | some (dlen, false, rest, dbuf) => (decode fuel rest).map (fun out => pack dlen dbuf ++ out)

/-- The method `StdEncoding.DecodeString`: `none` stands for a `CorruptInputError`. -/
def DecodeString (s : GoString) : Option Bytes :=
  let src := stripNewlines s
  decode (src.length + 1) src

end base32

/-! ## Formatting (`fmt`), comparison (`crypto/subtle`), powers of ten (`math`) -/

namespace fmt

/-- Decimal digits of `n`, most significant first (`fuel` bounds their number). -/
def digits : Nat → Nat → Bytes
  | 0, _ => []
  | fuel + 1, n => if n < 10 then [48 + n] else digits fuel (n / 10) ++ [48 + n % 10]

/-- The text of `n` under the verb `%d`. -/
def decimal (n : Nat) : Bytes := digits (n + 1) n

/-- The sign that `%d` writes before the digits. -/
def sign (v : Int) : Bytes := if v < 0 then [45] else []

end fmt

namespace subtle

/-- The function `subtle.ConstantTimeCompare`: 1 when the two slices have equal contents, 0
otherwise; slices of different lengths give 0. -/
def ConstantTimeCompare (x y : Bytes) : Nat :=
  if x.length ≠ y.length then 0
  else if (List.zipWith (fun a b => a ^^^ b) x y).foldl (fun v b => v ||| b) 0 = 0 then 1 else 0

end subtle

/-- The value of `int64(math.Pow10(l))`. For `0 ≤ l ≤ 18` the power is exact and
fits. For `l < 0` the power lies in `[0, 1)` and truncates to 0. For `l ≥ 19`
the power (`+Inf` beyond 308) is outside the `int64` range, where Go leaves the
converted value to the implementation; the amd64 result `-2^63` is taken. -/
def pow10Int64 (l : Int) : Int :=
  if l < 0 then 0 else if l ≤ 18 then ((10 ^ l.toNat : Nat) : Int) else -((2 ^ 63 : Nat) : Int)

/-- Conversion to `int32`: the low 32 bits, read in two's complement. -/
def toInt32 (x : Int) : Int :=
  (x + ((2 ^ 31 : Nat) : Int)) % ((2 ^ 32 : Nat) : Int) - ((2 ^ 31 : Nat) : Int)

/-- Conversion to `int64`: the low 64 bits, read in two's complement. -/
def toInt64 (x : Int) : Int :=
  (x + ((2 ^ 63 : Nat) : Int)) % ((2 ^ 64 : Nat) : Int) - ((2 ^ 63 : Nat) : Int)

/-- Conversion to `uint64`: the low 64 bits. -/
def toUint64 (x : Int) : Nat := (x % ((2 ^ 64 : Nat) : Int)).toNat

/-! ## Package `otp`: errors, digits, algorithms -/

namespace otp

/-- The error values of `errors.go`. -/
inductive Error where
  | ErrValidateSecretInvalidBase32
  | ErrValidateInputInvalidLength
  | ErrGenerateMissingIssuer
  | ErrGenerateMissingAccountName
  deriving DecidableEq, Repr

/-- The type `Digits` is a Go `int`. -/
abbrev Digits := Int

def DigitsSix : Digits := 6

def DigitsEight : Digits := 8

/-- The method `Digits.Length`. -/
def Digits.Length (d : Digits) : Int := d

/-- The method `Digits.Format`: `fmt.Sprintf(f, in)` with `f = fmt.Sprintf("%%0%dd", d)`,
that is `f = "%0" ++ decimal d ++ "d"`, for an `int32` operand `v`.

* `d ≥ 1`: flag `0` and width `d`; the digits are filled with zeros on the left
  up to the width (one less after a minus sign).
* `d = 0`: the format is `%00d`, two flags and no width: the plain number.
* `d < 0`: the format is `%0-Nd`; the flag `-` turns zero filling off and the
  number is followed by blanks up to the width `N`.
* The width parser of `fmt` gives up on a number whose leading digits already
  exceed `10^6` when a further digit follows, i.e. from `10000010` on; the verb
  is then lost and the operand reported as extra. -/
def Digits.Format (d : Digits) (v : Int) : GoString :=
  let body := fmt.decimal v.natAbs
  if d = 0 then fmt.sign v ++ body
  else if 10000010 ≤ d.natAbs then
    goStr "%!(NOVERB)%!(EXTRA int32=" ++ fmt.sign v ++ body ++ goStr ")"
  else if 0 < d then
    fmt.sign v ++ List.replicate (d.toNat - (fmt.sign v).length - body.length) 48 ++ body
  else
    fmt.sign v ++ body ++ List.replicate (d.natAbs - (fmt.sign v).length - body.length) 32

/-- The type `Algorithm` is a Go `int`; the constants are numbered by `iota`. -/
abbrev Algorithm := Int

def AlgorithmSHA1 : Algorithm := 0

def AlgorithmSHA256 : Algorithm := 1

def AlgorithmSHA512 : Algorithm := 2

def AlgorithmMD5 : Algorithm := 3

/-- The method `Algorithm.Hash`: the hash of the algorithm; any other value reaches
`panic("unreached")`. -/
def Algorithm.Hash (a : Algorithm) : Run HashFn :=
  if a = AlgorithmSHA1 then .returns ⟨sha1.sum, 64, 20⟩
  else if a = AlgorithmSHA256 then .returns ⟨sha256.sum, 64, 32⟩
  else if a = AlgorithmSHA512 then .returns ⟨sha512.sum, 128, 64⟩
  else if a = AlgorithmMD5 then .returns ⟨md5.sum, 64, 16⟩
  else .panics

end otp

/-! ## Package `hotp` -/

namespace hotp

/-- The type `hotp.Options`. -/
structure Options where
  Digits : otp.Digits
  Algorithm : otp.Algorithm

/-- Lines 34–41 of `GenerateCodeCustom`: trim the secret, fill it with `=` to a
multiple of eight bytes, upper-case it and decode it. -/
def decodeSecret (secret : GoString) : Option Bytes :=
  let secret := strings.TrimSpace secret
  let n := secret.length % 8
  let secret := if n ≠ 0 then secret ++ List.replicate (8 - n) 61 else secret
  let secret := strings.ToUpper secret
  base32.DecodeString secret

/-- Lines 54–55 of `GenerateCodeCustom`, the dynamic truncation of RFC 4226
section 5.4: `offset` is the low nibble of the last byte and `value` the 31 bits
read from the four bytes at `offset`. Every index expression is checked as Go
checks it; `none` stands for the index-out-of-range panic. -/
def truncate (sum : Bytes) : Option Nat :=
  if sum.length = 0 then none
  else
    match sum[sum.length - 1]? with
    | none => none
    | some last =>
      let offset := last &&& 0xF
      match sum[offset]?, sum[offset + 1]?, sum[offset + 2]?, sum[offset + 3]? with
      | some b0, some b1, some b2, some b3 =>
        some ((((b0 &&& 0x7F) <<< 24) ||| ((b1 &&& 0xFF) <<< 16)) ||| ((b2 &&& 0xFF) <<< 8)
          ||| (b3 &&& 0xFF))
      | _, _, _, _ => none

/-- The function `hotp.GenerateCodeCustom`. The result is the pair `(passcode, err)`. -/
def GenerateCodeCustom (secret : GoString) (counter : Nat) (opts : Options) :
    Run (GoString × Option otp.Error) :=
  match decodeSecret secret with
  | none => .returns ([], some .ErrValidateSecretInvalidBase32)
  | some secretBytes =>
    match opts.Algorithm.Hash with
    | .panics => .panics
    | .hangs => .hangs
    | .returns h =>
      let buf := beBytes 8 counter
      let sum := hmac.sum h secretBytes buf
      match truncate sum with
      | none => .panics
      | some value =>
        let l := opts.Digits.Length
        let m := pow10Int64 l
        if m = 0 then .panics
        else
          let mod := toInt32 (Int.tmod (value : Int) m)
          .returns (opts.Digits.Format mod, none)

/-- The function `hotp.GenerateCode`. -/
def GenerateCode (secret : GoString) (counter : Nat) : Run (GoString × Option otp.Error) :=
  GenerateCodeCustom secret counter ⟨otp.DigitsSix, otp.AlgorithmSHA1⟩

/-- The function `hotp.ValidateCustom`. The result is the pair `(valid, err)`. -/
def ValidateCustom (passcode : GoString) (counter : Nat) (secret : GoString) (opts : Options) :
    Run (Bool × Option otp.Error) :=
  let passcode := strings.TrimSpace passcode
  if (passcode.length : Int) ≠ opts.Digits.Length then
    .returns (false, some .ErrValidateInputInvalidLength)
  else
    match GenerateCodeCustom secret counter opts with
    | .panics => .panics
    | .hangs => .hangs
    | .returns (_, some err) => .returns (false, some err)
    | .returns (otpstr, none) =>
      if subtle.ConstantTimeCompare otpstr passcode = 1 then .returns (true, none)
      else .returns (false, none)

end hotp

/-! ## Floating point (`float64`) as far as `totp` uses it

`totp` computes `math.Floor(float64(t.Unix()) / float64(opts.Period))`. The
operands are integers below `2^64` in magnitude, the divisor is not zero, so
every value is finite and in the normal range of binary64. A finite value is
held as an exact fraction. -/

/-- A finite binary64 value: `(-1)^neg * num / den`. -/
structure Float64 where
  neg : Bool
  num : Nat
  den : Nat
  deriving DecidableEq, Repr

/-- The binary logarithm of `n`, rounded down (0 for `n < 2`); `fuel` bounds the halvings. -/
def log2Fuel : Nat → Nat → Nat
  | 0, _ => 0
  | fuel + 1, n => if n < 2 then 0 else log2Fuel fuel (n / 2) + 1

/-- The position of the leading bit of `n`. -/
def floorLog2 (n : Nat) : Nat := log2Fuel n n

namespace Float64

/-- Round a natural number to the nearest number with 53 significant bits,
ties to the even significand: the conversion of an integer to `float64`. -/
def roundNat (n : Nat) : Nat :=
  if n < 2 ^ 53 then n
  else
    let k := floorLog2 n - 52
    let m0 := n / 2 ^ k
    let r := n % 2 ^ k
    let m := if 2 ^ k < 2 * r ∨ (2 * r = 2 ^ k ∧ m0 % 2 = 1) then m0 + 1 else m0
    m * 2 ^ k

/-- Round the positive fraction `p / q` to the nearest binary64 value, ties to
the even significand. The fraction is scaled by a power of two (`a` over `b`)
so that its integer part `m0` has exactly 53 bits; `m0` is then rounded on the
remainder. The result is the fraction `m * b / a`. -/
def roundQuot (p q : Nat) : Nat × Nat :=
  let u := 52 + floorLog2 q - floorLog2 p
  let v := floorLog2 p - (52 + floorLog2 q)
  let a := if p * 2 ^ u < 2 ^ 52 * (q * 2 ^ v) then 2 ^ (u + 1) else 2 ^ u
  let b := 2 ^ v
  let m0 := (p * a) / (q * b)
  let r := (p * a) % (q * b)
  let m := if q * b < 2 * r ∨ (2 * r = q * b ∧ m0 % 2 = 1) then m0 + 1 else m0
  (m * b, a)

/-- The conversion `float64(x)` of an integer `x`. -/
def ofInt (x : Int) : Float64 := ⟨decide (x < 0), roundNat x.natAbs, 1⟩

/-- The quotient `x / y` of two values, `y` not zero. -/
def div (x y : Float64) : Float64 :=
  if x.num = 0 then ⟨x.neg != y.neg, 0, 1⟩
  else
    let r := roundQuot (x.num * y.den) (x.den * y.num)
    ⟨x.neg != y.neg, r.1, r.2⟩

/-- The value of `math.Floor(x)`, as an integer. -/
def floor (x : Float64) : Int :=
  if x.neg then -(((x.num + x.den - 1) / x.den : Nat) : Int) else ((x.num / x.den : Nat) : Int)

end Float64

/-! ## Package `totp` -/

/-- A `time.Time`, as far as `Unix()` sees it: the seconds since the epoch, an `int64`. -/
structure Time where
  sec : Int
  deriving DecidableEq, Repr

/-- The method `Time.Unix`. -/
def Time.Unix (t : Time) : Int := t.sec

namespace totp

/-- The type `totp.Options`; `Period` and `Skew` are of type `uint`. -/
structure Options where
  Period : Nat
  Skew : Nat
  Digits : otp.Digits
  Algorithm : otp.Algorithm

/-- The period after `if opts.Period == 0 { opts.Period = 30 }`. -/
def period (opts : Options) : Nat := if opts.Period = 0 then 30 else opts.Period

/-- The value of `math.Floor(float64(t.Unix()) / float64(opts.Period))`. -/
def floorQuot (t : Time) (p : Nat) : Int :=
  Float64.floor (Float64.div (Float64.ofInt t.Unix) (Float64.ofInt (p : Int)))

/-- The function `totp.GenerateCodeCustom`. The quotient is converted with `uint64(...)`; for
a negative quotient Go leaves the result to the implementation and the amd64
result, the low 64 bits, is taken. -/
def GenerateCodeCustom (secret : GoString) (t : Time) (opts : Options) :
    Run (GoString × Option otp.Error) :=
  let p := period opts
  let counter := toUint64 (floorQuot t p)
  match hotp.GenerateCodeCustom secret counter ⟨opts.Digits, opts.Algorithm⟩ with
  | .panics => .panics
  | .hangs => .hangs
  | .returns (_, some err) => .returns ([], some err)
  | .returns (passcode, none) => .returns (passcode, none)

/-- The loop `for i := 1; i <= int(opts.Skew); i++` of `ValidateCustom`, which
appends `uint64(counter+int64(i))` and `uint64(counter-int64(i))` to the slice
`counters`. Here `n` is `int(opts.Skew)`, `i` the loop variable (an `int`, so
`i++` wraps) and `fuel` the number of times the loop condition may be
evaluated; `none` means that the loop has not ended by then. -/
def skewLoop (counter n : Int) : Nat → Int → List Nat → Option (List Nat)
  | 0, _, _ => none
  | fuel + 1, i, counters =>
    if i ≤ n then
      skewLoop counter n fuel (toInt64 (i + 1))
        (counters ++ [toUint64 (toInt64 (counter + i)), toUint64 (toInt64 (counter - i))])
    else some counters

/-- The slice `counters` of `ValidateCustom` at the end of the loop: the counter
itself, then the neighbours in the order `+1, -1, +2, -2, ...`. The conversion
`int(opts.Skew)` is negative from `2^63` on. The loop condition is evaluated
`int(opts.Skew) + 1` times when the loop ends; `none` means that it does not
end (see `skewLoop_never_ends`). The list has no bound, a Go slice has: its
bytes cannot exceed `2^48`, which are `2^45` counters, and the run aborts when
`append` would pass that. The list is the slice as long as the window keeps
below that number of entries. -/
def counters (counter : Int) (skew : Nat) : Option (List Nat) :=
  let n := toInt64 (skew : Int)
  skewLoop counter n (n.toNat + 1) 1 [toUint64 counter]

/-- The loop over `counters` in `ValidateCustom`: the first error or the first
match ends it. -/
def probe (passcode secret : GoString) (opts : hotp.Options) :
    List Nat → Run (Bool × Option otp.Error)
  | [] => .returns (false, none)
  | counter :: rest =>
    match hotp.ValidateCustom passcode counter secret opts with
    | .panics => .panics
    | .hangs => .hangs
    | .returns (_, some err) => .returns (false, some err)
    | .returns (rv, none) => if rv then .returns (true, none) else probe passcode secret opts rest

/-- The two loops of `ValidateCustom` in sequence: the scan runs on the slice
that the first loop has built, and is not reached when that loop does not end. -/
def scan (passcode secret : GoString) (opts : hotp.Options) :
    Option (List Nat) → Run (Bool × Option otp.Error)
  | none => .hangs
  | some cs => probe passcode secret opts cs

/-- The function `totp.ValidateCustom`. -/
def ValidateCustom (passcode secret : GoString) (t : Time) (opts : Options) :
    Run (Bool × Option otp.Error) :=
  let p := period opts
  let counter := toInt64 (floorQuot t p)
  scan passcode secret ⟨opts.Digits, opts.Algorithm⟩ (counters counter opts.Skew)

end totp

/-! ## More of `strings` -/

namespace strings

/-- The function `strings.TrimRight(s, cutset)` for a cutset of one ASCII character `c`:
the string without its trailing bytes `c`. -/
def TrimRight (s : GoString) (c : Nat) : GoString := s.rdropWhile (fun b => b == c)

/-- The function `strings.HasPrefix`. -/
def HasPrefix (s pre : GoString) : Bool := pre.isPrefixOf s

/-- The function `strings.TrimPrefix`. -/
def TrimPrefix (s pre : GoString) : GoString := if HasPrefix s pre then s.drop pre.length else s

/-- The function `strings.Index(s, sep)` for a separator of one byte `c`: the position of
the first `c` in `s`, `-1` when there is none. -/
def Index : GoString → Nat → Int
  | [], _ => -1
  | b :: rest, c => if b = c then 0 else
    let i := Index rest c
    if i = -1 then -1 else i + 1

/-- The function `strings.Cut(s, sep)` for a separator of one byte: the text before the
first `sep`, the text after it, and whether `sep` occurs. -/
def Cut : GoString → Nat → GoString × GoString × Bool
  | [], _ => ([], [], false)
  | b :: rest, sep =>
    if b = sep then ([], rest, true)
    else
      let r := Cut rest sep
      (b :: r.1, r.2.1, r.2.2)

/-- The text from the last byte `c` of `s` on (`s[strings.LastIndex(s, c):]`), for a
string that contains `c`. -/
def fromLast (s : GoString) (c : Nat) : GoString :=
  c :: (s.reverse.takeWhile (fun b => b != c)).reverse

/-- The function `strings.ToLower` on ASCII text. -/
def ToLower (s : GoString) : GoString :=
  s.map (fun b => if 0x41 ≤ b ∧ b ≤ 0x5A then b + 0x20 else b)

/-- Lexicographic comparison of byte strings, the order `<` of Go strings. -/
def less : GoString → GoString → Bool
  | _, [] => false
  | [], _ :: _ => true
  | a :: s, b :: t => a < b || (a == b && less s t)

end strings

/-! ## URLs (`net/url`)

The part of `net/url` that keys are built and read with: escaping in the path,
host and query-component modes, query values, `URL.String` and `url.Parse` for
URLs without user information, bracketed host and fragment. -/

namespace url

/-- The escaping modes of `net/url` that are used here. -/
inductive encoding where
  | encodePath
  | encodeHost
  | encodeQueryComponent
  deriving DecidableEq, Repr

/-- The function `ishex`. -/
def ishex (c : Nat) : Bool :=
  (48 ≤ c && c ≤ 57) || (97 ≤ c && c ≤ 102) || (65 ≤ c && c ≤ 70)

/-- The function `unhex`. -/
def unhex (c : Nat) : Nat :=
  if 48 ≤ c ∧ c ≤ 57 then c - 48
  else if 97 ≤ c ∧ c ≤ 102 then c - 97 + 10
  else if 65 ≤ c ∧ c ≤ 70 then c - 65 + 10
  else 0

/-- The digits `0123456789ABCDEF`. -/
def upperhex : Bytes := [48, 49, 50, 51, 52, 53, 54, 55, 56, 57, 65, 66, 67, 68, 69, 70]

/-- The function `shouldEscape`: letters, digits and `- _ . ~` are never escaped; the host
mode also keeps `! $ & ' ( ) * + , ; = : [ ] < > "`; of the reserved characters
`$ & + , / : ; = ? @` the path mode escapes only `?`, the other two modes all
that are left; every other byte is escaped. -/
def shouldEscape (c : Nat) (mode : encoding) : Bool :=
  if (97 ≤ c ∧ c ≤ 122) ∨ (65 ≤ c ∧ c ≤ 90) ∨ (48 ≤ c ∧ c ≤ 57) then false
  else if mode = .encodeHost ∧
      c ∈ [33, 36, 38, 39, 40, 41, 42, 43, 44, 59, 61, 58, 91, 93, 60, 62, 34] then false
  else if c ∈ [45, 95, 46, 126] then false
  else if c ∈ [36, 38, 43, 44, 47, 58, 59, 61, 63, 64] then
    match mode with
    | .encodePath => c == 63
    | _ => true
  else true

/-- What `escape` writes for one byte: the byte, `+` for a space in a query
component, else `%` and two upper-case hex digits. -/
def escapeByte (c : Nat) (mode : encoding) : Bytes :=
  if shouldEscape c mode then
    if c = 32 ∧ mode = .encodeQueryComponent then [43]
    else [37, upperhex.getD (c / 16) 0, upperhex.getD (c % 16) 0]
  else [c]

/-- The function `escape`. -/
def escape : GoString → encoding → GoString
  | [], _ => []
  | c :: rest, mode => escapeByte c mode ++ escape rest mode

/-- The function `unescape`; `none` stands for an `EscapeError` or `InvalidHostError`.
A `%` must be followed by two hex digits (in a host only `%25` or a byte from
`0x80` on); `+` is a space in a query component; a host must not contain an
ASCII byte that `shouldEscape` would escape. -/
def unescape : GoString → encoding → Option GoString
  | [], _ => some []
  | c :: rest, mode =>
    if c = 37 then
      match rest with
      | a :: b :: rest2 =>
        if ishex a ∧ ishex b then
          if mode = .encodeHost ∧ unhex a < 8 ∧ ¬ (a = 50 ∧ b = 53) then none
          else (unescape rest2 mode).map (fun t => (unhex a * 16 + unhex b) :: t)
        else none
      | _ => none
    else if c = 43 then
      (unescape rest mode).map (fun t => (if mode = .encodeQueryComponent then 32 else 43) :: t)
    else if mode = .encodeHost ∧ c < 0x80 ∧ shouldEscape c .encodeHost then none
    else (unescape rest mode).map (fun t => c :: t)

/-- The function `QueryEscape`. -/
def QueryEscape (s : GoString) : GoString := escape s .encodeQueryComponent

/-- The function `QueryUnescape`. -/
def QueryUnescape (s : GoString) : Option GoString := unescape s .encodeQueryComponent

/-- The type `url.Values`, a map from keys to lists of values, as the list of its entries
(keys distinct). -/
abbrev Values := List (GoString × List GoString)

/-- The method `Values.Get`: the first value of the key, the empty string when there is none. -/
def Values.Get (v : Values) (key : GoString) : GoString :=
  match v.lookup key with
  | some (x :: _) => x
  | _ => []

/-- The method `Values.Set`: the key gets the one value. -/
def Values.Set (v : Values) (key value : GoString) : Values :=
  (key, [value]) :: v.filter (fun e => e.1 != key)

/-- The statement `m[key] = append(m[key], value)` of `parseQuery`. -/
def Values.append : Values → GoString → GoString → Values
  | [], key, value => [(key, [value])]
  | (k, vs) :: rest, key, value =>
    if k = key then (k, vs ++ [value]) :: rest else (k, vs) :: Values.append rest key value

/-- Insert a key into a list of keys sorted by `strings.less`. -/
def insertKey (k : GoString) : List GoString → List GoString
  | [] => [k]
  | x :: rest => if strings.less x k then x :: insertKey k rest else k :: x :: rest

/-- The keys of the map in increasing order (`slices.Sort(keys)`). -/
def Values.sortedKeys (v : Values) : List GoString :=
  (v.map (fun e => e.1)).foldr insertKey []

/-- The method `Values.Encode`: the pairs `key=value`, both query-escaped, joined by `&`,
keys in increasing order. -/
def Values.Encode (v : Values) : GoString :=
  let pairs := v.sortedKeys.foldr
    (fun k acc => ((v.lookup k).getD []).map (fun x => QueryEscape k ++ [61] ++ QueryEscape x) ++ acc)
    []
  [38].intercalate pairs

/-- The pieces of `s` between the bytes `sep`. -/
def pieces (sep : Nat) : GoString → List GoString
  | [] => [[]]
  | c :: rest =>
    if c = sep then [] :: pieces sep rest
    else
      match pieces sep rest with
      | [] => [[c]]
      | p :: ps => (c :: p) :: ps

/-- One round of the loop of `parseQuery` on the piece `key` between two `&`: a piece that
is empty, contains `;` or does not unescape is skipped. -/
def parsePair (m : Values) (key : GoString) : Values :=
  if 59 ∈ key then m
  else if key = [] then m
  else
    let c := strings.Cut key 61
    match QueryUnescape c.1 with
    | none => m
    | some k =>
      match QueryUnescape c.2.1 with
      | none => m
      | some value => m.append k value

/-- The function `ParseQuery` without its error result, which `URL.Query` drops: the loop
cuts the query at each `&` and handles piece after piece. -/
def ParseQuery (query : GoString) : Values := (pieces 38 query).foldl parsePair []

/-- The type `url.URL` without user information and fragment. -/
structure URL where
  Scheme : GoString := []
  Opaque : GoString := []
  Host : GoString := []
  Path : GoString := []
  RawPath : GoString := []
  OmitHost : Bool := false
  ForceQuery : Bool := false
  RawQuery : GoString := []
  deriving DecidableEq, Repr

/-- The method `URL.Query`. -/
def URL.Query (u : URL) : Values := ParseQuery u.RawQuery

/-- The function `validEncoded`. -/
def validEncoded (s : GoString) (mode : encoding) : Bool :=
  s.all (fun c =>
    c ∈ [33, 36, 38, 39, 40, 41, 42, 43, 44, 59, 61, 58, 64, 91, 93, 37] || !shouldEscape c mode)

/-- The method `URL.EscapedPath`. -/
def URL.EscapedPath (u : URL) : GoString :=
  if u.RawPath ≠ [] ∧ validEncoded u.RawPath .encodePath = true ∧
      unescape u.RawPath .encodePath = some u.Path then u.RawPath
  else if u.Path = [42] then [42]
  else escape u.Path .encodePath

/-- The method `URL.String`. -/
def URL.String (u : URL) : GoString :=
  let scheme := if u.Scheme ≠ [] then u.Scheme ++ [58] else []
  let body :=
    if u.Opaque ≠ [] then scheme ++ u.Opaque
    else
      let authority :=
        if u.Scheme ≠ [] ∨ u.Host ≠ [] then
          if u.OmitHost = true ∧ u.Host = [] then []
          else
            (if u.Host ≠ [] ∨ u.Path ≠ [] then [47, 47] else []) ++
              (if u.Host ≠ [] then escape u.Host .encodeHost else [])
        else []
      let buf := scheme ++ authority
      let path := u.EscapedPath
      let buf := if path ≠ [] ∧ path.head? ≠ some 47 ∧ u.Host ≠ [] then buf ++ [47] else buf
      let buf := if buf = [] ∧ 58 ∈ (strings.Cut path 47).1 then buf ++ [46, 47] else buf
      buf ++ path
  body ++ (if u.ForceQuery = true ∨ u.RawQuery ≠ [] then 63 :: u.RawQuery else [])

/-- Outcome of parsing: a value, an error, or `outside` for a text with user information,
a bracketed host or a fragment, which are not modelled. -/
inductive Parsed (α : Type) where
  | ok : α → Parsed α
  | error : Parsed α
  | outside : Parsed α
  deriving DecidableEq, Repr

/-- The loop of `getScheme` from position `i` on, `rest` being `rawURL[i:]`. -/
def schemeLoop (rawURL : GoString) : Nat → GoString → Option (GoString × GoString)
  | _, [] => some ([], rawURL)
  | i, c :: rest =>
    if (97 ≤ c ∧ c ≤ 122) ∨ (65 ≤ c ∧ c ≤ 90) then schemeLoop rawURL (i + 1) rest
    else if (48 ≤ c ∧ c ≤ 57) ∨ c = 43 ∨ c = 45 ∨ c = 46 then
      if i = 0 then some ([], rawURL) else schemeLoop rawURL (i + 1) rest
    else if c = 58 then
      if i = 0 then none else some (rawURL.take i, rawURL.drop (i + 1))
    else some ([], rawURL)

/-- The function `getScheme`: the scheme and the rest, `none` for `missing protocol scheme`. -/
def getScheme (rawURL : GoString) : Option (GoString × GoString) := schemeLoop rawURL 0 rawURL

/-- The function `stringContainsCTLByte`. -/
def stringContainsCTLByte (s : GoString) : Bool := s.any (fun b => b < 0x20 || b == 0x7F)

/-- The function `validOptionalPort`. -/
def validOptionalPort (port : GoString) : Bool :=
  match port with
  | [] => true
  | c :: rest => c == 58 && rest.all (fun b => 48 ≤ b && b ≤ 57)

/-- The function `parseHost`. A host that contains `[` (an IP literal, or an error,
depending on where the bracket stands) is outside the model. -/
def parseHost (host : GoString) : Parsed GoString :=
  if 91 ∈ host then .outside
  else if 58 ∈ host ∧ validOptionalPort (strings.fromLast host 58) = false then .error
  else
    match unescape host .encodeHost with
    | none => .error
    | some h => .ok h

/-- The method `URL.setPath`. -/
def URL.setPath (u : URL) (p : GoString) : Parsed URL :=
  match unescape p .encodePath with
  | none => .error
  | some path =>
    .ok { u with Path := path, RawPath := if escape path .encodePath = p then [] else p }

/-- The function `parse` with `viaRequest = false`. -/
def parse (rawURL : GoString) : Parsed URL :=
  if stringContainsCTLByte rawURL then .error
  else if rawURL = [42] then .ok { Path := [42] }
  else
    match getScheme rawURL with
    | none => .error
    | some (scheme, rest) =>
      let scheme := strings.ToLower scheme
      let force := rest.getLast? = some 63 ∧ rest.count 63 = 1
      let rest1 := if force then rest.dropLast else (strings.Cut rest 63).1
      let rawQuery := if force then [] else (strings.Cut rest 63).2.1
      let u : URL := { Scheme := scheme, ForceQuery := decide force, RawQuery := rawQuery }
      if ¬ strings.HasPrefix rest1 [47] = true ∧ scheme ≠ [] then .ok { u with Opaque := rest1 }
      else if ¬ strings.HasPrefix rest1 [47] = true ∧ 58 ∈ (strings.Cut rest1 47).1 then .error
      else if (scheme ≠ [] ∨ ¬ strings.HasPrefix rest1 [47, 47, 47] = true) ∧
          strings.HasPrefix rest1 [47, 47] = true then
        let a := rest1.drop 2
        let i := strings.Index a 47
        let authority := if 0 ≤ i then a.take i.toNat else a
        let rest2 := if 0 ≤ i then a.drop i.toNat else []
        if 64 ∈ authority then .outside
        else
          match parseHost authority with
          | .error => .error
          | .outside => .outside
          | .ok host => URL.setPath { u with Host := host } rest2
      else
        URL.setPath { u with OmitHost := decide (scheme ≠ [] ∧ strings.HasPrefix rest1 [47] = true) }
          rest1

/-- The function `url.Parse`. A fragment that is not empty is outside the model. -/
def Parse (rawURL : GoString) : Parsed URL :=
  let c := strings.Cut rawURL 35
  match parse c.1 with
  | .error => .error
  | .outside => .outside
  | .ok u => if c.2.1 = [] then .ok u else .outside

end url

/-! ## Package `otp`: keys -/

namespace otp

/-- The type `otp.Key`: the text it was made from and the parsed URL. -/
structure Key where
  orig : GoString
  url : url.URL
  deriving DecidableEq, Repr

/-- The function `otp.NewKeyFromURL`. -/
def NewKeyFromURL (orig : GoString) : url.Parsed Key :=
  let s := strings.TrimSpace orig
  match url.Parse s with
  | .error => .error
  | .outside => .outside
  | .ok u => .ok ⟨s, u⟩

/-- The method `Key.String`. -/
def Key.String (k : Key) : GoString := k.orig

/-- The method `Key.Type`. -/
def Key.Type (k : Key) : GoString := k.url.Host

/-- The method `Key.Issuer`. -/
def Key.Issuer (k : Key) : GoString :=
  let q := k.url.Query
  let issuer := url.Values.Get q (goStr "issuer")
  if issuer ≠ [] then issuer
  else
    let p := strings.TrimPrefix k.url.Path [47]
    let i := strings.Index p 58
    if i = -1 then [] else p.take i.toNat

/-- The method `Key.AccountName`. -/
def Key.AccountName (k : Key) : GoString :=
  let p := strings.TrimPrefix k.url.Path [47]
  let i := strings.Index p 58
  if i = -1 then p else p.drop (i + 1).toNat

/-- The method `Key.Secret`. -/
def Key.Secret (k : Key) : GoString := url.Values.Get k.url.Query (goStr "secret")

/-- The method `Key.URL`. -/
def Key.URL (k : Key) : GoString := k.url.String

/-- The method `Digits.String`: the decimal text of the number (`fmt.Sprintf` with the
verb `d`). -/
def Digits.String (d : Digits) : GoString := fmt.sign d ++ fmt.decimal d.natAbs

/-- The method `Algorithm.String`; it panics for a value outside the four algorithms. -/
def Algorithm.String (a : Algorithm) : Run GoString :=
  if a = AlgorithmSHA1 then .returns (goStr "SHA1")
  else if a = AlgorithmSHA256 then .returns (goStr "SHA256")
  else if a = AlgorithmSHA512 then .returns (goStr "SHA512")
  else if a = AlgorithmMD5 then .returns (goStr "MD5")
  else .panics

/-- An error returned by `Generate`: one of the errors of the package, the error of
`rand.Read`, or the error of `url.Parse`. -/
inductive GenerateError where
  | otp : Error → GenerateError
  | rand : GenerateError
  | parse : GenerateError
  deriving DecidableEq, Repr

/-- Result `(*Key, error)` of `Generate`: a key, an error, or `outside` when the text
handed to `url.Parse` is not covered by the model of `net/url`. -/
inductive Generated where
  | key : Key → Generated
  | err : GenerateError → Generated
  | outside : Generated
  deriving DecidableEq, Repr

/-- The last statement of both `Generate` functions: the key parsed from the text of the
URL assembled there. -/
def generated (host issuer account : GoString) (v : url.Values) : Generated :=
  let u : url.URL :=
    { Scheme := goStr "otpauth", Host := host, Path := [47] ++ issuer ++ [58] ++ account,
      RawQuery := url.Values.Encode v }
  match NewKeyFromURL u.String with
  | .ok k => .key k
  | .error => .err .parse
  | .outside => .outside

end otp

/-- The constant `maxAlloc` of the Go runtime, the largest size of one allocation: `2^48`
bytes on linux/amd64 and linux/arm64. `make([]byte, n)` panics with
`makeslice: len out of range` when `n` is larger; so it does for every `n` of
type `uint` from `2^63` on, whose conversion to `int` is negative. -/
def maxAlloc : Nat := 2 ^ 48

namespace hotp

/-- The type `hotp.GenerateOpts`. -/
structure GenerateOpts where
  Issuer : GoString
  AccountName : GoString
  SecretSize : Nat
  Digits : otp.Digits
  Algorithm : otp.Algorithm

/-- The function `hotp.Generate`. The statement `make([]byte, opts.SecretSize)` panics for
a size above `maxAlloc`. The argument `rand` stands for `crypto/rand.Read` on
the fresh slice of the given length: the bytes it leaves there, `none` when it
reports an error. -/
def Generate (opts : GenerateOpts) (rand : Nat → Option Bytes) : Run otp.Generated :=
  if opts.Issuer = [] then .returns (.err (.otp .ErrGenerateMissingIssuer))
  else if opts.AccountName = [] then .returns (.err (.otp .ErrGenerateMissingAccountName))
  else
    let secretSize := if opts.SecretSize = 0 then 20 else opts.SecretSize
    if maxAlloc < secretSize then .panics
    else
      match rand secretSize with
      | none => .returns (.err .rand)
      | some secret =>
        let v : url.Values := []
        let v := url.Values.Set v (goStr "secret")
          (strings.TrimRight (base32.EncodeToString secret) 61)
        let v := url.Values.Set v (goStr "issuer") opts.Issuer
        match opts.Algorithm.String with
        | .panics => .panics
        | .hangs => .hangs
        | .returns alg =>
          let v := url.Values.Set v (goStr "algorithm") alg
          let v := url.Values.Set v (goStr "digits") opts.Digits.String
          .returns (otp.generated (goStr "hotp") opts.Issuer opts.AccountName v)

end hotp

namespace totp

/-- The type `totp.GenerateOpts`. -/
structure GenerateOpts where
  Issuer : GoString
  AccountName : GoString
  Period : Nat
  SecretSize : Nat
  Digits : otp.Digits
  Algorithm : otp.Algorithm

/-- The function `totp.Generate`, with `make` and `rand` as in `hotp.Generate`. -/
def Generate (opts : GenerateOpts) (rand : Nat → Option Bytes) : Run otp.Generated :=
  if opts.Issuer = [] then .returns (.err (.otp .ErrGenerateMissingIssuer))
  else if opts.AccountName = [] then .returns (.err (.otp .ErrGenerateMissingAccountName))
  else
    let period := if opts.Period = 0 then 30 else opts.Period
    let secretSize := if opts.SecretSize = 0 then 10 else opts.SecretSize
    let digits := if opts.Digits = 0 then otp.DigitsSix else opts.Digits
    if maxAlloc < secretSize then .panics
    else
      match rand secretSize with
      | none => .returns (.err .rand)
      | some secret =>
        let v : url.Values := []
        let v := url.Values.Set v (goStr "secret")
          (strings.TrimRight (base32.EncodeToString secret) 61)
        let v := url.Values.Set v (goStr "issuer") opts.Issuer
        let v := url.Values.Set v (goStr "period") (fmt.decimal period)
        match opts.Algorithm.String with
        | .panics => .panics
        | .hangs => .hangs
        | .returns alg =>
          let v := url.Values.Set v (goStr "algorithm") alg
          let v := url.Values.Set v (goStr "digits") digits.String
          .returns (otp.generated (goStr "totp") opts.Issuer opts.AccountName v)

end totp

namespace hotp

/-- Lines 34–39 of `GenerateCodeCustom`: the text that is handed to the base32 decoder.
The secret is trimmed, then filled with `=` to a multiple of eight bytes, then
upper-cased. -/
def normalize (secret : GoString) : GoString :=
  let secret := strings.TrimSpace secret
  let n := secret.length % 8
  let secret := if n ≠ 0 then secret ++ List.replicate (8 - n) 61 else secret
  strings.ToUpper secret

/-- Lines 46–60 of `GenerateCodeCustom`: the code computed from the decoded secret. -/
def codeOfKey (secretBytes : Bytes) (counter : Nat) (opts : Options) :
    Run (GoString × Option otp.Error) :=
  match opts.Algorithm.Hash with
  | .panics => .panics
  | .hangs => .hangs
  | .returns h =>
    let buf := beBytes 8 counter
    let sum := hmac.sum h secretBytes buf
    match truncate sum with
    | none => .panics
    | some value =>
      let l := opts.Digits.Length
      let m := pow10Int64 l
      if m = 0 then .panics
      else
        let mod := toInt32 (Int.tmod (value : Int) m)
        .returns (opts.Digits.Format mod, none)

end hotp

/-- The normalisation of a secret in the order of the specification: trim white space,
upper-case, then fill with `=` to the next multiple of eight. -/
def specNormalize (secret : GoString) : GoString :=
  let t := strings.ToUpper (strings.TrimSpace secret)
  if t.length % 8 ≠ 0 then t ++ List.replicate (8 - t.length % 8) 61 else t

/-- A source of random bytes that never fails and leaves zero bytes. -/
def zeroRand (n : Nat) : Option Bytes := some (List.replicate n 0)

/-! ## Closed forms used in the statements about keys -/

/-- The query text `k1=v1&k2=v2...` of the pairs `kv`, keys and values query-escaped. -/
def url.queryText (kv : List (GoString × GoString)) : GoString :=
  [38].intercalate (kv.map (fun p => url.QueryEscape p.1 ++ [61] ++ url.QueryEscape p.2))

/-- The key whose URL has scheme `otpauth`, the given host, the path `/issuer:account` and the
query text of the pairs `kv`, together with the text of that URL. -/
def otp.keyOf (host issuer account : GoString) (kv : List (GoString × GoString)) : otp.Key :=
  ⟨goStr "otpauth://" ++ host ++ [47] ++ url.escape (issuer ++ [58] ++ account) .encodePath ++
      [63] ++ url.queryText kv,
    { Scheme := goStr "otpauth", Host := host, Path := [47] ++ issuer ++ [58] ++ account,
      RawQuery := url.queryText kv }⟩

/-- The key of a result of `Generate`, when it is a key. -/
def otp.Generated.toKey : Run otp.Generated → Option otp.Key
  | .returns (.key k) => some k
  | _ => none

/-- The neighbours that the loop of `ValidateCustom` appends for
`i = first, first + 1, ...`, `m` pairs: the closed form of `totp.skewLoop`
(see `skewLoop_ends`). -/
def neighbours (counter first : Int) (m : Nat) : List Nat :=
  (List.range m).foldr
    (fun (k : Nat) acc => toUint64 (counter + (first + (k : Int))) ::
      toUint64 (counter - (first + (k : Int))) :: acc) []

/-- The secret of the RFC 4226 vectors: base32 of the ASCII bytes `12345678901234567890`. -/
def secSha1 : GoString := base32.EncodeToString (goStr "12345678901234567890")

/-- The secret of the RFC 6238 vectors for SHA-256: base32 of 32 ASCII digits. -/
def secSha256 : GoString := base32.EncodeToString (goStr "12345678901234567890123456789012")

/-- The secret of the RFC 6238 vectors for SHA-512: base32 of 64 ASCII digits. -/
def secSha512 : GoString :=
  base32.EncodeToString
    (goStr "1234567890123456789012345678901234567890123456789012345678901234")

/-! # Properties

## Lengths of digests -/

theorem beBytes_length (n x : Nat) : (beBytes n x).length = n := by
  induction n with
  | zero => rfl
  | succ k ih => simp [beBytes, ih]

theorem leBytes_length (n x : Nat) : (leBytes n x).length = n := by
  induction n generalizing x with
  | zero => rfl
  | succ k ih => simp [leBytes, ih]

theorem sha1_sum_length (msg : Bytes) : (sha1.sum msg).length = 20 := by
  simp [sha1.sum, beBytes_length]

theorem sha256_sum_length (msg : Bytes) : (sha256.sum msg).length = 32 := by
  simp [sha256.sum, sha2.sum, beBytes_length, sha256.params]

theorem sha512_sum_length (msg : Bytes) : (sha512.sum msg).length = 64 := by
  simp [sha512.sum, sha2.sum, beBytes_length, sha512.params]

theorem md5_sum_length (msg : Bytes) : (md5.sum msg).length = 16 := by
  simp [md5.sum, leBytes_length]

/-! ## Dynamic truncation -/

theorem truncate_some (sum : Bytes) (h : 19 ≤ sum.length) :
    ∃ v, hotp.truncate sum = some v ∧ v < 2 ^ 31 := by
  unfold hotp.truncate
  have hl : sum.length - 1 < sum.length := by omega
  have hne : sum.length ≠ 0 := by omega
  rw [if_neg hne, List.getElem?_eq_getElem hl]
  simp only
  have ho : sum[sum.length - 1] &&& 0xF ≤ 15 := Nat.and_le_right
  have h0 : (sum[sum.length - 1] &&& 0xF) < sum.length := by omega
  have h1 : (sum[sum.length - 1] &&& 0xF) + 1 < sum.length := by omega
  have h2 : (sum[sum.length - 1] &&& 0xF) + 2 < sum.length := by omega
  have h3 : (sum[sum.length - 1] &&& 0xF) + 3 < sum.length := by omega
  rw [List.getElem?_eq_getElem h0, List.getElem?_eq_getElem h1, List.getElem?_eq_getElem h2,
    List.getElem?_eq_getElem h3]
  refine ⟨_, rfl, ?_⟩
  have a0 : ∀ x : Nat, (x &&& 0x7F) <<< 24 < 2 ^ 31 := by
    intro x
    have : x &&& 0x7F < 2 ^ 7 := Nat.and_lt_two_pow x (by norm_num)
    rw [Nat.shiftLeft_eq]; omega
  have a1 : ∀ x : Nat, (x &&& 0xFF) <<< 16 < 2 ^ 31 := by
    intro x
    have : x &&& 0xFF < 2 ^ 8 := Nat.and_lt_two_pow x (by norm_num)
    rw [Nat.shiftLeft_eq]; omega
  have a2 : ∀ x : Nat, (x &&& 0xFF) <<< 8 < 2 ^ 31 := by
    intro x
    have : x &&& 0xFF < 2 ^ 8 := Nat.and_lt_two_pow x (by norm_num)
    rw [Nat.shiftLeft_eq]; omega
  have a3 : ∀ x : Nat, (x &&& 0xFF) < 2 ^ 31 := by
    intro x
    have : x &&& 0xFF < 2 ^ 8 := Nat.and_lt_two_pow x (by norm_num)
    omega
  exact Nat.or_lt_two_pow (Nat.or_lt_two_pow (Nat.or_lt_two_pow (a0 _) (a1 _)) (a2 _)) (a3 _)

/-! ## The formatted code -/

theorem digits_length_le (fuel n d : Nat) (hd : 1 ≤ d) (hn : n < 10 ^ d) :
    (fmt.digits fuel n).length ≤ d := by
  induction fuel generalizing n d with
  | zero => simp [fmt.digits]
  | succ f ih =>
    unfold fmt.digits
    split
    · simpa using hd
    · rename_i h10
      obtain ⟨e, rfl⟩ : ∃ e, d = e + 1 := ⟨d - 1, by omega⟩
      have he : 1 ≤ e := by
        rcases Nat.eq_zero_or_pos e with h0 | h0
        · subst h0; simp at hn; omega
        · exact h0
      have hn2 : n / 10 < 10 ^ e := by
        rw [Nat.div_lt_iff_lt_mul (by norm_num)]
        rw [pow_succ] at hn; exact hn
      have := ih (n / 10) e he hn2
      simp; omega

theorem digits_mem (fuel n : Nat) : ∀ b ∈ fmt.digits fuel n, 48 ≤ b ∧ b ≤ 57 := by
  induction fuel generalizing n with
  | zero => simp [fmt.digits]
  | succ f ih =>
    unfold fmt.digits
    split
    · intro b hb; simp at hb; omega
    · intro b hb
      simp at hb
      rcases hb with hb | hb
      · exact ih _ b hb
      · omega

theorem format_shape (d w : Int) (hd1 : 1 ≤ d) (hd9 : d ≤ 9) (hw0 : 0 ≤ w)
    (hw : w < 10 ^ d.toNat) :
    (otp.Digits.Format d w).length = d.toNat ∧ ∀ b ∈ otp.Digits.Format d w, 48 ≤ b ∧ b ≤ 57 := by
  have hne : d ≠ 0 := by omega
  have hbig : ¬ (10000010 ≤ d.natAbs) := by omega
  have hpos : 0 < d := by omega
  have hs : fmt.sign w = [] := by simp [fmt.sign]; omega
  have hlen : (fmt.decimal w.natAbs).length ≤ d.toNat := by
    apply digits_length_le
    · omega
    · have : ((w.natAbs : Nat) : Int) < ((10 ^ d.toNat : Nat) : Int) := by
        rw [Int.natAbs_of_nonneg hw0]; push_cast; exact hw
      exact_mod_cast this
  unfold otp.Digits.Format
  simp only [hne, hbig, hpos, hs, if_false, if_true, List.nil_append, List.length_nil]
  constructor
  · simp; omega
  · intro b hb
    simp at hb
    rcases hb with ⟨_, rfl⟩ | hb
    · omega
    · exact digits_mem _ _ b hb

/-! ## Trimming and comparing -/

theorem lor_eq_zero (a b : Nat) : a ||| b = 0 ↔ a = 0 ∧ b = 0 := by
  constructor
  · intro h
    have key : ∀ i, a.testBit i = false ∧ b.testBit i = false := by
      intro i
      have h2 := congrArg (fun n => n.testBit i) h
      simpa [Nat.testBit_or] using h2
    exact ⟨Nat.eq_of_testBit_eq (fun i => by simp [(key i).1]),
      Nat.eq_of_testBit_eq (fun i => by simp [(key i).2])⟩
  · rintro ⟨rfl, rfl⟩; rfl

theorem trimLeft_digit (fuel : Nat) (s : GoString) (hs : ∀ b ∈ s, 48 ≤ b ∧ b ≤ 57) :
    strings.trimLeft fuel s = s := by
  cases fuel with
  | zero => rfl
  | succ f =>
    unfold strings.trimLeft
    have : strings.spaces.find? (fun e => e.isPrefixOf s) = none := by
      rw [List.find?_eq_none]
      cases s with
      | nil => simp [strings.spaces, List.isPrefixOf]
      | cons b rest =>
        have hb := hs b (by simp)
        simp [strings.spaces, List.isPrefixOf]
        omega
    rw [this]

theorem trimRight_digit (fuel : Nat) (s : GoString) (hs : ∀ b ∈ s, 48 ≤ b ∧ b ≤ 57) :
    strings.trimRight fuel s = s := by
  cases fuel with
  | zero => rfl
  | succ f =>
    unfold strings.trimRight
    have : strings.spaces.find? (fun e => e.reverse.isPrefixOf s.reverse) = none := by
      rw [List.find?_eq_none]
      have hr : ∀ b ∈ s.reverse, 48 ≤ b ∧ b ≤ 57 := fun b hb => hs b (List.mem_reverse.mp hb)
      generalize s.reverse = r at hr
      cases r with
      | nil => simp [strings.spaces, List.isPrefixOf]
      | cons b rest =>
        have hb := hr b (by simp)
        simp [strings.spaces, List.isPrefixOf]
        omega
    rw [this]

theorem trimSpace_digit (s : GoString) (hs : ∀ b ∈ s, 48 ≤ b ∧ b ≤ 57) :
    strings.TrimSpace s = s := by
  unfold strings.TrimSpace
  simp only [trimLeft_digit _ s hs, trimRight_digit _ s hs]

theorem foldl_lor_eq_zero (l : List Nat) (v : Nat) :
    l.foldl (fun v b => v ||| b) v = 0 ↔ v = 0 ∧ ∀ b ∈ l, b = 0 := by
  induction l generalizing v with
  | nil => simp
  | cons a t ih =>
    simp only [List.foldl_cons, ih, lor_eq_zero, List.mem_cons, forall_eq_or_imp]
    tauto

theorem zipWith_xor_zero (x y : List Nat) (h : x.length = y.length) :
    (∀ b ∈ List.zipWith (fun a b => a ^^^ b) x y, b = 0) ↔ x = y := by
  induction x generalizing y with
  | nil => cases y with
    | nil => simp
    | cons b t => simp at h
  | cons a s ih =>
    cases y with
    | nil => simp at h
    | cons b t =>
      simp only [List.length_cons, Nat.add_right_cancel_iff] at h
      simp only [List.zipWith_cons_cons, List.mem_cons, forall_eq_or_imp, ih t h,
        Nat.xor_eq_zero, List.cons.injEq]

theorem constantTimeCompare_eq_one (x y : Bytes) :
    subtle.ConstantTimeCompare x y = 1 ↔ x = y := by
  unfold subtle.ConstantTimeCompare
  by_cases hl : x.length = y.length
  · simp only [hl, ne_eq, not_true_eq_false, if_false, foldl_lor_eq_zero, true_and]
    have hz := zipWith_xor_zero x y hl
    by_cases hxy : x = y
    · have := hz.mpr hxy
      simp [hxy]
    · have : ¬ ∀ b ∈ List.zipWith (fun a b => a ^^^ b) x y, b = 0 := fun h => hxy (hz.mp h)
      simp only [this, if_false, hxy]
      simp
  · have : x ≠ y := fun h => hl (by rw [h])
    simp [hl, this]

/-! ## The float quotient is exact below `2^53` -/

theorem log2Fuel_eq (fuel n : Nat) (h : n ≤ fuel) : log2Fuel fuel n = Nat.log2 n := by
  induction fuel generalizing n with
  | zero =>
    have : n = 0 := by omega
    subst this
    rw [Nat.log2]; simp [log2Fuel]
  | succ f ih =>
    unfold log2Fuel
    rw [Nat.log2]
    by_cases h2 : n < 2
    · rw [if_pos h2, if_neg (by omega)]
    · rw [if_neg h2, if_pos (by omega), ih _ (by omega)]

theorem floorLog2_eq (n : Nat) : floorLog2 n = Nat.log2 n := log2Fuel_eq n n (le_refl n)

theorem floorLog2_self_le {n : Nat} (h : n ≠ 0) : 2 ^ floorLog2 n ≤ n := by
  rw [floorLog2_eq]; exact Nat.log2_self_le h

theorem lt_floorLog2_self {n : Nat} : n < 2 ^ (floorLog2 n + 1) := by
  rw [floorLog2_eq]; exact Nat.lt_log2_self

namespace Float64

/-- Scaling and remainder facts for a quotient with a numerator below `2^53`. -/
theorem roundQuot_spec (x q : Nat) (hx0 : 0 < x) (hx : x < 2 ^ 53) (hq : 0 < q) :
    ∃ a m0 r m : Nat, roundQuot x q = (m, a) ∧ 0 < a ∧ q < 2 * a ∧ x * a = m0 * q + r ∧ r < q ∧
      (m = m0 ∧ 2 * r ≤ q ∨ m = m0 + 1 ∧ q ≤ 2 * r) := by
  have hlx : floorLog2 x ≤ 52 := by
    by_contra hcon
    have h1 : 2 ^ 53 ≤ 2 ^ floorLog2 x := Nat.pow_le_pow_right (by norm_num) (by omega)
    have h2 := floorLog2_self_le (n := x) (by omega)
    omega
  have hv : floorLog2 x - (52 + floorLog2 q) = 0 := by omega
  have hxl := floorLog2_self_le (n := x) (by omega)
  have hql : q < 2 ^ (floorLog2 q + 1) := lt_floorLog2_self
  set u := 52 + floorLog2 q - floorLog2 x with hu
  -- the scale chosen by the definition
  set a := if x * 2 ^ u < 2 ^ 52 * q then 2 ^ (u + 1) else 2 ^ u with ha
  have ha0 : 0 < a := by
    rw [ha]; split <;> positivity
  have hnorm : 2 ^ 52 * q ≤ x * a := by
    rw [ha]
    split
    · have e1 : 2 ^ floorLog2 x * 2 ^ (u + 1) = 2 ^ 52 * 2 ^ (floorLog2 q + 1) := by
        rw [← pow_add, ← pow_add]; congr 1; omega
      calc 2 ^ 52 * q ≤ 2 ^ 52 * 2 ^ (floorLog2 q + 1) := Nat.mul_le_mul_left _ (le_of_lt hql)
        _ = 2 ^ floorLog2 x * 2 ^ (u + 1) := e1.symm
        _ ≤ x * 2 ^ (u + 1) := Nat.mul_le_mul_right _ hxl
    · rename_i h; omega
  have hq2 : q < 2 * a := by
    have h1 : x * a ≤ (2 ^ 53 - 1) * a := Nat.mul_le_mul_right _ (by omega)
    by_contra hcon
    have h2 : 2 ^ 52 * (2 * a) ≤ 2 ^ 52 * q := Nat.mul_le_mul_left _ (by omega)
    norm_num at h1 h2 hnorm
    omega
  refine ⟨a, x * a / q, x * a % q,
    if q < 2 * (x * a % q) ∨ (2 * (x * a % q) = q ∧ (x * a / q) % 2 = 1) then x * a / q + 1
    else x * a / q, ?_, ha0, hq2, ?_, Nat.mod_lt _ hq, ?_⟩
  · unfold roundQuot
    simp only [hv, pow_zero, mul_one]
  · rw [Nat.mul_comm (x * a / q) q]; exact (Nat.div_add_mod _ _).symm
  · split
    · rename_i h; right; refine ⟨rfl, ?_⟩; omega
    · rename_i h; left; refine ⟨rfl, ?_⟩; omega

theorem roundQuot_floor (x q : Nat) (hx0 : 0 < x) (hx : x < 2 ^ 53) (hq : 0 < q) :
    (roundQuot x q).1 / (roundQuot x q).2 = x / q := by
  obtain ⟨a, m0, r, m, hrq, ha0, hq2, hdiv, hr, hm⟩ := roundQuot_spec x q hx0 hx hq
  rw [hrq]
  simp only
  have hm0 : m0 = x * a / q := by
    have : (m0 * q + r) / q = m0 := by
      rw [Nat.add_comm, Nat.add_mul_div_right _ _ hq, Nat.div_eq_of_lt hr]; simp
    rw [hdiv, this]
  have hfl : m0 / a = x / q := by
    rw [hm0, Nat.div_div_eq_div_mul, Nat.mul_div_mul_right _ _ ha0]
  rcases hm with ⟨rfl, _⟩ | ⟨rfl, h2r⟩
  · exact hfl
  · rw [Nat.succ_div]
    split
    · rename_i hdvd
      exfalso
      obtain ⟨j, hj⟩ := hdvd
      -- a * (j * q - x) = q - r, so a ≤ q - r ≤ q / 2 < a
      have e1 : a * (j * q) = x * a + (q - r) := by
        have : (m0 + 1) * q = a * j * q := by rw [hj]
        have h3 : m0 * q + q = a * (j * q) := by rw [← Nat.mul_assoc, ← this]; ring
        omega
      have hdv : a ∣ q - r := by
        have h1 : a ∣ a * (j * q) := Dvd.intro _ rfl
        have h2 : a ∣ x * a := Dvd.intro_left _ rfl
        rw [e1] at h1
        exact (Nat.dvd_add_right h2).mp h1
      have := Nat.le_of_dvd (by omega) hdv
      omega
    · rw [hfl]; simp

theorem roundQuot_ceil (x q : Nat) (hx0 : 0 < x) (hx : x < 2 ^ 53) (hq : 0 < q) :
    ((roundQuot x q).1 + (roundQuot x q).2 - 1) / (roundQuot x q).2 = (x + q - 1) / q := by
  obtain ⟨a, m0, r, m, hrq, ha0, hq2, hdiv, hr, hm⟩ := roundQuot_spec x q hx0 hx hq
  rw [hrq]
  simp only
  -- both sides are the least `c` with `x ≤ c * q`, resp. `m ≤ c * a`
  have hc1 : x ≤ (x + q - 1) / q * q := by
    have h1 := Nat.div_add_mod (x + q - 1) q
    have h2 := Nat.mod_lt (x + q - 1) hq
    have h3 : q * ((x + q - 1) / q) = (x + q - 1) / q * q := Nat.mul_comm _ _
    omega
  have hc2 : (x + q - 1) / q * q < x + q := by
    have := Nat.div_mul_le_self (x + q - 1) q
    omega
  generalize (x + q - 1) / q = c at hc1 hc2 ⊢
  have hc0 : 0 < c := by
    rcases Nat.eq_zero_or_pos c with h | h
    · rw [h] at hc1; omega
    · exact h
  -- m ≤ c * a  and  (c - 1) * a < m
  have hup : m ≤ c * a := by
    -- m0 * q ≤ x * a ≤ c * q * a
    have h1 : x * a ≤ c * q * a := Nat.mul_le_mul_right _ hc1
    rcases hm with ⟨rfl, _⟩ | ⟨rfl, h2r⟩
    · by_contra hcon
      have : (c * a + 1) * q ≤ m * q := Nat.mul_le_mul_right _ (by omega)
      nlinarith
    · by_contra hcon
      have h3 : c * a ≤ m0 := by omega
      have h4 : c * a * q ≤ m0 * q := Nat.mul_le_mul_right _ h3
      have h5 : c * a * q = c * q * a := by ring
      have hr0 : r = 0 := by omega
      omega
  have hlow : (c - 1) * a < m := by
    obtain ⟨d, rfl⟩ : ∃ d, c = d + 1 := ⟨c - 1, by omega⟩
    simp only [Nat.add_sub_cancel]
    -- d * q < x, so d * q * a + a ≤ x * a
    have h1 : d * q + 1 ≤ x := by
      have : (d + 1) * q = d * q + q := by ring
      omega
    have h2 : (d * q + 1) * a ≤ x * a := Nat.mul_le_mul_right _ h1
    have h3 : (d * q + 1) * a = d * a * q + a := by ring
    rcases hm with ⟨rfl, h2r⟩ | ⟨rfl, h2r⟩
    · by_contra hcon
      have h4 : m * q ≤ d * a * q := Nat.mul_le_mul_right _ (by omega)
      omega
    · by_contra hcon
      have h4 : (m0 + 1) * q ≤ d * a * q := Nat.mul_le_mul_right _ (by omega)
      have h5 : (m0 + 1) * q = m0 * q + q := by ring
      omega
  have hle : (m + a - 1) / a ≤ c := by
    rw [Nat.div_le_iff_le_mul_add_pred ha0]
    have : a * c = c * a := Nat.mul_comm _ _
    omega
  have hge : c ≤ (m + a - 1) / a := by
    rw [Nat.le_div_iff_mul_le ha0]
    have : c * a = (c - 1) * a + a := by
      obtain ⟨d, rfl⟩ : ∃ d, c = d + 1 := ⟨c - 1, by omega⟩
      simp only [Nat.add_sub_cancel]; ring
    omega
  omega

theorem roundNat_of_lt (n : Nat) (h : n < 2 ^ 53) : roundNat n = n := by
  unfold roundNat; rw [if_pos h]

theorem le_roundNat (n : Nat) (h : 2 ^ 53 ≤ n) : 2 ^ 53 ≤ roundNat n := by
  unfold roundNat
  rw [if_neg (by omega)]
  simp only
  have hl : 53 ≤ floorLog2 n := by
    by_contra hcon
    have h1 : n < 2 ^ (floorLog2 n + 1) := lt_floorLog2_self
    have h2 : 2 ^ (floorLog2 n + 1) ≤ 2 ^ 53 := Nat.pow_le_pow_right (by norm_num) (by omega)
    omega
  have hself := floorLog2_self_le (n := n) (by omega)
  have hsplit : 2 ^ floorLog2 n = 2 ^ 52 * 2 ^ (floorLog2 n - 52) := by
    rw [← pow_add]; congr 1; omega
  have hk : 0 < 2 ^ (floorLog2 n - 52) := by positivity
  have hm0 : 2 ^ 52 ≤ n / 2 ^ (floorLog2 n - 52) := by
    rw [Nat.le_div_iff_mul_le hk]; omega
  have h53 : 2 ^ 53 ≤ 2 ^ floorLog2 n := Nat.pow_le_pow_right (by norm_num) hl
  split
  · calc 2 ^ 53 ≤ 2 ^ 52 * 2 ^ (floorLog2 n - 52) := by omega
      _ ≤ (n / 2 ^ (floorLog2 n - 52) + 1) * 2 ^ (floorLog2 n - 52) :=
          Nat.mul_le_mul_right _ (by omega)
  · calc 2 ^ 53 ≤ 2 ^ 52 * 2 ^ (floorLog2 n - 52) := by omega
      _ ≤ (n / 2 ^ (floorLog2 n - 52)) * 2 ^ (floorLog2 n - 52) :=
          Nat.mul_le_mul_right _ hm0

end Float64

theorem ceilDiv_eq_one (x q : Nat) (h0 : 0 < x) (h : x ≤ q) : (x + q - 1) / q = 1 := by
  apply Nat.div_eq_of_lt_le
  · omega
  · show x + q - 1 < (1 + 1) * q
    omega

theorem neg_natCast_ediv (n p : Nat) (hp : 0 < p) :
    (-(n : Int)) / (p : Int) = -(((n + p - 1) / p : Nat) : Int) := by
  have h1 := Nat.div_add_mod (n + p - 1) p
  have h2 := Nat.mod_lt (n + p - 1) hp
  set c := (n + p - 1) / p with hc
  have hpc : ((p * c : Nat) : Int) = (p : Int) * (c : Int) := by push_cast; ring
  have key : (-(n : Int)) / (p : Int) = -(c : Int) ∧ (-(n : Int)) % (p : Int) = (p * c : Nat) - n := by
    rw [Int.ediv_emod_unique (by exact_mod_cast hp)]
    refine ⟨by rw [hpc]; ring, ?_, ?_⟩ <;> omega
  exact key.1

theorem floorQuot_exact (t : Time) (p : Nat) (hp : 0 < p) (hlo : -2 ^ 53 < t.sec)
    (hhi : t.sec < 2 ^ 53) : totp.floorQuot t p = t.sec / (p : Int) := by
  have hq0 : 0 < Float64.roundNat p := by
    by_cases h : p < 2 ^ 53
    · rw [Float64.roundNat_of_lt p h]; exact hp
    · have := Float64.le_roundNat p (by omega); omega
  have hxr : Float64.roundNat t.sec.natAbs = t.sec.natAbs :=
    Float64.roundNat_of_lt _ (by omega)
  have hpneg : decide ((p : Int) < 0) = false := by simp
  unfold totp.floorQuot Float64.div Float64.ofInt Time.Unix
  simp only [hxr, hpneg, Int.natAbs_ofNat, Nat.mul_one, Nat.one_mul, Bool.bne_false]
  by_cases hx0 : t.sec.natAbs = 0
  · have : t.sec = 0 := by omega
    simp [Float64.floor, this]
  · rw [if_neg hx0]
    have hxpos : 0 < t.sec.natAbs := by omega
    have hxlt : t.sec.natAbs < 2 ^ 53 := by omega
    have hfl := Float64.roundQuot_floor _ _ hxpos hxlt hq0
    have hce := Float64.roundQuot_ceil _ _ hxpos hxlt hq0
    unfold Float64.floor
    simp only
    by_cases hneg : t.sec < 0
    · simp only [hneg, decide_True, if_true]
      rw [hce]
      have hts : t.sec = -((t.sec.natAbs : Nat) : Int) := by omega
      rw [hts, neg_natCast_ediv _ _ hp]
      simp only [Int.natAbs_neg, Int.natAbs_ofNat, neg_inj, Nat.cast_inj]
      by_cases h : p < 2 ^ 53
      · rw [Float64.roundNat_of_lt p h]
      · have hq := Float64.le_roundNat p (by omega)
        rw [ceilDiv_eq_one _ _ hxpos (by omega), ceilDiv_eq_one _ _ hxpos (by omega)]
    · simp only [hneg, decide_False, if_false, Bool.false_eq_true]
      rw [hfl]
      have hts : t.sec = ((t.sec.natAbs : Nat) : Int) := by omega
      rw [hts]
      simp only [Int.natAbs_ofNat]
      rw [← Int.natCast_div]
      congr 1
      by_cases h : p < 2 ^ 53
      · rw [Float64.roundNat_of_lt p h]
      · have hq := Float64.le_roundNat p (by omega)
        rw [Nat.div_eq_of_lt (by omega), Nat.div_eq_of_lt (by omega)]

/-! ## Generation and validation of HOTP codes -/

/-- SHA-1, SHA-256 and SHA-512 give digests of at least 19 bytes. -/
theorem hash_supported (a : Int)
    (ha : a = otp.AlgorithmSHA1 ∨ a = otp.AlgorithmSHA256 ∨ a = otp.AlgorithmSHA512) :
    ∃ h, otp.Algorithm.Hash a = .returns h ∧ ∀ m, 19 ≤ (h.sum m).length := by
  rcases ha with rfl | rfl | rfl
  · exact ⟨_, rfl, fun m => by simp [sha1_sum_length]⟩
  · exact ⟨_, rfl, fun m => by simp [sha256_sum_length]⟩
  · exact ⟨_, rfl, fun m => by simp [sha512_sum_length]⟩

theorem pow10Int64_ne_zero (d : Int) (hd : 0 ≤ d) : pow10Int64 d ≠ 0 := by
  unfold pow10Int64
  rw [if_neg (by omega)]
  split
  · have : 0 < 10 ^ d.toNat := by positivity
    omega
  · norm_num

/-- With a decodable secret, one of the three long digests and a digit count
that is not negative, code generation returns a code and no error. -/
theorem generate_returns (secret : GoString) (key : Bytes) (counter : Nat) (d : Int)
    (a : Int) (hk : hotp.decodeSecret secret = some key)
    (ha : a = otp.AlgorithmSHA1 ∨ a = otp.AlgorithmSHA256 ∨ a = otp.AlgorithmSHA512)
    (hd : 0 ≤ d) :
    ∃ v : Nat, v < 2 ^ 31 ∧ hotp.GenerateCodeCustom secret counter ⟨d, a⟩ =
      .returns (otp.Digits.Format d (toInt32 (Int.tmod (v : Int) (pow10Int64 d))), none) := by
  obtain ⟨h, hh, hlen⟩ := hash_supported a ha
  obtain ⟨v, hv, hv31⟩ := truncate_some (hmac.sum h key (beBytes 8 counter))
    (by unfold hmac.sum; exact hlen _)
  refine ⟨v, hv31, ?_⟩
  unfold hotp.GenerateCodeCustom
  simp only [hk, hh, hv, otp.Digits.Length, pow10Int64_ne_zero d hd, if_false]

/-- For one to nine digits the code has that many characters, all decimal digits. -/
theorem generate_code (secret : GoString) (key : Bytes) (counter : Nat) (d : Int)
    (a : Int) (hk : hotp.decodeSecret secret = some key)
    (ha : a = otp.AlgorithmSHA1 ∨ a = otp.AlgorithmSHA256 ∨ a = otp.AlgorithmSHA512)
    (hd1 : 1 ≤ d) (hd9 : d ≤ 9) :
    ∃ code, hotp.GenerateCodeCustom secret counter ⟨d, a⟩ = .returns (code, none) ∧
      code.length = d.toNat ∧ ∀ b ∈ code, 48 ≤ b ∧ b ≤ 57 := by
  obtain ⟨v, hv, hgen⟩ := generate_returns secret key counter d a hk ha (by omega)
  refine ⟨_, hgen, ?_⟩
  have hp : pow10Int64 d = (10 : Int) ^ d.toNat := by
    unfold pow10Int64; rw [if_neg (by omega), if_pos (by omega)]; push_cast; rfl
  have hpos : (0 : Int) < 10 ^ d.toNat := by positivity
  have hle : (10 : Int) ^ d.toNat ≤ 10 ^ 9 := pow_le_pow_right₀ (by norm_num) (by omega)
  have hmod : Int.tmod (v : Int) (pow10Int64 d) = (v : Int) % 10 ^ d.toNat := by
    rw [hp, Int.tmod_eq_emod (by omega) (by omega)]
  have h0 := Int.emod_nonneg (v : Int) (ne_of_gt hpos)
  have h1 := Int.emod_lt_of_pos (v : Int) hpos
  have h32 : toInt32 ((v : Int) % 10 ^ d.toNat) = (v : Int) % 10 ^ d.toNat := by
    unfold toInt32
    generalize (v : Int) % 10 ^ d.toNat = w at h0 h1
    omega
  rw [hmod, h32]
  exact format_shape d _ hd1 hd9 h0 h1

/-- The passcode returned next to an error is empty. -/
theorem generate_error_empty (secret : GoString) (counter : Nat) (opts : hotp.Options)
    (p : GoString) (e : otp.Error)
    (h : hotp.GenerateCodeCustom secret counter opts = .returns (p, some e)) : p = [] := by
  unfold hotp.GenerateCodeCustom at h
  split at h
  · simp at h; exact h.1
  · split at h
    · simp at h
    · simp at h
    · simp only at h
      split at h
      · simp at h
      · split at h <;> simp at h

/-- When code generation returns a code, validation of a candidate of the right
length compares the trimmed candidate with that code. -/
theorem validate_of_generate (passcode secret code : GoString) (counter : Nat)
    (opts : hotp.Options)
    (hlen : ((strings.TrimSpace passcode).length : Int) = opts.Digits.Length)
    (hgen : hotp.GenerateCodeCustom secret counter opts = .returns (code, none)) :
    hotp.ValidateCustom passcode counter secret opts =
      .returns (decide (code = strings.TrimSpace passcode), none) := by
  unfold hotp.ValidateCustom
  simp only [hlen, ne_eq, not_true_eq_false, if_false, hgen]
  by_cases h : code = strings.TrimSpace passcode
  · simp [h, (constantTimeCompare_eq_one _ _).mpr]
  · have : ¬ subtle.ConstantTimeCompare code (strings.TrimSpace passcode) = 1 :=
      fun hc => h ((constantTimeCompare_eq_one _ _).mp hc)
    simp [h, this]

theorem toUint64_toInt64 (x : Int) : toUint64 (toInt64 x) = toUint64 x := by
  unfold toUint64 toInt64
  congr 1
  omega

/-- The scan over the counters, when every probed counter yields a code: the
result is true exactly when one of the codes equals the trimmed candidate. -/
theorem probe_spec (passcode secret : GoString) (opts : hotp.Options) (cs : List Nat)
    (hlen : ((strings.TrimSpace passcode).length : Int) = opts.Digits.Length)
    (hall : ∀ k ∈ cs, ∃ code, hotp.GenerateCodeCustom secret k opts = .returns (code, none)) :
    totp.probe passcode secret opts cs =
      .returns (decide (∃ k ∈ cs, hotp.GenerateCodeCustom secret k opts =
        .returns (strings.TrimSpace passcode, none)), none) := by
  induction cs with
  | nil => simp [totp.probe]
  | cons c rest ih =>
    obtain ⟨code, hc⟩ := hall c (by simp)
    have ih2 := ih (fun k hk => hall k (by simp [hk]))
    unfold totp.probe
    rw [validate_of_generate passcode secret code c opts hlen hc]
    simp only
    by_cases h : code = strings.TrimSpace passcode
    · subst h
      simp [hc]
    · have hne : ¬ hotp.GenerateCodeCustom secret c opts =
          .returns (strings.TrimSpace passcode, none) := by
        rw [hc]; intro hh; injection hh with hh; exact h (Prod.mk.inj hh).1
      simp only [h, decide_False, Bool.false_eq_true, if_false, ih2, List.mem_cons,
        exists_eq_or_imp, hne, false_or]

/-! ## The TOTP window -/

theorem totp_generate_eq (secret : GoString) (t : Time) (opts : totp.Options) :
    totp.GenerateCodeCustom secret t opts =
      hotp.GenerateCodeCustom secret (toUint64 (totp.floorQuot t (totp.period opts)))
        ⟨opts.Digits, opts.Algorithm⟩ := by
  unfold totp.GenerateCodeCustom
  simp only
  generalize hr : hotp.GenerateCodeCustom secret (toUint64 (totp.floorQuot t (totp.period opts)))
    ⟨opts.Digits, opts.Algorithm⟩ = r
  match r, hr with
  | .panics, _ => rfl
  | .hangs, _ => rfl
  | .returns (p, some e), hr => rw [generate_error_empty _ _ _ p e hr]
  | .returns (p, none), _ => rfl

theorem period_pos (opts : totp.Options) : 0 < totp.period opts := by
  unfold totp.period; split <;> omega

theorem ediv_bounds (x : Int) (p : Nat) (hp : 0 < p) (hlo : -2 ^ 53 < x) (hhi : x < 2 ^ 53) :
    -2 ^ 53 < x / (p : Int) ∧ x / (p : Int) < 2 ^ 53 := by
  have hp1 : (1 : Int) ≤ (p : Int) := by exact_mod_cast hp
  have h1 := Int.ediv_mul_le x (b := (p : Int)) (by omega)
  have h2 := Int.lt_ediv_add_one_mul_self x (b := (p : Int)) (by omega)
  constructor
  · by_contra hcon
    have h3 : x / (p : Int) + 1 ≤ 0 := by omega
    have h4 : (x / (p : Int) + 1) * (p : Int) ≤ (x / (p : Int) + 1) * 1 :=
      Int.mul_le_mul_of_nonpos_left h3 hp1
    omega
  · by_contra hcon
    have h3 : 0 ≤ x / (p : Int) := by omega
    have h4 : x / (p : Int) * 1 ≤ x / (p : Int) * (p : Int) :=
      Int.mul_le_mul_of_nonneg_left hp1 h3
    omega

theorem neighbours_succ (counter first : Int) (m : Nat) :
    neighbours counter first (m + 1) =
      toUint64 (counter + first) :: toUint64 (counter - first) ::
        neighbours counter (first + 1) m := by
  unfold neighbours
  rw [List.range_succ_eq_map, List.foldr_cons, List.foldr_map]
  simp only [Nat.cast_zero, add_zero, Nat.cast_succ]
  congr 2
  apply List.foldr_ext
  intro k acc _
  have e : first + ((k : Int) + 1) = first + 1 + (k : Int) := by ring
  rw [e]

/-- With `m` iterations left and no overflow of the loop variable the loop ends
and has appended the `m` pairs of neighbours. -/
theorem skewLoop_ends (counter n : Int) (m : Nat) (i : Int) (acc : List Nat) (hi : 1 ≤ i)
    (hm : i + (m : Int) = n + 1) (hn : n < 2 ^ 63 - 1) :
    totp.skewLoop counter n (m + 1) i acc = some (acc ++ neighbours counter i m) := by
  induction m generalizing i acc with
  | zero =>
    have : ¬ i ≤ n := by omega
    simp [totp.skewLoop, this, neighbours]
  | succ k ih =>
    have hle : i ≤ n := by omega
    have hwrap : toInt64 (i + 1) = i + 1 := by unfold toInt64; omega
    rw [totp.skewLoop, if_pos hle, hwrap, ih (i + 1) _ (by omega) (by omega), neighbours_succ,
      toUint64_toInt64, toUint64_toInt64]
    simp

/-- For `int(opts.Skew) = 2^63 - 1` the loop condition holds for every value of
the loop variable: the loop has not ended after any number of steps. -/
theorem skewLoop_never_ends (counter : Int) (fuel : Nat) (i : Int) (acc : List Nat)
    (hi : i ≤ 2 ^ 63 - 1) : totp.skewLoop counter (2 ^ 63 - 1) fuel i acc = none := by
  induction fuel generalizing i acc with
  | zero => rfl
  | succ f ih =>
    rw [totp.skewLoop, if_pos hi]
    exact ih _ _ (by unfold toInt64; omega)

/-- Below `2^63 - 1` the slice holds the counter and `skew` pairs of neighbours. -/
theorem counters_small (c : Int) (skew : Nat) (hs : skew < 2 ^ 63 - 1) :
    totp.counters c skew = some (toUint64 c :: neighbours c 1 skew) := by
  have h64 : toInt64 (skew : Int) = (skew : Int) := by unfold toInt64; omega
  unfold totp.counters
  simp only [h64, Int.toNat_ofNat]
  rw [skewLoop_ends c skew skew 1 _ (le_refl 1) (by omega) (by omega)]
  rfl

/-- From `2^63` on the conversion to `int` is negative and the counter stands alone. -/
theorem counters_huge (c : Int) (skew : Nat) (hs : 2 ^ 63 ≤ skew) (hs2 : skew < 2 ^ 64) :
    totp.counters c skew = some [toUint64 c] := by
  have h64 : toInt64 (skew : Int) = (skew : Int) - 2 ^ 64 := by unfold toInt64; omega
  have hneg : ¬ (1 : Int) ≤ (skew : Int) - 2 ^ 64 := by omega
  have hnat : ((skew : Int) - 2 ^ 64).toNat = 0 := by omega
  unfold totp.counters
  simp only [h64, hnat]
  rw [totp.skewLoop, if_neg hneg]

/-- At `2^63 - 1` the loop does not end. -/
theorem counters_maxInt (c : Int) : totp.counters c (2 ^ 63 - 1) = none := by
  unfold totp.counters
  exact skewLoop_never_ends c _ 1 _ (by norm_num)

theorem neighbours_mem (c first : Int) (m n : Nat) :
    n ∈ neighbours c first m ↔
      ∃ k : Int, first ≤ k ∧ k < first + (m : Int) ∧
        (n = toUint64 (c + k) ∨ n = toUint64 (c - k)) := by
  induction m generalizing first with
  | zero =>
    simp only [neighbours, List.range_zero, List.foldr_nil, List.not_mem_nil, Nat.cast_zero,
      add_zero, false_iff, not_exists, not_and]
    intro k h1 h2; omega
  | succ j ih =>
    rw [neighbours_succ, List.mem_cons, List.mem_cons, ih]
    constructor
    · rintro (h | h | ⟨k, h1, h2, h3⟩)
      · exact ⟨first, le_refl _, by push_cast; omega, Or.inl h⟩
      · exact ⟨first, le_refl _, by push_cast; omega, Or.inr h⟩
      · exact ⟨k, by omega, by push_cast; omega, h3⟩
    · rintro ⟨k, h1, h2, h3⟩
      by_cases hk : k = first
      · subst hk
        rcases h3 with h3 | h3
        · exact Or.inl h3
        · exact Or.inr (Or.inl h3)
      · exact Or.inr (Or.inr ⟨k, by omega, by push_cast at h2; omega, h3⟩)

theorem counters_mem (c : Int) (skew : Nat) (hs : skew < 2 ^ 63 - 1) :
    ∃ cs, totp.counters c skew = some cs ∧ ∀ n : Nat, n ∈ cs ↔
      ∃ k : Int, -(skew : Int) ≤ k ∧ k ≤ (skew : Int) ∧ n = toUint64 (c + k) := by
  refine ⟨_, counters_small c skew hs, ?_⟩
  intro n
  rw [List.mem_cons, neighbours_mem]
  constructor
  · rintro (h | ⟨k, h1, h2, h3 | h3⟩)
    · exact ⟨0, by omega, by omega, by simpa using h⟩
    · exact ⟨k, by omega, by omega, h3⟩
    · have e : c - k = c + -k := by ring
      exact ⟨-k, by omega, by omega, by rw [← e]; exact h3⟩
  · rintro ⟨k, h1, h2, rfl⟩
    rcases lt_trichotomy k 0 with hk | hk | hk
    · right
      have e : c + k = c - -k := by ring
      exact ⟨-k, by omega, by omega, Or.inr (by rw [e])⟩
    · left; subst hk; simp
    · right
      exact ⟨k, by omega, by omega, Or.inl rfl⟩

/-! ## The TOTP scan -/

/-- When the loop over the skew ends with the slice `cs`, validation is the scan of `cs`. -/
theorem validate_of_counters (passcode secret : GoString) (t : Time) (opts : totp.Options)
    (cs : List Nat)
    (h : totp.counters (toInt64 (totp.floorQuot t (totp.period opts))) opts.Skew = some cs) :
    totp.ValidateCustom passcode secret t opts =
      totp.probe passcode secret ⟨opts.Digits, opts.Algorithm⟩ cs := by
  show totp.scan passcode secret ⟨opts.Digits, opts.Algorithm⟩
    (totp.counters (toInt64 (totp.floorQuot t (totp.period opts))) opts.Skew) = _
  rw [h]
  rfl

/-- When the loop over the skew does not end, validation does not return. -/
theorem validate_hangs (passcode secret : GoString) (t : Time) (opts : totp.Options)
    (h : totp.counters (toInt64 (totp.floorQuot t (totp.period opts))) opts.Skew = none) :
    totp.ValidateCustom passcode secret t opts = .hangs := by
  show totp.scan passcode secret ⟨opts.Digits, opts.Algorithm⟩
    (totp.counters (toInt64 (totp.floorQuot t (totp.period opts))) opts.Skew) = _
  rw [h]
  rfl

/-- Validation of a candidate of the right length, with a decodable secret and
one of the three long digests, at a time within `2^53` seconds of the epoch,
when the loop over the skew ends with the slice `cs`: the result carries no
error and is true exactly when the trimmed candidate is the code of one of the
counters in `cs`. -/
theorem totp_validate_spec (secret : GoString) (key : Bytes) (passcode : GoString) (t : Time)
    (period skew : Nat) (d a : Int) (cs : List Nat) (hk : hotp.decodeSecret secret = some key)
    (ha : a = otp.AlgorithmSHA1 ∨ a = otp.AlgorithmSHA256 ∨ a = otp.AlgorithmSHA512)
    (hlen : ((strings.TrimSpace passcode).length : Int) = d)
    (hlo : -2 ^ 53 < t.sec) (hhi : t.sec < 2 ^ 53)
    (hcs : totp.counters (t.sec / ((totp.period ⟨period, skew, d, a⟩ : Nat) : Int)) skew =
      some cs) :
    ∃ b, totp.ValidateCustom passcode secret t ⟨period, skew, d, a⟩ = .returns (b, none) ∧
      (b = true ↔ ∃ n ∈ cs,
        hotp.GenerateCodeCustom secret n ⟨d, a⟩ = .returns (strings.TrimSpace passcode, none)) := by
  have hp := period_pos ⟨period, skew, d, a⟩
  have hb := ediv_bounds t.sec _ hp hlo hhi
  have hc : toInt64 (totp.floorQuot t (totp.period ⟨period, skew, d, a⟩)) =
      t.sec / ((totp.period ⟨period, skew, d, a⟩ : Nat) : Int) := by
    rw [floorQuot_exact t _ hp hlo hhi]
    unfold toInt64
    omega
  have hd : 0 ≤ d := by omega
  have hprobe := probe_spec passcode secret ⟨d, a⟩ cs hlen
    (fun k _ => by
      obtain ⟨v, _, hv⟩ := generate_returns secret key k d a hk ha hd
      exact ⟨_, hv⟩)
  refine ⟨decide (∃ k ∈ cs,
      hotp.GenerateCodeCustom secret k ⟨d, a⟩ = .returns (strings.TrimSpace passcode, none)), ?_, ?_⟩
  · rw [validate_of_counters passcode secret t ⟨period, skew, d, a⟩ cs (by rw [hc]; exact hcs)]
    exact hprobe
  · simp

/-- An error of the HOTP check at the first counter ends the scan. -/
theorem probe_error (passcode secret : GoString) (opts : hotp.Options) (c : Nat) (rest : List Nat)
    (e : otp.Error) (rv : Bool)
    (h : hotp.ValidateCustom passcode c secret opts = .returns (rv, some e)) :
    totp.probe passcode secret opts (c :: rest) = .returns (false, some e) := by
  rw [totp.probe, h]

theorem counters_one (c : Int) :
    totp.counters c 1 = some [toUint64 c, toUint64 (c + 1), toUint64 (c - 1)] := by
  rw [counters_small c 1 (by norm_num)]
  simp [neighbours, List.range_succ]

/-- Validation with a skew below `2^63 - 1`, in terms of the offsets
`-skew .. skew` around the exact quotient. -/
theorem totp_validate_window (secret : GoString) (key : Bytes) (passcode : GoString) (t : Time)
    (period skew : Nat) (d a : Int) (hk : hotp.decodeSecret secret = some key)
    (ha : a = otp.AlgorithmSHA1 ∨ a = otp.AlgorithmSHA256 ∨ a = otp.AlgorithmSHA512)
    (hlen : ((strings.TrimSpace passcode).length : Int) = d)
    (hlo : -2 ^ 53 < t.sec) (hhi : t.sec < 2 ^ 53) (hs : skew < 2 ^ 63 - 1) :
    ∃ b, totp.ValidateCustom passcode secret t ⟨period, skew, d, a⟩ = .returns (b, none) ∧
      (b = true ↔ ∃ k : Int, -(skew : Int) ≤ k ∧ k ≤ (skew : Int) ∧
        hotp.GenerateCodeCustom secret
          (toUint64 (t.sec / ((if period = 0 then 30 else period : Nat) : Int) + k)) ⟨d, a⟩ =
            .returns (strings.TrimSpace passcode, none)) := by
  have hper : totp.period ⟨period, skew, d, a⟩ = if period = 0 then 30 else period := rfl
  obtain ⟨cs, hcs, hmem⟩ :=
    counters_mem (t.sec / ((if period = 0 then 30 else period : Nat) : Int)) skew hs
  obtain ⟨b, hb, hiff⟩ :=
    totp_validate_spec secret key passcode t period skew d a cs hk ha hlen hlo hhi
      (by rw [hper]; exact hcs)
  refine ⟨b, hb, ?_⟩
  rw [hiff]
  constructor
  · rintro ⟨n, hn, hgen⟩
    obtain ⟨k, h1, h2, rfl⟩ := (hmem n).mp hn
    exact ⟨k, h1, h2, hgen⟩
  · rintro ⟨k, h1, h2, hgen⟩
    exact ⟨_, (hmem _).mpr ⟨k, h1, h2, rfl⟩, hgen⟩

/-- With a secret that does not decode and a candidate of the right length the
scan returns the decoding error, whenever the loop over the skew ends. -/
theorem totp_bad_secret_error (passcode secret : GoString) (t : Time) (opts : totp.Options)
    (hlen : ((strings.TrimSpace passcode).length : Int) = opts.Digits.Length)
    (hbad : hotp.decodeSecret secret = none) (hs : opts.Skew < 2 ^ 64)
    (hmax : opts.Skew ≠ 2 ^ 63 - 1) :
    totp.ValidateCustom passcode secret t opts =
        .returns (false, some .ErrValidateSecretInvalidBase32) := by
  have hgen : ∀ counter, hotp.GenerateCodeCustom secret counter ⟨opts.Digits, opts.Algorithm⟩ =
      .returns ([], some .ErrValidateSecretInvalidBase32) := by
    intro counter; unfold hotp.GenerateCodeCustom; simp only [hbad]
  have hval : ∀ counter, hotp.ValidateCustom passcode counter secret
      ⟨opts.Digits, opts.Algorithm⟩ = .returns (false, some .ErrValidateSecretInvalidBase32) := by
    intro counter
    unfold hotp.ValidateCustom
    simp only [hlen, ne_eq, not_true_eq_false, if_false, hgen]
  by_cases hsm : opts.Skew < 2 ^ 63 - 1
  · rw [validate_of_counters _ _ _ _ _ (counters_small _ _ hsm)]
    exact probe_error _ _ _ _ _ _ _ (hval _)
  · rw [validate_of_counters _ _ _ _ _ (counters_huge _ _ (by omega) hs)]
    exact probe_error _ _ _ _ _ _ _ (hval _)

/-- With a decodable secret, SHA-1, SHA-256 or SHA-512 and one to nine digits,
the code that was generated for a counter validates at that counter. -/
theorem hotp_roundtrip_long_digests (secret : GoString) (key : Bytes) (counter : Nat)
    (d a : Int) (hk : hotp.decodeSecret secret = some key)
    (ha : a = otp.AlgorithmSHA1 ∨ a = otp.AlgorithmSHA256 ∨ a = otp.AlgorithmSHA512)
    (hd1 : 1 ≤ d) (hd9 : d ≤ 9) :
    ∃ code, hotp.GenerateCodeCustom secret counter ⟨d, a⟩ = .returns (code, none) ∧
      hotp.ValidateCustom code counter secret ⟨d, a⟩ = .returns (true, none) := by
  obtain ⟨code, hgen, hclen, hdig⟩ := generate_code secret key counter d a hk ha hd1 hd9
  have htrim : strings.TrimSpace code = code := trimSpace_digit code hdig
  have hlen : ((strings.TrimSpace code).length : Int) = d := by rw [htrim, hclen]; omega
  refine ⟨code, hgen, ?_⟩
  rw [validate_of_generate code secret code counter ⟨d, a⟩ hlen hgen, htrim]
  simp

/-! ## Escaping and query values of `net/url` -/

/-! ## Escaping -/

theorem cut_not_mem (s : GoString) (sep : Nat) (h : sep ∉ s) : strings.Cut s sep = (s, [], false) := by
  induction s with
  | nil => rfl
  | cons b t ih =>
    have hb : b ≠ sep := fun e => h (by simp [e])
    have ht : sep ∉ t := fun e => h (by simp [e])
    simp [strings.Cut, hb, ih ht]

theorem cut_append (a b : GoString) (sep : Nat) (h : sep ∉ a) :
    strings.Cut (a ++ sep :: b) sep = (a, b, true) := by
  induction a with
  | nil => simp [strings.Cut]
  | cons x t ih =>
    have hx : x ≠ sep := fun e => h (by simp [e])
    have ht : sep ∉ t := fun e => h (by simp [e])
    simp [strings.Cut, hx, ih ht]

theorem index_not_mem (s : GoString) (c : Nat) (h : c ∉ s) : strings.Index s c = -1 := by
  induction s with
  | nil => rfl
  | cons b t ih =>
    have hb : b ≠ c := fun e => h (by simp [e])
    have ht : c ∉ t := fun e => h (by simp [e])
    simp [strings.Index, hb, ih ht]

theorem index_append (a b : GoString) (c : Nat) (h : c ∉ a) :
    strings.Index (a ++ c :: b) c = a.length := by
  induction a with
  | nil => simp [strings.Index]
  | cons x t ih =>
    have hx : x ≠ c := fun e => h (by simp [e])
    have ht : c ∉ t := fun e => h (by simp [e])
    rw [List.cons_append, strings.Index, if_neg hx]
    simp only [ih ht, List.length_cons]
    rw [if_neg (by omega)]
    push_cast
    rfl

theorem pieces_not_mem (s : GoString) (sep : Nat) (h : sep ∉ s) : url.pieces sep s = [s] := by
  induction s with
  | nil => rfl
  | cons b t ih =>
    have hb : b ≠ sep := fun e => h (by simp [e])
    have ht : sep ∉ t := fun e => h (by simp [e])
    simp [url.pieces, hb, ih ht]

theorem pieces_append (a b : GoString) (sep : Nat) (h : sep ∉ a) :
    url.pieces sep (a ++ sep :: b) = a :: url.pieces sep b := by
  induction a with
  | nil => simp [url.pieces]
  | cons x t ih =>
    have hx : x ≠ sep := fun e => h (by simp [e])
    have ht : sep ∉ t := fun e => h (by simp [e])
    simp [url.pieces, hx, ih ht]

/-- What `escape` writes for a byte in the path or query mode: printable ASCII without
`#` and `?`; in the query mode also without `&`, `;` and `=`. -/
theorem escapeByte_mem (c : Nat) (hc : c < 256) (mode : url.encoding)
    (hm : mode ≠ .encodeHost) (b : Nat) (hb : b ∈ url.escapeByte c mode) :
    33 ≤ b ∧ b ≤ 126 ∧ b ≠ 35 ∧ b ≠ 63 ∧
      (mode = .encodeQueryComponent → b ≠ 38 ∧ b ≠ 59 ∧ b ≠ 61) := by
  have key : ∀ c, c < 256 → ∀ mode : url.encoding, mode ≠ .encodeHost →
      (url.escapeByte c mode).all (fun b => decide (33 ≤ b ∧ b ≤ 126 ∧ b ≠ 35 ∧ b ≠ 63 ∧
        (mode = .encodeQueryComponent → b ≠ 38 ∧ b ≠ 59 ∧ b ≠ 61))) = true := by
    intro c hc mode hm
    cases mode with
    | encodeHost => exact absurd rfl hm
    | encodePath => revert c; decide!
    | encodeQueryComponent => revert c; decide!
  have := key c hc mode hm
  rw [List.all_eq_true] at this
  exact of_decide_eq_true (this b hb)

theorem escape_mem (s : GoString) (hs : ∀ c ∈ s, c < 256) (mode : url.encoding)
    (hm : mode ≠ .encodeHost) (b : Nat) (hb : b ∈ url.escape s mode) :
    33 ≤ b ∧ b ≤ 126 ∧ b ≠ 35 ∧ b ≠ 63 ∧
      (mode = .encodeQueryComponent → b ≠ 38 ∧ b ≠ 59 ∧ b ≠ 61) := by
  induction s with
  | nil => simp [url.escape] at hb
  | cons x t ih =>
    rw [url.escape, List.mem_append] at hb
    rcases hb with hb | hb
    · exact escapeByte_mem x (hs x (by simp)) mode hm b hb
    · exact ih (fun c hc => hs c (by simp [hc])) hb

/-- The two hex digits written for a byte are read back as that byte. -/
theorem hex_roundtrip (c : Nat) (hc : c < 256) :
    url.ishex (url.upperhex.getD (c / 16) 0) = true ∧
    url.ishex (url.upperhex.getD (c % 16) 0) = true ∧
    url.unhex (url.upperhex.getD (c / 16) 0) * 16 + url.unhex (url.upperhex.getD (c % 16) 0) = c := by
  revert c
  decide!

theorem unescape_cons (c : Nat) (rest : GoString) (mode : url.encoding) (h : c ≠ 37) :
    url.unescape (c :: rest) mode =
      if c = 43 then
        (url.unescape rest mode).map
          (fun t => (if mode = url.encoding.encodeQueryComponent then 32 else 43) :: t)
      else if mode = url.encoding.encodeHost ∧ c < 128 ∧
          url.shouldEscape c url.encoding.encodeHost = true then none
      else (url.unescape rest mode).map (fun t => c :: t) := by
  rw [url.unescape.eq_def]
  simp only [h, if_false]

theorem unescape_escapeByte (c : Nat) (hc : c < 256) (t : GoString) (mode : url.encoding)
    (hm : mode ≠ .encodeHost) :
    url.unescape (url.escapeByte c mode ++ t) mode
      = (url.unescape t mode).map (fun r => c :: r) := by
  unfold url.escapeByte
  by_cases he : url.shouldEscape c mode = true
  · rw [if_pos he]
    by_cases hq : c = 32 ∧ mode = .encodeQueryComponent
    · rw [if_pos hq]
      obtain ⟨rfl, rfl⟩ := hq
      simp [unescape_cons]
    · rw [if_neg hq]
      obtain ⟨h1, h2, h3⟩ := hex_roundtrip c hc
      simp only [List.cons_append, List.nil_append]
      rw [url.unescape]
      simp only [if_true, h1, h2, and_self, h3]
      rw [if_neg (by simp [hm])]
  · rw [if_neg he]
    have h37 : c ≠ 37 := by
      rintro rfl
      cases mode <;> simp [url.shouldEscape] at he
    simp only [List.cons_append, List.nil_append]
    rw [unescape_cons _ _ _ h37]
    by_cases h43 : c = 43
    · subst h43
      have : mode ≠ .encodeQueryComponent := by
        rintro rfl
        simp [url.shouldEscape] at he
      simp [this]
    · rw [if_neg h43, if_neg (by simp [hm])]

theorem unescape_escape (s : GoString) (hs : ∀ c ∈ s, c < 256) (mode : url.encoding)
    (hm : mode ≠ .encodeHost) : url.unescape (url.escape s mode) mode = some s := by
  induction s with
  | nil => simp [url.escape, url.unescape]
  | cons x t ih =>
    rw [url.escape, unescape_escapeByte x (hs x (by simp)) _ mode hm,
      ih (fun c hc => hs c (by simp [hc]))]
    rfl


/-! ## Query values -/

theorem parsePair_pair (m : url.Values) (k v : GoString) (hk : ∀ c ∈ k, c < 256)
    (hv : ∀ c ∈ v, c < 256) :
    url.parsePair m (url.QueryEscape k ++ [61] ++ url.QueryEscape v) = url.Values.append m k v := by
  have hm : url.encoding.encodeQueryComponent ≠ .encodeHost := by decide
  have h59 : 59 ∉ url.QueryEscape k ++ [61] ++ url.QueryEscape v := by
    intro h
    simp only [List.mem_append, List.mem_singleton] at h
    rcases h with (h | h) | h
    · exact (escape_mem k hk _ hm 59 h).2.2.2.2 rfl |>.2.1 rfl
    · omega
    · exact (escape_mem v hv _ hm 59 h).2.2.2.2 rfl |>.2.1 rfl
  have h61 : 61 ∉ url.QueryEscape k := fun h =>
    (escape_mem k hk _ hm 61 h).2.2.2.2 rfl |>.2.2 rfl
  unfold url.parsePair
  rw [if_neg h59, if_neg (by simp)]
  simp only [List.append_assoc, List.singleton_append, cut_append _ _ _ h61]
  unfold url.QueryUnescape url.QueryEscape
  rw [unescape_escape k hk _ hm, unescape_escape v hv _ hm]

theorem pieces_intercalate (xs : List GoString) (h : ∀ x ∈ xs, 38 ∉ x) (hne : xs ≠ []) :
    url.pieces 38 ([38].intercalate xs) = xs := by
  induction xs with
  | nil => exact absurd rfl hne
  | cons x t ih =>
    cases t with
    | nil =>
      have e : [38].intercalate [x] = x := by simp [List.intercalate]
      rw [e]
      exact pieces_not_mem x 38 (h x (by simp))
    | cons y ys =>
      have e : [38].intercalate (x :: y :: ys) = x ++ 38 :: [38].intercalate (y :: ys) := by
        simp [List.intercalate]
      rw [e, pieces_append _ _ _ (h x (by simp)), ih (fun z hz => h z (by simp [hz])) (by simp)]

theorem foldl_parsePair (kv : List (GoString × GoString)) (m : url.Values)
    (h : ∀ p ∈ kv, (∀ c ∈ p.1, c < 256) ∧ (∀ c ∈ p.2, c < 256)) :
    (kv.map (fun p => url.QueryEscape p.1 ++ [61] ++ url.QueryEscape p.2)).foldl url.parsePair m
      = kv.foldl (fun m p => url.Values.append m p.1 p.2) m := by
  induction kv generalizing m with
  | nil => rfl
  | cons p t ih =>
    simp only [List.map_cons, List.foldl_cons]
    rw [parsePair_pair m p.1 p.2 (h p (by simp)).1 (h p (by simp)).2,
      ih _ (fun q hq => h q (by simp [hq]))]

/-- Parsing the query text written for the pairs `kv` gives these pairs back. -/
theorem parseQuery_intercalate (kv : List (GoString × GoString)) (hne : kv ≠ [])
    (h : ∀ p ∈ kv, (∀ c ∈ p.1, c < 256) ∧ (∀ c ∈ p.2, c < 256)) :
    url.ParseQuery
        ([38].intercalate (kv.map (fun p => url.QueryEscape p.1 ++ [61] ++ url.QueryEscape p.2)))
      = kv.foldl (fun m p => url.Values.append m p.1 p.2) [] := by
  have hm : url.encoding.encodeQueryComponent ≠ .encodeHost := by decide
  unfold url.ParseQuery
  rw [pieces_intercalate _ _ (by simpa using hne), foldl_parsePair kv [] h]
  intro x hx
  simp only [List.mem_map] at hx
  obtain ⟨p, hp, rfl⟩ := hx
  intro h38
  simp only [List.mem_append, List.mem_singleton] at h38
  rcases h38 with (h38 | h38) | h38
  · exact (escape_mem p.1 (h p hp).1 _ hm 38 h38).2.2.2.2 rfl |>.1 rfl
  · omega
  · exact (escape_mem p.2 (h p hp).2 _ hm 38 h38).2.2.2.2 rfl |>.1 rfl

theorem trimLeft_printable (fuel : Nat) (s : GoString) (hs : ∀ b ∈ s, 33 ≤ b ∧ b ≤ 126) :
    strings.trimLeft fuel s = s := by
  cases fuel with
  | zero => rfl
  | succ f =>
    unfold strings.trimLeft
    have : strings.spaces.find? (fun e => e.isPrefixOf s) = none := by
      rw [List.find?_eq_none]
      cases s with
      | nil => simp [strings.spaces, List.isPrefixOf]
      | cons b rest =>
        have hb := hs b (by simp)
        simp [strings.spaces, List.isPrefixOf]
        omega
    rw [this]

theorem trimRight_printable (fuel : Nat) (s : GoString) (hs : ∀ b ∈ s, 33 ≤ b ∧ b ≤ 126) :
    strings.trimRight fuel s = s := by
  cases fuel with
  | zero => rfl
  | succ f =>
    unfold strings.trimRight
    have : strings.spaces.find? (fun e => e.reverse.isPrefixOf s.reverse) = none := by
      rw [List.find?_eq_none]
      have hr : ∀ b ∈ s.reverse, 33 ≤ b ∧ b ≤ 126 := fun b hb => hs b (List.mem_reverse.mp hb)
      generalize s.reverse = r at hr
      cases r with
      | nil => simp [strings.spaces, List.isPrefixOf]
      | cons b rest =>
        have hb := hr b (by simp)
        simp [strings.spaces, List.isPrefixOf]
        omega
    rw [this]

/-- Text made of printable ASCII characters other than the blank is left alone by
`strings.TrimSpace`. -/
theorem trimSpace_printable (s : GoString) (hs : ∀ b ∈ s, 33 ≤ b ∧ b ≤ 126) :
    strings.TrimSpace s = s := by
  unfold strings.TrimSpace
  simp only [trimLeft_printable _ s hs, trimRight_printable _ s hs]

/-! ## Parsing the text of a generated URL -/

theorem goStr_otpauth : goStr "otpauth" = [111, 116, 112, 97, 117, 116, 104] := by decide
theorem goStr_hotp : goStr "hotp" = [104, 111, 116, 112] := by decide
theorem goStr_totp : goStr "totp" = [116, 111, 116, 112] := by decide

/-- The text of a URL with scheme, host `hotp` or `totp`, a path and a query. -/
theorem string_form (host : GoString) (hh : host = goStr "hotp" ∨ host = goStr "totp")
    (p q : GoString) (hne : q ≠ []) :
    url.URL.String { Scheme := goStr "otpauth", Host := host, Path := 47 :: p, RawQuery := q }
      = [111, 116, 112, 97, 117, 116, 104, 58, 47, 47] ++ host ++
          47 :: url.escape p .encodePath ++ 63 :: q := by
  have hesc : url.escape host .encodeHost = host := by
    rcases hh with rfl | rfl <;> decide
  have hhne : host ≠ [] := by
    rcases hh with rfl | rfl <;> decide
  have hpath : url.URL.EscapedPath
      { Scheme := goStr "otpauth", Host := host, Path := 47 :: p, RawQuery := q }
      = 47 :: url.escape p .encodePath := by
    unfold url.URL.EscapedPath
    simp [url.escape, url.escapeByte, url.shouldEscape]
  unfold url.URL.String
  simp only [hpath]
  simp [goStr_otpauth, hhne, hesc, hne]

theorem parse_form (host : GoString) (hh : host = goStr "hotp" ∨ host = goStr "totp")
    (p q : GoString) (hp : ∀ c ∈ p, c < 256)
    (hq : ∀ b ∈ q, 33 ≤ b ∧ b ≤ 126 ∧ b ≠ 35 ∧ b ≠ 63) (hne : q ≠ []) :
    url.Parse ([111, 116, 112, 97, 117, 116, 104, 58, 47, 47] ++ host ++
          47 :: url.escape p .encodePath ++ 63 :: q)
      = .ok { Scheme := goStr "otpauth", Host := host, Path := 47 :: p, RawQuery := q } := by
  have hm : url.encoding.encodePath ≠ .encodeHost := by decide
  have hE : ∀ b ∈ url.escape p .encodePath, 33 ≤ b ∧ b ≤ 126 ∧ b ≠ 35 ∧ b ≠ 63 := fun b hb =>
    let h := escape_mem p hp _ hm b hb
    ⟨h.1, h.2.1, h.2.2.1, h.2.2.2.1⟩
  have hU := unescape_escape p hp _ hm
  generalize hEq : url.escape p .encodePath = E at hE hU ⊢
  have hhost : ∀ b ∈ host, 33 ≤ b ∧ b ≤ 126 ∧ b ≠ 35 ∧ b ≠ 63 ∧ b ≠ 47 ∧ b ≠ 64 := by
    rcases hh with rfl | rfl <;> decide
  have hall : ∀ b ∈ [111, 116, 112, 97, 117, 116, 104, 58, 47, 47] ++ host ++ 47 :: E ++ 63 :: q,
      33 ≤ b ∧ b ≤ 126 ∧ b ≠ 35 := by
    intro b hb
    simp only [List.mem_append, List.mem_cons, List.mem_nil_iff, or_false] at hb
    rcases hb with ((hb | hb) | (rfl | hb)) | (rfl | hb)
    · omega
    · exact ⟨(hhost b hb).1, (hhost b hb).2.1, (hhost b hb).2.2.1⟩
    · decide
    · exact ⟨(hE b hb).1, (hE b hb).2.1, (hE b hb).2.2.1⟩
    · decide
    · exact ⟨(hq b hb).1, (hq b hb).2.1, (hq b hb).2.2.1⟩
  unfold url.Parse
  rw [cut_not_mem _ 35 (fun h => (hall 35 h).2.2 rfl)]
  simp only
  have hctl : url.stringContainsCTLByte
      ([111, 116, 112, 97, 117, 116, 104, 58, 47, 47] ++ host ++ 47 :: E ++ 63 :: q) = false := by
    unfold url.stringContainsCTLByte
    rw [List.any_eq_false]
    intro b hb
    have := hall b hb
    simp only [Bool.or_eq_true, decide_eq_true_eq, beq_iff_eq, not_or]
    omega
  have hsch : url.getScheme
      ([111, 116, 112, 97, 117, 116, 104, 58, 47, 47] ++ host ++ 47 :: E ++ 63 :: q)
      = some ([111, 116, 112, 97, 117, 116, 104], [47, 47] ++ host ++ 47 :: E ++ 63 :: q) := by
    simp [url.getScheme, url.schemeLoop]
  have hlower : strings.ToLower [111, 116, 112, 97, 117, 116, 104]
      = [111, 116, 112, 97, 117, 116, 104] := by decide
  have hlast : ¬ (([47, 47] ++ host ++ 47 :: E ++ 63 :: q).getLast? = some 63 ∧
      ([47, 47] ++ host ++ 47 :: E ++ 63 :: q).count 63 = 1) := by
    rintro ⟨h1, -⟩
    rw [List.getLast?_append_of_ne_nil _ (by simp)] at h1
    cases q with
    | nil => exact hne rfl
    | cons a t =>
      have h2 : (a :: t).getLast? = some 63 := h1
      exact (hq 63 (List.mem_of_mem_getLast? h2)).2.2.2 rfl
  have hcut : strings.Cut ([47, 47] ++ host ++ 47 :: E ++ 63 :: q) 63
      = ([47, 47] ++ host ++ 47 :: E, q, true) := by
    apply cut_append
    intro h
    simp only [List.mem_append, List.mem_cons, List.mem_nil_iff, or_false] at h
    rcases h with (h | h) | (h | h)
    · omega
    · exact (hhost 63 h).2.2.2.1 rfl
    · omega
    · exact (hE 63 h).2.2.2 rfl
  have hidx : strings.Index (host ++ 47 :: E) 47 = host.length :=
    index_append _ _ _ (fun h => (hhost 47 h).2.2.2.2.1 rfl)
  have h64 : 64 ∉ host := fun h => (hhost 64 h).2.2.2.2.2 rfl
  have hph : url.parseHost host = .ok host := by
    rcases hh with rfl | rfl <;> decide
  have hun : url.unescape (47 :: E) .encodePath = some (47 :: p) := by
    rw [unescape_cons _ _ _ (by decide), if_neg (by decide), if_neg (by decide), hU]
    rfl
  have hesc : url.escape (47 :: p) .encodePath = 47 :: E := by
    rw [url.escape, hEq]
    rfl
  unfold url.parse
  rw [hctl]
  simp only [hsch, hlower]
  have h42 : ¬ ([111, 116, 112, 97, 117, 116, 104, 58, 47, 47] ++ host ++ 47 :: E ++ 63 :: q
      = [42]) := by simp
  have hpre1 : strings.HasPrefix ([47, 47] ++ host ++ 47 :: E) [47] = true := by
    simp [strings.HasPrefix, List.isPrefixOf]
  have hpre2 : strings.HasPrefix ([47, 47] ++ host ++ 47 :: E) [47, 47] = true := by
    simp [strings.HasPrefix, List.isPrefixOf]
  have hdrop : List.drop 2 ([47, 47] ++ host ++ 47 :: E) = host ++ 47 :: E := by simp
  have hpos : (0 : Int) ≤ (host.length : Int) := by positivity
  simp only [hlast, if_false, hcut, h42, hpre1, hpre2, hdrop, hidx, hpos, if_true,
    Int.toNat_ofNat, List.take_left', List.drop_left', h64, hph, not_true_eq_false, false_and,
    ne_eq, and_true, true_and, url.URL.setPath, hun, hesc, goStr_otpauth]
  simp

/-- The key made from the text of a URL with scheme `otpauth`, host `hotp` or `totp`, a
path and a query holds that text and that URL. -/
theorem newKey_of_string (host : GoString) (hh : host = goStr "hotp" ∨ host = goStr "totp")
    (p q : GoString) (hp : ∀ c ∈ p, c < 256)
    (hq : ∀ b ∈ q, 33 ≤ b ∧ b ≤ 126 ∧ b ≠ 35 ∧ b ≠ 63) (hne : q ≠ []) :
    otp.NewKeyFromURL
        (url.URL.String
          { Scheme := goStr "otpauth", Host := host, Path := 47 :: p, RawQuery := q })
      = .ok ⟨[111, 116, 112, 97, 117, 116, 104, 58, 47, 47] ++ host ++
              47 :: url.escape p .encodePath ++ 63 :: q,
            { Scheme := goStr "otpauth", Host := host, Path := 47 :: p, RawQuery := q }⟩ := by
  have hm : url.encoding.encodePath ≠ .encodeHost := by decide
  rw [string_form host hh p q hne]
  have hhost : ∀ b ∈ host, 33 ≤ b ∧ b ≤ 126 := by
    rcases hh with rfl | rfl <;> decide
  have htrim : strings.TrimSpace ([111, 116, 112, 97, 117, 116, 104, 58, 47, 47] ++ host ++
      47 :: url.escape p .encodePath ++ 63 :: q)
      = [111, 116, 112, 97, 117, 116, 104, 58, 47, 47] ++ host ++
          47 :: url.escape p .encodePath ++ 63 :: q := by
    apply trimSpace_printable
    intro b hb
    simp only [List.mem_append, List.mem_cons, List.mem_nil_iff, or_false] at hb
    rcases hb with ((hb | hb) | (rfl | hb)) | (rfl | hb)
    · omega
    · exact hhost b hb
    · decide
    · exact ⟨(escape_mem p hp _ hm b hb).1, (escape_mem p hp _ hm b hb).2.1⟩
    · decide
    · exact ⟨(hq b hb).1, (hq b hb).2.1⟩
  unfold otp.NewKeyFromURL
  simp only [htrim, parse_form host hh p q hp hq hne]

theorem encode_hotp (s i a d : GoString) :
    url.Values.Encode
        (url.Values.Set (url.Values.Set (url.Values.Set (url.Values.Set [] (goStr "secret") s)
          (goStr "issuer") i) (goStr "algorithm") a) (goStr "digits") d)
      = [38].intercalate
          ([(goStr "algorithm", a), (goStr "digits", d), (goStr "issuer", i),
            (goStr "secret", s)].map
            (fun p => url.QueryEscape p.1 ++ [61] ++ url.QueryEscape p.2)) := by
  rfl

theorem intercalate_mem (kv : List (GoString × GoString))
    (h : ∀ p ∈ kv, (∀ c ∈ p.1, c < 256) ∧ (∀ c ∈ p.2, c < 256)) (b : Nat)
    (hb : b ∈ [38].intercalate
      (kv.map (fun p => url.QueryEscape p.1 ++ [61] ++ url.QueryEscape p.2))) :
    33 ≤ b ∧ b ≤ 126 ∧ b ≠ 35 ∧ b ≠ 63 := by
  have hm : url.encoding.encodeQueryComponent ≠ .encodeHost := by decide
  have one : ∀ p ∈ kv, ∀ b ∈ url.QueryEscape p.1 ++ [61] ++ url.QueryEscape p.2,
      33 ≤ b ∧ b ≤ 126 ∧ b ≠ 35 ∧ b ≠ 63 := by
    intro p hp b hb
    simp only [List.mem_append, List.mem_singleton] at hb
    rcases hb with (hb | rfl) | hb
    · have := escape_mem p.1 (h p hp).1 _ hm b hb
      exact ⟨this.1, this.2.1, this.2.2.1, this.2.2.2.1⟩
    · decide
    · have := escape_mem p.2 (h p hp).2 _ hm b hb
      exact ⟨this.1, this.2.1, this.2.2.1, this.2.2.2.1⟩
  induction kv with
  | nil => simp [List.intercalate] at hb
  | cons x t ih =>
    cases t with
    | nil =>
      have e : [38].intercalate ([x].map
          (fun p => url.QueryEscape p.1 ++ [61] ++ url.QueryEscape p.2))
          = url.QueryEscape x.1 ++ [61] ++ url.QueryEscape x.2 := by simp [List.intercalate]
      rw [e] at hb
      exact one x (by simp) b hb
    | cons y ys =>
      have e : [38].intercalate ((x :: y :: ys).map
          (fun p => url.QueryEscape p.1 ++ [61] ++ url.QueryEscape p.2))
          = (url.QueryEscape x.1 ++ [61] ++ url.QueryEscape x.2) ++ 38 :: [38].intercalate
              ((y :: ys).map (fun p => url.QueryEscape p.1 ++ [61] ++ url.QueryEscape p.2)) := by
        simp [List.intercalate]
      rw [e, List.mem_append, List.mem_cons] at hb
      rcases hb with hb | rfl | hb
      · exact one x (by simp) b hb
      · decide
      · exact ih (fun q hq => h q (by simp [hq])) hb
          (fun p hp => one p (by simp [hp]))

theorem intercalate_ne_nil (kv : List (GoString × GoString)) (hne : kv ≠ []) :
    [38].intercalate (kv.map (fun p => url.QueryEscape p.1 ++ [61] ++ url.QueryEscape p.2))
      ≠ [] := by
  cases kv with
  | nil => exact absurd rfl hne
  | cons x t =>
    cases t with
    | nil => simp [List.intercalate]
    | cons y ys => simp [List.intercalate]

/-- The key that `Generate` returns when the query text is the one written for the pairs
`kv`: it holds the text of the URL and the URL with the given path and query. -/
theorem generated_key (host : GoString) (hh : host = goStr "hotp" ∨ host = goStr "totp")
    (issuer account : GoString) (hi : ∀ c ∈ issuer, c < 256) (ha : ∀ c ∈ account, c < 256)
    (v : url.Values) (kv : List (GoString × GoString)) (hne : kv ≠ [])
    (h : ∀ p ∈ kv, (∀ c ∈ p.1, c < 256) ∧ (∀ c ∈ p.2, c < 256))
    (hv : url.Values.Encode v = [38].intercalate
      (kv.map (fun p => url.QueryEscape p.1 ++ [61] ++ url.QueryEscape p.2))) :
    otp.generated host issuer account v
      = .key ⟨[111, 116, 112, 97, 117, 116, 104, 58, 47, 47] ++ host ++
              47 :: url.escape (issuer ++ 58 :: account) .encodePath ++ 63 :: url.Values.Encode v,
            { Scheme := goStr "otpauth", Host := host, Path := 47 :: (issuer ++ 58 :: account),
              RawQuery := url.Values.Encode v }⟩ := by
  have hp : ∀ c ∈ issuer ++ 58 :: account, c < 256 := by
    intro c hc
    simp only [List.mem_append, List.mem_cons] at hc
    rcases hc with hc | rfl | hc
    · exact hi c hc
    · decide
    · exact ha c hc
  have key := newKey_of_string host hh (issuer ++ 58 :: account) (url.Values.Encode v) hp
    (by rw [hv]; exact intercalate_mem kv h) (by rw [hv]; exact intercalate_ne_nil kv hne)
  unfold otp.generated
  have e : [47] ++ issuer ++ [58] ++ account = 47 :: (issuer ++ 58 :: account) := by simp
  simp only [e, key]

theorem keyOf_eq (host issuer account : GoString) (kv : List (GoString × GoString)) :
    otp.keyOf host issuer account kv
      = ⟨[111, 116, 112, 97, 117, 116, 104, 58, 47, 47] ++ host ++
            47 :: url.escape (issuer ++ 58 :: account) .encodePath ++ 63 :: url.queryText kv,
          { Scheme := goStr "otpauth", Host := host, Path := 47 :: (issuer ++ 58 :: account),
            RawQuery := url.queryText kv }⟩ := by
  have : goStr "otpauth://" = [111, 116, 112, 97, 117, 116, 104, 58, 47, 47] := by decide
  unfold otp.keyOf
  rw [this]
  simp

/-- When the query text of the values is the one of the pairs `kv`, `Generate` ends with the
key `otp.keyOf`. -/
theorem generated_keyOf (host : GoString) (hh : host = goStr "hotp" ∨ host = goStr "totp")
    (issuer account : GoString) (hi : ∀ c ∈ issuer, c < 256) (ha : ∀ c ∈ account, c < 256)
    (v : url.Values) (kv : List (GoString × GoString)) (hne : kv ≠ [])
    (h : ∀ p ∈ kv, (∀ c ∈ p.1, c < 256) ∧ (∀ c ∈ p.2, c < 256))
    (hv : url.Values.Encode v = url.queryText kv) :
    otp.generated host issuer account v = .key (otp.keyOf host issuer account kv) := by
  rw [generated_key host hh issuer account hi ha v kv hne h hv, keyOf_eq, hv]

/-- Reading the key `otp.keyOf` back: its URL text is the text it was made from, parsing
that text gives the same key, and its query holds the pairs `kv`. -/
theorem keyOf_props (host : GoString) (hh : host = goStr "hotp" ∨ host = goStr "totp")
    (issuer account : GoString) (hi : ∀ c ∈ issuer, c < 256) (ha : ∀ c ∈ account, c < 256)
    (kv : List (GoString × GoString)) (hne : kv ≠ [])
    (h : ∀ p ∈ kv, (∀ c ∈ p.1, c < 256) ∧ (∀ c ∈ p.2, c < 256)) :
    (otp.keyOf host issuer account kv).URL = (otp.keyOf host issuer account kv).String ∧
    otp.NewKeyFromURL (otp.keyOf host issuer account kv).URL
      = .ok (otp.keyOf host issuer account kv) ∧
    (otp.keyOf host issuer account kv).url.Query
      = kv.foldl (fun m p => url.Values.append m p.1 p.2) [] ∧
    (58 ∉ issuer → (otp.keyOf host issuer account kv).AccountName = account) := by
  have hp : ∀ c ∈ issuer ++ 58 :: account, c < 256 := by
    intro c hc
    simp only [List.mem_append, List.mem_cons] at hc
    rcases hc with hc | rfl | hc
    · exact hi c hc
    · decide
    · exact ha c hc
  have hq := intercalate_mem kv h
  have hqne := intercalate_ne_nil kv hne
  have hs := string_form host hh (issuer ++ 58 :: account) (url.queryText kv) hqne
  have hk := newKey_of_string host hh (issuer ++ 58 :: account) (url.queryText kv) hp hq hqne
  rw [keyOf_eq]
  refine ⟨hs, ?_, parseQuery_intercalate kv hne h, ?_⟩
  · show otp.NewKeyFromURL (url.URL.String _) = _
    exact hk
  · intro h58
    unfold otp.Key.AccountName
    have e1 : strings.TrimPrefix (47 :: (issuer ++ 58 :: account)) [47]
        = issuer ++ 58 :: account := by
      simp [strings.TrimPrefix, strings.HasPrefix, List.isPrefixOf]
    simp only [e1, index_append issuer account 58 h58]
    have hneg : ¬ ((issuer.length : Int) = -1) := by omega
    have : ((issuer.length : Int) + 1).toNat = issuer.length + 1 := by omega
    rw [if_neg hneg, this, List.drop_append]
    rfl

/-! ## Base32: decoding what was encoded -/


theorem chunksOf_fuel {α : Type} (n : Nat) (hn : 1 ≤ n) (fuel : Nat) (l : List α)
    (h : l.length ≤ fuel) : chunksOf n fuel l = chunksOf n l.length l := by
  induction fuel using Nat.strong_induction_on generalizing l with
  | _ fuel ih =>
    cases l with
    | nil =>
      cases fuel with
      | zero => rfl
      | succ f => simp [chunksOf]
    | cons a t =>
      cases fuel with
      | zero => simp at h
      | succ f =>
        have hl : ((a :: t).drop n).length ≤ t.length := by
          simp only [List.length_drop, List.length_cons]
          omega
        simp only [List.length_cons] at h
        rw [List.length_cons, chunksOf, chunksOf]
        simp only [List.isEmpty_cons, Bool.false_eq_true, if_false]
        rw [ih f (by omega) _ (by omega), ih t.length (by omega) _ hl]

theorem encodeToString_nil : base32.EncodeToString [] = [] := rfl

theorem encodeToString_append (g rest : Bytes) (hg : g.length = 5) :
    base32.EncodeToString (g ++ rest) = base32.encodeGroup g ++ base32.EncodeToString rest := by
  unfold base32.EncodeToString
  have hne : (g ++ rest) ≠ [] := by
    intro h
    have := congrArg List.length h
    simp only [List.length_append, List.length_nil, hg] at this
    omega
  have hlen : (g ++ rest).length = (4 + rest.length) + 1 := by
    simp only [List.length_append]
    omega
  rw [hlen, chunksOf]
  have he : (g ++ rest).isEmpty = false := by
    cases hgr : g ++ rest with
    | nil => exact absurd hgr hne
    | cons a t => rfl
  rw [he]
  simp only [Bool.false_eq_true, if_false, List.map_cons, List.foldr_cons]
  rw [List.take_left' hg, List.drop_left' hg, chunksOf_fuel 5 (by norm_num) _ rest (by omega)]

theorem encodeToString_short (g : Bytes) (h1 : 1 ≤ g.length) (h5 : g.length ≤ 5) :
    base32.EncodeToString g = base32.encodeGroup g := by
  unfold base32.EncodeToString
  obtain ⟨f, hf⟩ : ∃ f, g.length = f + 1 := ⟨g.length - 1, by omega⟩
  have he : g.isEmpty = false := by
    cases g with
    | nil => simp at h1
    | cons a t => rfl
  have hnil : ∀ k, chunksOf 5 k ([] : Bytes) = [] := by
    intro k
    cases k <;> simp [chunksOf]
  rw [hf, chunksOf, he]
  simp only [Bool.false_eq_true, if_false, List.map_cons, List.foldr_cons]
  rw [List.take_of_length_le h5, List.drop_of_length_le h5, hnil]
  simp

/-- Induction over a byte sequence in groups of five bytes. -/
theorem group_induction (P : Bytes → Prop) (h0 : P [])
    (hlast : ∀ g : Bytes, 1 ≤ g.length → g.length ≤ 4 → P g)
    (hstep : ∀ g rest : Bytes, g.length = 5 → P rest → P (g ++ rest)) (b : Bytes) : P b := by
  have key : ∀ n, ∀ b : Bytes, b.length = n → P b := by
    intro n
    induction n using Nat.strong_induction_on with
    | _ n ih =>
      intro b hn
      by_cases hz : b.length = 0
      · rw [List.length_eq_zero.mp hz]; exact h0
      · by_cases h4 : b.length ≤ 4
        · exact hlast b (by omega) h4
        · have := hstep (b.take 5) (b.drop 5) (by simp; omega)
            (ih (b.drop 5).length (by simp; omega) (b.drop 5) rfl)
          rwa [List.take_append_drop] at this
  exact key b.length b rfl

theorem alphabet_spec (d : Nat) (h : d < 32) :
    base32.encodeStd.getD d 0 ≠ 61 ∧ base32.decodeMap (base32.encodeStd.getD d 0) = d ∧
      ((65 ≤ base32.encodeStd.getD d 0 ∧ base32.encodeStd.getD d 0 ≤ 90) ∨
        (50 ≤ base32.encodeStd.getD d 0 ∧ base32.encodeStd.getD d 0 ≤ 55)) := by
  revert d
  decide

theorem readQuantum_digits (ds : List Nat) (hds : ∀ d ∈ ds, d < 32) (fuel j : Nat)
    (tail : Bytes) (dbuf : List Nat) :
    base32.readQuantum (ds.length + fuel) j
        (ds.map (fun d => base32.encodeStd.getD d 0) ++ tail) dbuf
      = base32.readQuantum fuel (j + ds.length) tail (dbuf ++ ds) := by
  induction ds generalizing j dbuf with
  | nil => simp
  | cons d t ih =>
    have hd := alphabet_spec d (hds d (by simp))
    have e : (d :: t).length + fuel = (t.length + fuel) + 1 := by simp; omega
    rw [e, List.map_cons, List.cons_append, base32.readQuantum]
    rw [if_neg (fun h => hd.1 h.1), hd.2.1, if_neg (by have := hds d (by simp); omega),
      ih (fun x hx => hds x (by simp [hx]))]
    simp only [List.length_cons, List.append_assoc, List.singleton_append]
    congr 1
    omega


theorem byteA (d0 d1 : Nat) (h0 : d0 < 32) (h1 : d1 < 32) :
    ((d0 <<< 3) ||| (d1 >>> 2)) % 256 = d0 * 8 + d1 / 4 := by
  have key : ∀ d0, d0 < 32 → ∀ d1, d1 < 32 →
      ((d0 <<< 3) ||| (d1 >>> 2)) % 256 = d0 * 8 + d1 / 4 := by decide!
  exact key d0 h0 d1 h1

theorem byteB (d1 d2 d3 : Nat) (h1 : d1 < 32) (h2 : d2 < 32) (h3 : d3 < 32) :
    ((d1 <<< 6) ||| (d2 <<< 1) ||| (d3 >>> 4)) % 256 = d1 % 4 * 64 + d2 * 2 + d3 / 16 := by
  have low : ∀ d2, d2 < 32 → ∀ d3, d3 < 32 → (d2 <<< 1) ||| (d3 >>> 4) = d2 * 2 + d3 / 16 := by
    decide!
  have high : ∀ d1, d1 < 32 → ∀ x, x < 64 → ((d1 <<< 6) ||| x) % 256 = d1 % 4 * 64 + x := by
    decide!
  rw [Nat.lor_assoc, low d2 h2 d3 h3, high d1 h1 _ (by omega)]
  omega

theorem byteC (d3 d4 : Nat) (h3 : d3 < 32) (h4 : d4 < 32) :
    ((d3 <<< 4) ||| (d4 >>> 1)) % 256 = d3 % 16 * 16 + d4 / 2 := by
  have key : ∀ d3, d3 < 32 → ∀ d4, d4 < 32 →
      ((d3 <<< 4) ||| (d4 >>> 1)) % 256 = d3 % 16 * 16 + d4 / 2 := by decide!
  exact key d3 h3 d4 h4

theorem byteD (d4 d5 d6 : Nat) (h4 : d4 < 32) (h5 : d5 < 32) (h6 : d6 < 32) :
    ((d4 <<< 7) ||| (d5 <<< 2) ||| (d6 >>> 3)) % 256 = d4 % 2 * 128 + d5 * 4 + d6 / 8 := by
  have low : ∀ d5, d5 < 32 → ∀ d6, d6 < 32 → (d5 <<< 2) ||| (d6 >>> 3) = d5 * 4 + d6 / 8 := by
    decide!
  have high : ∀ d4, d4 < 32 → ∀ x, x < 128 → ((d4 <<< 7) ||| x) % 256 = d4 % 2 * 128 + x := by
    decide!
  rw [Nat.lor_assoc, low d5 h5 d6 h6, high d4 h4 _ (by omega)]
  omega

theorem byteE (d6 d7 : Nat) (h6 : d6 < 32) (h7 : d7 < 32) :
    ((d6 <<< 5) ||| d7) % 256 = d6 % 8 * 32 + d7 := by
  have key : ∀ d6, d6 < 32 → ∀ d7, d7 < 32 →
      ((d6 <<< 5) ||| d7) % 256 = d6 % 8 * 32 + d7 := by decide!
  exact key d6 h6 d7 h7

/-- The eight 5-bit values of the 40-bit number `v`, highest first. -/
theorem digits_eq (v : Nat) :
    (List.range 8).map (fun i => (v >>> (35 - 5 * i)) % 32)
      = [v / 2 ^ 35 % 32, v / 2 ^ 30 % 32, v / 2 ^ 25 % 32, v / 2 ^ 20 % 32, v / 2 ^ 15 % 32,
         v / 2 ^ 10 % 32, v / 2 ^ 5 % 32, v % 32] := by
  have : List.range 8 = [0, 1, 2, 3, 4, 5, 6, 7] := by decide
  rw [this]
  simp [Nat.shiftRight_eq_div_pow]

theorem pack_eq (d0 d1 d2 d3 d4 d5 d6 d7 : Nat) (h0 : d0 < 32) (h1 : d1 < 32)
    (h2 : d2 < 32) (h3 : d3 < 32) (h4 : d4 < 32) (h5 : d5 < 32) (h6 : d6 < 32) (h7 : d7 < 32) :
    base32.pack 8 [d0, d1, d2, d3, d4, d5, d6, d7]
      = [d0 * 8 + d1 / 4, d1 % 4 * 64 + d2 * 2 + d3 / 16, d3 % 16 * 16 + d4 / 2,
         d4 % 2 * 128 + d5 * 4 + d6 / 8, d6 % 8 * 32 + d7] := by
  rw [← byteA d0 d1 h0 h1, ← byteB d1 d2 d3 h1 h2 h3, ← byteC d3 d4 h3 h4,
    ← byteD d4 d5 d6 h4 h5 h6, ← byteE d6 d7 h6 h7]
  rfl

theorem readQuantum_pad (n : Nat) (hn : n = 2 ∨ n = 4 ∨ n = 5 ∨ n = 7) (ds : List Nat) :
    base32.readQuantum (8 - n) n (List.replicate (8 - n) 61) ds
      = some (n, true, List.replicate (7 - n) 61, ds) := by
  rcases hn with rfl | rfl | rfl | rfl <;> rfl

/-- Decoding a last quantum of `n` characters and `8 - n` pad characters. -/
theorem decode_last (ds : List Nat) (hds : ∀ d ∈ ds, d < 32) (n : Nat)
    (hn : n = 2 ∨ n = 4 ∨ n = 5 ∨ n = 7) (hlen : ds.length = n) (fuel : Nat) :
    base32.decode (fuel + 1)
        (ds.map (fun d => base32.encodeStd.getD d 0) ++ List.replicate (8 - n) 61)
      = some (base32.pack n ds) := by
  have hne : (ds.map (fun d => base32.encodeStd.getD d 0) ++ List.replicate (8 - n) 61).isEmpty
      = false := by
    cases ds with
    | nil => simp at hlen; omega
    | cons a t => rfl
  have key := readQuantum_digits ds hds (8 - n) 0 (List.replicate (8 - n) 61) []
  rw [show ds.length + (8 - n) = 8 by omega, hlen, Nat.zero_add, List.nil_append,
    readQuantum_pad n hn] at key
  rw [base32.decode, hne]
  simp only [Bool.false_eq_true, if_false, key]

/-- Decoding a full quantum of eight characters. -/
theorem decode_full (ds : List Nat) (hds : ∀ d ∈ ds, d < 32) (hlen : ds.length = 8)
    (tail : Bytes) (fuel : Nat) :
    base32.decode (fuel + 1) (ds.map (fun d => base32.encodeStd.getD d 0) ++ tail)
      = (base32.decode fuel tail).map (fun out => base32.pack 8 ds ++ out) := by
  have hne : (ds.map (fun d => base32.encodeStd.getD d 0) ++ tail).isEmpty = false := by
    cases ds with
    | nil => simp at hlen
    | cons a t => rfl
  have key := readQuantum_digits ds hds 0 0 tail []
  rw [show ds.length + 0 = 8 by omega, hlen, Nat.zero_add, List.nil_append,
    base32.readQuantum] at key
  rw [base32.decode, hne]
  simp only [Bool.false_eq_true, if_false, key]

theorem length_five {α : Type} (g : List α) (h : g.length = 5) :
    ∃ a b c d e, g = [a, b, c, d, e] := by
  match g, h with
  | [a, b, c, d, e], _ => exact ⟨a, b, c, d, e, rfl⟩

theorem length_four {α : Type} (g : List α) (h : g.length = 4) :
    ∃ a b c d, g = [a, b, c, d] := by
  match g, h with
  | [a, b, c, d], _ => exact ⟨a, b, c, d, rfl⟩

theorem pack_two (d0 d1 : Nat) (h0 : d0 < 32) (h1 : d1 < 32) :
    base32.pack 2 [d0, d1] = [d0 * 8 + d1 / 4] := by
  rw [← byteA d0 d1 h0 h1]
  rfl

theorem pack_four (d0 d1 d2 d3 : Nat) (h0 : d0 < 32) (h1 : d1 < 32) (h2 : d2 < 32)
    (h3 : d3 < 32) :
    base32.pack 4 [d0, d1, d2, d3] = [d0 * 8 + d1 / 4, d1 % 4 * 64 + d2 * 2 + d3 / 16] := by
  rw [← byteA d0 d1 h0 h1, ← byteB d1 d2 d3 h1 h2 h3]
  rfl

theorem pack_five (d0 d1 d2 d3 d4 : Nat) (h0 : d0 < 32) (h1 : d1 < 32) (h2 : d2 < 32)
    (h3 : d3 < 32) (h4 : d4 < 32) :
    base32.pack 5 [d0, d1, d2, d3, d4]
      = [d0 * 8 + d1 / 4, d1 % 4 * 64 + d2 * 2 + d3 / 16, d3 % 16 * 16 + d4 / 2] := by
  rw [← byteA d0 d1 h0 h1, ← byteB d1 d2 d3 h1 h2 h3, ← byteC d3 d4 h3 h4]
  rfl

theorem pack_seven (d0 d1 d2 d3 d4 d5 d6 : Nat) (h0 : d0 < 32) (h1 : d1 < 32) (h2 : d2 < 32)
    (h3 : d3 < 32) (h4 : d4 < 32) (h5 : d5 < 32) (h6 : d6 < 32) :
    base32.pack 7 [d0, d1, d2, d3, d4, d5, d6]
      = [d0 * 8 + d1 / 4, d1 % 4 * 64 + d2 * 2 + d3 / 16, d3 % 16 * 16 + d4 / 2,
         d4 % 2 * 128 + d5 * 4 + d6 / 8] := by
  rw [← byteA d0 d1 h0 h1, ← byteB d1 d2 d3 h1 h2 h3, ← byteC d3 d4 h3 h4,
    ← byteD d4 d5 d6 h4 h5 h6]
  rfl

/-- The characters written for a group of one to five bytes are the alphabet characters
of 5-bit values `ds` followed by padding, and `pack` gives the group back from `ds`. -/
theorem encodeGroup_digits (g : Bytes) (h1 : 1 ≤ g.length) (h5 : g.length ≤ 5)
    (h256 : ∀ b ∈ g, b < 256) :
    ∃ ds : List Nat, (∀ d ∈ ds, d < 32) ∧ base32.pack ds.length ds = g ∧
      base32.encodeGroup g
        = ds.map (fun d => base32.encodeStd.getD d 0) ++ List.replicate (8 - ds.length) 61 ∧
      ((g.length = 5 ∧ ds.length = 8) ∨
        (g.length ≤ 4 ∧ (ds.length = 2 ∨ ds.length = 4 ∨ ds.length = 5 ∨ ds.length = 7))) := by
  have hm : ∀ v k : Nat, v / k % 32 < 32 := fun v k => Nat.mod_lt _ (by norm_num)
  have hm0 : ∀ v : Nat, v % 32 < 32 := fun v => Nat.mod_lt _ (by norm_num)
  obtain h | h | h | h | h : g.length = 1 ∨ g.length = 2 ∨ g.length = 3 ∨ g.length = 4 ∨
      g.length = 5 := by omega
  · obtain ⟨b0, rfl⟩ := List.length_eq_one.mp h
    have hb0 := h256 b0 (by simp)
    have hv : beValue ([b0] ++ List.replicate (5 - [b0].length) 0) = b0 * 2 ^ 32 := by
      simp [beValue, List.replicate]
      ring
    refine ⟨[b0 * 2 ^ 32 / 2 ^ 35 % 32, b0 * 2 ^ 32 / 2 ^ 30 % 32], ?_, ?_, ?_, ?_⟩
    · intro d hd
      simp only [List.mem_cons, List.mem_nil_iff, or_false] at hd
      rcases hd with rfl | rfl <;> exact hm _ _
    · show base32.pack 2 [_, _] = _
      rw [pack_two _ _ (hm _ _) (hm _ _)]
      simp only [List.cons.injEq, and_true]
      omega
    · unfold base32.encodeGroup
      simp only [hv, digits_eq]
      rfl
    · right; simp
  · obtain ⟨b0, b1, rfl⟩ := List.length_eq_two.mp h
    have hb0 := h256 b0 (by simp)
    have hb1 := h256 b1 (by simp)
    have hv : beValue ([b0, b1] ++ List.replicate (5 - [b0, b1].length) 0)
        = (b0 * 256 + b1) * 2 ^ 24 := by
      simp [beValue, List.replicate]
      ring
    generalize hw : (b0 * 256 + b1) * 2 ^ 24 = v at hv
    refine ⟨[v / 2 ^ 35 % 32, v / 2 ^ 30 % 32, v / 2 ^ 25 % 32, v / 2 ^ 20 % 32], ?_, ?_, ?_, ?_⟩
    · intro d hd
      simp only [List.mem_cons, List.mem_nil_iff, or_false] at hd
      rcases hd with rfl | rfl | rfl | rfl <;> exact hm _ _
    · show base32.pack 4 [_, _, _, _] = _
      rw [pack_four _ _ _ _ (hm _ _) (hm _ _) (hm _ _) (hm _ _)]
      simp only [List.cons.injEq, and_true]
      omega
    · unfold base32.encodeGroup
      simp only [hv, digits_eq]
      rfl
    · right; simp
  · obtain ⟨b0, b1, b2, rfl⟩ := List.length_eq_three.mp h
    have hb0 := h256 b0 (by simp)
    have hb1 := h256 b1 (by simp)
    have hb2 := h256 b2 (by simp)
    have hv : beValue ([b0, b1, b2] ++ List.replicate (5 - [b0, b1, b2].length) 0)
        = ((b0 * 256 + b1) * 256 + b2) * 2 ^ 16 := by
      simp [beValue, List.replicate]
      ring
    generalize hw : ((b0 * 256 + b1) * 256 + b2) * 2 ^ 16 = v at hv
    refine ⟨[v / 2 ^ 35 % 32, v / 2 ^ 30 % 32, v / 2 ^ 25 % 32, v / 2 ^ 20 % 32,
      v / 2 ^ 15 % 32], ?_, ?_, ?_, ?_⟩
    · intro d hd
      simp only [List.mem_cons, List.mem_nil_iff, or_false] at hd
      rcases hd with rfl | rfl | rfl | rfl | rfl <;> exact hm _ _
    · show base32.pack 5 [_, _, _, _, _] = _
      rw [pack_five _ _ _ _ _ (hm _ _) (hm _ _) (hm _ _) (hm _ _) (hm _ _)]
      simp only [List.cons.injEq, and_true]
      omega
    · unfold base32.encodeGroup
      simp only [hv, digits_eq]
      rfl
    · right; simp
  · obtain ⟨b0, b1, b2, b3, rfl⟩ := length_four g h
    have hb0 := h256 b0 (by simp)
    have hb1 := h256 b1 (by simp)
    have hb2 := h256 b2 (by simp)
    have hb3 := h256 b3 (by simp)
    have hv : beValue ([b0, b1, b2, b3] ++ List.replicate (5 - [b0, b1, b2, b3].length) 0)
        = (((b0 * 256 + b1) * 256 + b2) * 256 + b3) * 2 ^ 8 := by
      simp [beValue, List.replicate]
    generalize hw : (((b0 * 256 + b1) * 256 + b2) * 256 + b3) * 2 ^ 8 = v at hv
    refine ⟨[v / 2 ^ 35 % 32, v / 2 ^ 30 % 32, v / 2 ^ 25 % 32, v / 2 ^ 20 % 32,
      v / 2 ^ 15 % 32, v / 2 ^ 10 % 32, v / 2 ^ 5 % 32], ?_, ?_, ?_, ?_⟩
    · intro d hd
      simp only [List.mem_cons, List.mem_nil_iff, or_false] at hd
      rcases hd with rfl | rfl | rfl | rfl | rfl | rfl | rfl <;> exact hm _ _
    · show base32.pack 7 [_, _, _, _, _, _, _] = _
      rw [pack_seven _ _ _ _ _ _ _ (hm _ _) (hm _ _) (hm _ _) (hm _ _) (hm _ _) (hm _ _)
        (hm _ _)]
      simp only [List.cons.injEq, and_true]
      omega
    · unfold base32.encodeGroup
      simp only [hv, digits_eq]
      rfl
    · right; simp
  · obtain ⟨b0, b1, b2, b3, b4, rfl⟩ := length_five g h
    have hb0 := h256 b0 (by simp)
    have hb1 := h256 b1 (by simp)
    have hb2 := h256 b2 (by simp)
    have hb3 := h256 b3 (by simp)
    have hb4 := h256 b4 (by simp)
    have hv : beValue ([b0, b1, b2, b3, b4] ++ List.replicate (5 - [b0, b1, b2, b3, b4].length) 0)
        = (((b0 * 256 + b1) * 256 + b2) * 256 + b3) * 256 + b4 := by
      simp [beValue, List.replicate]
    generalize hw : (((b0 * 256 + b1) * 256 + b2) * 256 + b3) * 256 + b4 = v at hv
    refine ⟨[v / 2 ^ 35 % 32, v / 2 ^ 30 % 32, v / 2 ^ 25 % 32, v / 2 ^ 20 % 32,
      v / 2 ^ 15 % 32, v / 2 ^ 10 % 32, v / 2 ^ 5 % 32, v % 32], ?_, ?_, ?_, ?_⟩
    · intro d hd
      simp only [List.mem_cons, List.mem_nil_iff, or_false] at hd
      rcases hd with rfl | rfl | rfl | rfl | rfl | rfl | rfl | rfl
      all_goals first | exact hm _ _ | exact hm0 _
    · show base32.pack 8 [_, _, _, _, _, _, _, _] = _
      rw [pack_eq _ _ _ _ _ _ _ _ (hm _ _) (hm _ _) (hm _ _) (hm _ _) (hm _ _) (hm _ _)
        (hm _ _) (hm0 _)]
      simp only [List.cons.injEq, and_true]
      omega
    · unfold base32.encodeGroup
      simp only [hv, digits_eq]
      rfl
    · left; simp

/-- Decoding what `EncodeToString` wrote gives the bytes back. -/
theorem decode_encodeToString (b : Bytes) (h256 : ∀ x ∈ b, x < 256) (fuel : Nat)
    (hf : b.length < fuel) : base32.decode fuel (base32.EncodeToString b) = some b := by
  revert h256 fuel
  refine group_induction
    (fun b => (∀ x ∈ b, x < 256) → ∀ fuel, b.length < fuel →
      base32.decode fuel (base32.EncodeToString b) = some b) ?_ ?_ ?_ b
  · intro _ fuel hf
    obtain ⟨f, rfl⟩ : ∃ f, fuel = f + 1 := ⟨fuel - 1, by simp at hf; omega⟩
    rfl
  · intro g h1 h4 h256 fuel hf
    obtain ⟨f, rfl⟩ : ∃ f, fuel = f + 1 := ⟨fuel - 1, by omega⟩
    obtain ⟨ds, hds, hpack, henc, hcase⟩ := encodeGroup_digits g h1 (by omega) h256
    rcases hcase with ⟨h5, -⟩ | ⟨-, hn⟩
    · omega
    · rw [encodeToString_short g h1 (by omega), henc, decode_last ds hds _ hn rfl, hpack]
  · intro g rest hg ih h256 fuel hf
    obtain ⟨f, rfl⟩ : ∃ f, fuel = f + 1 := ⟨fuel - 1, by omega⟩
    obtain ⟨ds, hds, hpack, henc, hcase⟩ := encodeGroup_digits g (by omega) (by omega)
      (fun x hx => h256 x (by simp [hx]))
    rcases hcase with ⟨-, h8⟩ | ⟨h4, -⟩
    · rw [encodeToString_append g rest hg, henc, h8]
      simp only [Nat.sub_self, List.replicate_zero, List.append_nil]
      rw [h8] at hpack
      rw [decode_full ds hds h8, ih (fun x hx => h256 x (by simp [hx])) f
        (by simp only [List.length_append] at hf; omega), hpack]
      rfl
    · omega

/-- The text written by `EncodeToString`: alphabet characters, then fewer than eight pad
characters, a multiple of eight characters in all and at least as many as bytes. -/
theorem encodeToString_shape (b : Bytes) :
    ∃ (body : Bytes) (p : Nat), base32.EncodeToString b = body ++ List.replicate p 61 ∧
      (∀ c ∈ body, (65 ≤ c ∧ c ≤ 90) ∨ (50 ≤ c ∧ c ≤ 55)) ∧ p < 8 ∧
      (body.length + p) % 8 = 0 ∧ b.length ≤ body.length + p ∧
      (b.length % 5 = 0 → p = 0 ∧ 5 * body.length = 8 * b.length) := by
  refine group_induction
    (fun b => ∃ (body : Bytes) (p : Nat), base32.EncodeToString b = body ++ List.replicate p 61 ∧
      (∀ c ∈ body, (65 ≤ c ∧ c ≤ 90) ∨ (50 ≤ c ∧ c ≤ 55)) ∧ p < 8 ∧
      (body.length + p) % 8 = 0 ∧ b.length ≤ body.length + p ∧
      (b.length % 5 = 0 → p = 0 ∧ 5 * body.length = 8 * b.length)) ?_ ?_ ?_ b
  · exact ⟨[], 0, rfl, by simp, by norm_num, rfl, by simp, by simp⟩
  · intro g h1 h4
    have hm : ∀ i : Nat, i % 32 < 32 := fun i => Nat.mod_lt _ (by norm_num)
    refine ⟨((((List.range 8).map (fun i =>
        (beValue (g ++ List.replicate (5 - g.length) 0) >>> (35 - 5 * i)) % 32)).take
          (match g.length with
            | 1 => 2
            | 2 => 4
            | 3 => 5
            | 4 => 7
            | _ => 8)).map (fun i => base32.encodeStd.getD i 0)),
      8 - (match g.length with
            | 1 => 2
            | 2 => 4
            | 3 => 5
            | 4 => 7
            | _ => 8), ?_, ?_, ?_, ?_, ?_, ?_⟩
    · rw [encodeToString_short g h1 (by omega)]
      rfl
    · intro c hc
      simp only [List.mem_map] at hc
      obtain ⟨d, hd, rfl⟩ := hc
      have hd2 := List.mem_of_mem_take hd
      simp only [List.mem_map] at hd2
      obtain ⟨i, -, rfl⟩ := hd2
      exact (alphabet_spec _ (hm _)).2.2
    · obtain h | h | h | h : g.length = 1 ∨ g.length = 2 ∨ g.length = 3 ∨ g.length = 4 := by
        omega
      all_goals rw [h]; simp
    · obtain h | h | h | h : g.length = 1 ∨ g.length = 2 ∨ g.length = 3 ∨ g.length = 4 := by
        omega
      all_goals rw [h]; simp
    · obtain h | h | h | h : g.length = 1 ∨ g.length = 2 ∨ g.length = 3 ∨ g.length = 4 := by
        omega
      all_goals rw [h]; simp
    · intro h
      omega
  · intro g rest hg ih
    obtain ⟨body, p, henc, hbody, hp, hmod, hlen, hfull⟩ := ih
    have hm : ∀ i : Nat, i % 32 < 32 := fun i => Nat.mod_lt _ (by norm_num)
    refine ⟨((List.range 8).map (fun i =>
        (beValue (g ++ List.replicate (5 - g.length) 0) >>> (35 - 5 * i)) % 32)).map
          (fun i => base32.encodeStd.getD i 0) ++ body, p, ?_, ?_, hp, ?_, ?_, ?_⟩
    · rw [encodeToString_append g rest hg, henc, ← List.append_assoc]
      congr 1
      unfold base32.encodeGroup
      simp [hg]
    · intro c hc
      rw [List.mem_append] at hc
      rcases hc with hc | hc
      · simp only [List.mem_map] at hc
        obtain ⟨d, ⟨i, -, rfl⟩, rfl⟩ := hc
        exact (alphabet_spec _ (hm _)).2.2
      · exact hbody c hc
    · simp only [List.length_append, List.length_map, List.length_range]
      omega
    · simp only [List.length_append, List.length_map, List.length_range, hg]
      omega
    · intro h
      simp only [List.length_append, List.length_map, List.length_range, hg] at h ⊢
      have := hfull (by omega)
      omega

theorem trimRight_pad (body : Bytes) (p : Nat) (h : ∀ c ∈ body, c ≠ 61) :
    strings.TrimRight (body ++ List.replicate p 61) 61 = body := by
  unfold strings.TrimRight List.rdropWhile
  rw [List.reverse_append, List.reverse_replicate]
  have h1 : ∀ r : List Nat, List.dropWhile (fun b => b == 61) (List.replicate p 61 ++ r)
      = List.dropWhile (fun b => b == 61) r := by
    intro r
    induction p with
    | zero => rfl
    | succ n ih => rw [List.replicate_succ, List.cons_append, List.dropWhile_cons]; simp [ih]
  have h2 : List.dropWhile (fun b => b == 61) body.reverse = body.reverse := by
    cases hr : body.reverse with
    | nil => rfl
    | cons a t =>
      have ha : a ≠ 61 := h a (by rw [← List.mem_reverse, hr]; simp)
      rw [List.dropWhile_cons]
      simp [ha]
  rw [h1, h2, List.reverse_reverse]

theorem toUpper_id (s : GoString) (h : ∀ c ∈ s, c < 97) : strings.ToUpper s = s := by
  induction s with
  | nil => simp [strings.ToUpper]
  | cons b t ih =>
    have hb := h b (by simp)
    rw [strings.ToUpper.eq_4 _ _ (fun _ h1 _ => by omega) (fun _ h1 _ => by omega),
      if_neg (by omega), ih (fun x hx => h x (by simp [hx]))]

/-- The normalisation of `GenerateCodeCustom` gives the text of `EncodeToString` back from
that text without its trailing pad characters. -/
theorem normalize_trimRight (b : Bytes) :
    hotp.normalize (strings.TrimRight (base32.EncodeToString b) 61) = base32.EncodeToString b ∧
    (∀ c ∈ strings.TrimRight (base32.EncodeToString b) 61,
      (65 ≤ c ∧ c ≤ 90) ∨ (50 ≤ c ∧ c ≤ 55)) ∧
    (∀ c ∈ base32.EncodeToString b, ((65 ≤ c ∧ c ≤ 90) ∨ (50 ≤ c ∧ c ≤ 55)) ∨ c = 61) ∧
    b.length ≤ (base32.EncodeToString b).length ∧
    (b.length % 5 = 0 →
      5 * (strings.TrimRight (base32.EncodeToString b) 61).length = 8 * b.length) := by
  obtain ⟨body, p, henc, hbody, hp, hmod, hlen, hfull⟩ := encodeToString_shape b
  have htrim : strings.TrimRight (base32.EncodeToString b) 61 = body := by
    rw [henc]
    exact trimRight_pad body p (fun c hc => by have := hbody c hc; omega)
  have hall : ∀ c ∈ body ++ List.replicate p 61,
      ((65 ≤ c ∧ c ≤ 90) ∨ (50 ≤ c ∧ c ≤ 55)) ∨ c = 61 := by
    intro c hc
    rw [List.mem_append] at hc
    rcases hc with hc | hc
    · exact Or.inl (hbody c hc)
    · exact Or.inr (List.eq_of_mem_replicate hc)
  refine ⟨?_, by rw [htrim]; exact hbody, by rw [henc]; exact hall,
    by rw [henc]; simpa using hlen, fun h => by rw [htrim]; exact (hfull h).2⟩
  rw [htrim, henc]
  unfold hotp.normalize
  rw [trimSpace_printable body (fun c hc => by have := hbody c hc; omega)]
  have hpad : (if body.length % 8 ≠ 0 then body ++ List.replicate (8 - body.length % 8) 61
      else body) = body ++ List.replicate p 61 := by
    by_cases hz : body.length % 8 = 0
    · have : p = 0 := by omega
      simp [hz, this]
    · have : 8 - body.length % 8 = p := by omega
      simp [hz, this]
  simp only [hpad]
  exact toUpper_id _ (fun c hc => by have := hall c hc; omega)

/-- The secret text that `Generate` stores for the bytes `b` decodes to `b`. -/
theorem decodeSecret_trimRight (b : Bytes) (h256 : ∀ x ∈ b, x < 256) :
    hotp.decodeSecret (strings.TrimRight (base32.EncodeToString b) 61) = some b := by
  obtain ⟨hn, -, hall, hlen, -⟩ := normalize_trimRight b
  have e : hotp.decodeSecret (strings.TrimRight (base32.EncodeToString b) 61)
      = base32.DecodeString (hotp.normalize (strings.TrimRight (base32.EncodeToString b) 61)) :=
    rfl
  rw [e, hn]
  unfold base32.DecodeString
  have hs : base32.stripNewlines (base32.EncodeToString b) = base32.EncodeToString b := by
    unfold base32.stripNewlines
    rw [List.filter_eq_self]
    intro c hc
    have := hall c hc
    simp only [bne_iff_ne, ne_eq, Bool.and_eq_true, decide_eq_true_eq]
    omega
  simp only [hs]
  exact decode_encodeToString b h256 _ (by omega)

/-! ## The keys of `Generate` -/

theorem algorithm_string_cases (alg : Int) (name : GoString)
    (h : otp.Algorithm.String alg = .returns name) :
    name = goStr "SHA1" ∨ name = goStr "SHA256" ∨ name = goStr "SHA512" ∨ name = goStr "MD5" := by
  unfold otp.Algorithm.String at h
  split_ifs at h
  all_goals (injection h with h; subst h; simp)

theorem algorithm_string_mem (alg : Int) (name : GoString)
    (h : otp.Algorithm.String alg = .returns name) :
    ∀ c ∈ name, (48 ≤ c ∧ c ≤ 57) ∨ (65 ≤ c ∧ c ≤ 90) := by
  rcases algorithm_string_cases alg name h with rfl | rfl | rfl | rfl <;> decide

theorem digits_string_mem (d : Int) :
    ∀ c ∈ otp.Digits.String d, c = 45 ∨ (48 ≤ c ∧ c ≤ 57) := by
  intro c hc
  unfold otp.Digits.String fmt.sign fmt.decimal at hc
  rw [List.mem_append] at hc
  rcases hc with hc | hc
  · split_ifs at hc
    · simp at hc; exact Or.inl hc
    · simp at hc
  · exact Or.inr (digits_mem _ _ c hc)

/-- The pairs of the query text of a key are made of bytes. -/
theorem pairs_bytes (kv : List (GoString × GoString))
    (h : ∀ p ∈ kv, (∀ c ∈ p.1, 33 ≤ c ∧ c ≤ 126) ∧ (∀ c ∈ p.2, c < 256)) :
    ∀ p ∈ kv, (∀ c ∈ p.1, c < 256) ∧ (∀ c ∈ p.2, c < 256) :=
  fun p hp => ⟨fun c hc => by have := (h p hp).1 c hc; omega, (h p hp).2⟩

theorem hotp_pairs_bytes (issuer : GoString) (digits alg : Int) (sec : Bytes) (name : GoString)
    (hi : ∀ c ∈ issuer, c < 256) (hname : otp.Algorithm.String alg = .returns name) :
    ∀ p ∈ [(goStr "algorithm", name), (goStr "digits", otp.Digits.String digits),
      (goStr "issuer", issuer),
      (goStr "secret", strings.TrimRight (base32.EncodeToString sec) 61)],
      (∀ c ∈ p.1, c < 256) ∧ (∀ c ∈ p.2, c < 256) := by
  intro p hp
  simp only [List.mem_cons, List.mem_nil_iff, or_false] at hp
  rcases hp with rfl | rfl | rfl | rfl
  · exact ⟨(by decide : ∀ c ∈ goStr "algorithm", c < 256),
      fun c hc => by have := algorithm_string_mem alg name hname c hc; omega⟩
  · exact ⟨(by decide : ∀ c ∈ goStr "digits", c < 256),
      fun c hc => by have := digits_string_mem digits c hc; omega⟩
  · exact ⟨(by decide : ∀ c ∈ goStr "issuer", c < 256), hi⟩
  · exact ⟨(by decide : ∀ c ∈ goStr "secret", c < 256),
      fun c hc => by have := (normalize_trimRight sec).2.1 c hc; omega⟩

theorem hotp_generate_keyOf (issuer account : GoString) (size : Nat) (digits alg : Int)
    (rand : Nat → Option Bytes) (sec : Bytes) (name : GoString)
    (hI : issuer ≠ []) (hA : account ≠ [])
    (hi : ∀ c ∈ issuer, c < 256) (ha : ∀ c ∈ account, c < 256)
    (hname : otp.Algorithm.String alg = .returns name) (hsize : 2 * size ≤ maxAlloc)
    (hr : rand (if size = 0 then 20 else size) = some sec) :
    hotp.Generate ⟨issuer, account, size, digits, alg⟩ rand
      = .returns (.key (otp.keyOf (goStr "hotp") issuer account
          [(goStr "algorithm", name), (goStr "digits", otp.Digits.String digits),
           (goStr "issuer", issuer),
           (goStr "secret", strings.TrimRight (base32.EncodeToString sec) 61)])) := by
  have hkv := hotp_pairs_bytes issuer digits alg sec name hi hname
  have key := generated_keyOf (goStr "hotp") (Or.inl rfl) issuer account hi ha _ _ (by simp) hkv
    (encode_hotp (strings.TrimRight (base32.EncodeToString sec) 61) issuer name
      (otp.Digits.String digits))
  have hmk : ¬ maxAlloc < (if size = 0 then 20 else size) := by
    unfold maxAlloc at *
    split <;> omega
  unfold hotp.Generate
  simp only [hI, hA, if_false, hmk, hr, hname]
  exact congrArg Run.returns key

/-- With issuer and account name given, `Generate` panics for a secret size above `maxAlloc`:
`make([]byte, opts.SecretSize)` fails before `rand.Read` is called. -/
theorem generate_size_panics (issuer account : GoString) (period size : Nat) (digits alg : Int)
    (rand : Nat → Option Bytes) (hI : issuer ≠ []) (hA : account ≠ [])
    (hsize : maxAlloc < size) :
    hotp.Generate ⟨issuer, account, size, digits, alg⟩ rand = .panics ∧
    totp.Generate ⟨issuer, account, period, size, digits, alg⟩ rand = .panics := by
  have h0 : size ≠ 0 := by
    rintro rfl
    simp at hsize
  unfold hotp.Generate totp.Generate
  simp only [hI, hA, if_false, h0, hsize, if_true, and_self]

/-- What the key of `hotp.Generate` holds: the `digits` parameter is the decimal text of
`opts.Digits` as given (there is no default), the `algorithm` parameter is the name
of the algorithm, and the secret is the base32 text of the random bytes without
padding, 32 characters for 20 bytes. -/
theorem hotp_generate_parameters (issuer account : GoString) (size : Nat)
    (digits alg : Int) (rand : Nat → Option Bytes) (sec : Bytes) (name : GoString)
    (hI : issuer ≠ []) (hA : account ≠ [])
    (hi : ∀ c ∈ issuer, c < 256) (ha : ∀ c ∈ account, c < 256)
    (hname : otp.Algorithm.String alg = .returns name) (hsize : 2 * size ≤ maxAlloc)
    (hr : rand (if size = 0 then 20 else size) = some sec) :
    ∃ k, hotp.Generate ⟨issuer, account, size, digits, alg⟩ rand = .returns (.key k) ∧
      url.Values.Get k.url.Query (goStr "digits") = otp.Digits.String digits ∧
      url.Values.Get k.url.Query (goStr "algorithm") = name ∧
      k.Secret = strings.TrimRight (base32.EncodeToString sec) 61 ∧
      (sec.length = 20 → k.Secret.length = 32) := by
  have hkv := hotp_pairs_bytes issuer digits alg sec name hi hname
  obtain ⟨-, -, hq, -⟩ :=
    keyOf_props (goStr "hotp") (Or.inl rfl) issuer account hi ha _ (by simp) hkv
  refine ⟨_, hotp_generate_keyOf issuer account size digits alg rand sec name hI hA hi ha
    hname hsize hr, ?_, ?_, ?_, ?_⟩
  · rw [hq]; rfl
  · rw [hq]; rfl
  · unfold otp.Key.Secret; rw [hq]; rfl
  · intro h20
    have h5 := (normalize_trimRight sec).2.2.2.2 (by omega)
    unfold otp.Key.Secret
    rw [hq]
    show (strings.TrimRight (base32.EncodeToString sec) 61).length = 32
    omega

/-! ## Reading a key -/

/-- A string that contains the byte `c` splits at its first `c`. -/
theorem split_first (p : GoString) (c : Nat) (h : c ∈ p) :
    ∃ a b, p = a ++ c :: b ∧ c ∉ a ∧ p.takeWhile (fun x => x != c) = a ∧
      (p.dropWhile (fun x => x != c)).drop 1 = b := by
  induction p with
  | nil => simp at h
  | cons x t ih =>
    by_cases hx : x = c
    · subst hx
      exact ⟨[], t, rfl, by simp, by simp, by simp⟩
    · have ht : c ∈ t := by
        rcases List.mem_cons.mp h with h | h
        · exact absurd h.symm hx
        · exact h
      obtain ⟨a, b, hp, ha, htw, hdw⟩ := ih ht
      refine ⟨x :: a, b, by rw [hp]; rfl, ?_, ?_, ?_⟩
      · simp only [List.mem_cons, not_or]
        exact ⟨fun e => hx e.symm, ha⟩
      · rw [List.takeWhile_cons, if_pos (by simpa using hx), htw]
      · rw [List.dropWhile_cons, if_pos (by simpa using hx), hdw]

/-- The two slices of `Key.Issuer` and `Key.AccountName` at `strings.Index(p, ":")`. -/
theorem index_slices (p : GoString) (c : Nat) :
    (c ∈ p → strings.Index p c ≠ -1 ∧
      p.take (strings.Index p c).toNat = p.takeWhile (fun x => x != c) ∧
      p.drop (strings.Index p c + 1).toNat = (p.dropWhile (fun x => x != c)).drop 1 ∧
      p.takeWhile (fun x => x != c) ++ c :: (p.dropWhile (fun x => x != c)).drop 1 = p) ∧
    (c ∉ p → strings.Index p c = -1) := by
  refine ⟨fun h => ?_, index_not_mem p c⟩
  obtain ⟨a, b, hp, ha, htw, hdw⟩ := split_first p c h
  rw [htw, hdw]
  subst hp
  rw [index_append a b c ha]
  have e : ((a.length : Int) + 1).toNat = a.length + 1 := by omega
  refine ⟨by omega, ?_, ?_, rfl⟩
  · rw [Int.toNat_ofNat, List.take_left']
    rfl
  · rw [e, List.drop_append]
    rfl


/-- What `Key.Issuer` returns: the first value of the `issuer` parameter when it is not
empty, else the part of the path before the first `:`, else the empty string. -/
theorem key_issuer_eq (k : otp.Key) :
    k.Issuer =
      if url.Values.Get k.url.Query (goStr "issuer") ≠ [] then
        url.Values.Get k.url.Query (goStr "issuer")
      else if 58 ∈ strings.TrimPrefix k.url.Path [47] then
        (strings.TrimPrefix k.url.Path [47]).takeWhile (fun x => x != 58)
      else [] := by
  unfold otp.Key.Issuer
  simp only
  by_cases hq : url.Values.Get k.url.Query (goStr "issuer") ≠ []
  · rw [if_pos hq, if_pos hq]
  · rw [if_neg hq, if_neg hq]
    by_cases h58 : 58 ∈ strings.TrimPrefix k.url.Path [47]
    · obtain ⟨h1, h2, -, -⟩ := (index_slices _ 58).1 h58
      rw [if_neg h1, if_pos h58, h2]
    · rw [(index_slices _ 58).2 h58, if_pos rfl, if_neg h58]

/-! ## The normalisation of the secret -/

theorem toUpper_replicate (k : Nat) : strings.ToUpper (List.replicate k 61) = List.replicate k 61 := by
  induction k with
  | zero => simp [strings.ToUpper]
  | succ n ih =>
    rw [List.replicate_succ, strings.ToUpper.eq_4 _ _ (by simp) (by simp), ih]
    simp

theorem toUpper_append_pad (s : GoString) (k : Nat) :
    strings.ToUpper (s ++ List.replicate k 61) = strings.ToUpper s ++ List.replicate k 61 := by
  induction s using strings.ToUpper.induct with
  | case1 => simpa [strings.ToUpper] using toUpper_replicate k
  | case2 rest ih => simp [strings.ToUpper, ih]
  | case3 rest ih => simp [strings.ToUpper, ih]
  | case4 b rest h1 h2 ih =>
    have side : ∀ x : Nat, x ≠ 61 → (∀ r, rest = x :: r → False) →
        ∀ r, rest ++ List.replicate k 61 = x :: r → False := by
      intro x hx hr r h
      cases rest with
      | nil =>
        cases k with
        | zero => simp at h
        | succ n =>
          rw [List.nil_append, List.replicate_succ] at h
          exact hx (List.cons.inj h).1.symm
      | cons y t =>
        rw [List.cons_append] at h
        exact hr t (by rw [(List.cons.inj h).1])
    rw [List.cons_append, strings.ToUpper.eq_4 _ _
      (fun r hb h => side 191 (by decide) (fun r2 hr2 => h1 r2 hb hr2) r h)
      (fun r hb h => side 177 (by decide) (fun r2 hr2 => h2 r2 hb hr2) r h),
      strings.ToUpper.eq_4 _ _ h1 h2, ih, List.cons_append]

theorem toUpper_length_ascii (s : GoString) (h : ∀ b ∈ s, b < 128) :
    (strings.ToUpper s).length = s.length := by
  induction s with
  | nil => simp [strings.ToUpper]
  | cons b t ih =>
    have hb := h b (by simp)
    rw [strings.ToUpper.eq_4 _ _ (fun _ h1 _ => by omega) (fun _ h1 _ => by omega)]
    simp [ih (fun x hx => h x (by simp [hx]))]

theorem generateCodeCustom_eq (s : GoString) (counter : Nat) (opts : hotp.Options) :
    hotp.GenerateCodeCustom s counter opts =
      match base32.DecodeString (hotp.normalize s) with
      | none => .returns ([], some .ErrValidateSecretInvalidBase32)
      | some key => hotp.codeOfKey key counter opts := rfl

theorem normalize_eq_spec (s : GoString)
    (h : (strings.ToUpper (strings.TrimSpace s)).length % 8 = (strings.TrimSpace s).length % 8) :
    hotp.normalize s = specNormalize s := by
  unfold hotp.normalize specNormalize
  simp only [h]
  split_ifs with h1
  · exact toUpper_append_pad _ _
  · rfl

theorem trimLeft_mem (fuel : Nat) (s : GoString) (b : Nat)
    (h : b ∈ strings.trimLeft fuel s) : b ∈ s := by
  induction fuel generalizing s with
  | zero => exact h
  | succ f ih =>
    unfold strings.trimLeft at h
    split at h
    · exact h
    · exact List.mem_of_mem_drop (ih _ h)

theorem trimRight_mem (fuel : Nat) (s : GoString) (b : Nat)
    (h : b ∈ strings.trimRight fuel s) : b ∈ s := by
  induction fuel generalizing s with
  | zero => exact h
  | succ f ih =>
    unfold strings.trimRight at h
    split at h
    · exact h
    · exact List.mem_of_mem_take (ih _ h)

/-- Every byte of the trimmed string is a byte of the string. -/
theorem trimSpace_mem (s : GoString) (b : Nat) (h : b ∈ strings.TrimSpace s) : b ∈ s := by
  unfold strings.TrimSpace at h
  exact trimLeft_mem _ _ _ (trimRight_mem _ _ _ h)

/-- For an ASCII secret the order of the code (trim, fill, upper-case) and the order of the
specification (trim, upper-case, fill) give the same text. -/
theorem normalize_ascii (s : GoString) (hs : ∀ b ∈ s, b < 128) :
    hotp.normalize s = specNormalize s := by
  apply normalize_eq_spec
  rw [toUpper_length_ascii _ (fun b hb => hs b (trimSpace_mem s b hb))]


/-! ## The truncated value -/

theorem truncate_lt (sum : Bytes) (v : Nat) (h : hotp.truncate sum = some v) : v < 2 ^ 31 := by
  unfold hotp.truncate at h
  split at h
  · exact absurd h (by simp)
  · split at h
    · exact absurd h (by simp)
    · simp only at h
      split at h
      · simp only [Option.some.injEq] at h
        subst h
        have a0 : ∀ x : Nat, (x &&& 0x7F) <<< 24 < 2 ^ 31 := by
          intro x
          have : x &&& 0x7F < 2 ^ 7 := Nat.and_lt_two_pow x (by norm_num)
          rw [Nat.shiftLeft_eq]; omega
        have a1 : ∀ x : Nat, (x &&& 0xFF) <<< 16 < 2 ^ 31 := by
          intro x
          have : x &&& 0xFF < 2 ^ 8 := Nat.and_lt_two_pow x (by norm_num)
          rw [Nat.shiftLeft_eq]; omega
        have a2 : ∀ x : Nat, (x &&& 0xFF) <<< 8 < 2 ^ 31 := by
          intro x
          have : x &&& 0xFF < 2 ^ 8 := Nat.and_lt_two_pow x (by norm_num)
          rw [Nat.shiftLeft_eq]; omega
        have a3 : ∀ x : Nat, (x &&& 0xFF) < 2 ^ 31 := by
          intro x
          have : x &&& 0xFF < 2 ^ 8 := Nat.and_lt_two_pow x (by norm_num)
          omega
        exact Nat.or_lt_two_pow (Nat.or_lt_two_pow (Nat.or_lt_two_pow (a0 _) (a1 _)) (a2 _)) (a3 _)
      · exact absurd h (by simp)

theorem tmod_pow10 (v : Nat) (d : Int) (hv : v < 2 ^ 31) (hd : 1 ≤ d) :
    Int.tmod (v : Int) (pow10Int64 d) = ((v % 10 ^ d.toNat : Nat) : Int) := by
  unfold pow10Int64
  rw [if_neg (by omega)]
  split
  · rw [Int.tmod_eq_emod (by positivity) (by positivity)]
    push_cast
    rfl
  · have h10 : 10 ^ 10 ≤ 10 ^ d.toNat := Nat.pow_le_pow_right (by norm_num) (by omega)
    have hlt : v < 10 ^ d.toNat := by
      have : (2 : Nat) ^ 31 < 10 ^ 10 := by norm_num
      omega
    rw [Nat.mod_eq_of_lt hlt, Int.tmod_neg]
    rw [Int.tmod_eq_emod (by positivity) (by positivity)]
    have h2 : (v : Int) < ((2 ^ 63 : Nat) : Int) := by
      have : (2 : Nat) ^ 31 < 2 ^ 63 := by norm_num
      omega
    exact Int.emod_eq_of_lt (by positivity) h2

/-! ## The vectors of RFC 6238 -/

/-- The six vectors of RFC 6238 for the secret `secSha1`. -/
theorem rfc6238_sha1 :
    totp.GenerateCodeCustom secSha1 ⟨59⟩ ⟨0, 0, otp.DigitsEight, otp.AlgorithmSHA1⟩
      = .returns (goStr "94287082", none) ∧
    totp.GenerateCodeCustom secSha1 ⟨1111111109⟩ ⟨0, 0, otp.DigitsEight, otp.AlgorithmSHA1⟩
      = .returns (goStr "07081804", none) ∧
    totp.GenerateCodeCustom secSha1 ⟨1111111111⟩ ⟨0, 0, otp.DigitsEight, otp.AlgorithmSHA1⟩
      = .returns (goStr "14050471", none) ∧
    totp.GenerateCodeCustom secSha1 ⟨1234567890⟩ ⟨0, 0, otp.DigitsEight, otp.AlgorithmSHA1⟩
      = .returns (goStr "89005924", none) ∧
    totp.GenerateCodeCustom secSha1 ⟨2000000000⟩ ⟨0, 0, otp.DigitsEight, otp.AlgorithmSHA1⟩
      = .returns (goStr "69279037", none) ∧
    totp.GenerateCodeCustom secSha1 ⟨20000000000⟩ ⟨0, 0, otp.DigitsEight, otp.AlgorithmSHA1⟩
      = .returns (goStr "65353130", none) :=
  ⟨by decide!, by decide!, by decide!, by decide!, by decide!, by decide!⟩

/-- The six vectors of RFC 6238 for the secret `secSha256`. -/
theorem rfc6238_sha256 :
    totp.GenerateCodeCustom secSha256 ⟨59⟩ ⟨0, 0, otp.DigitsEight, otp.AlgorithmSHA256⟩
      = .returns (goStr "46119246", none) ∧
    totp.GenerateCodeCustom secSha256 ⟨1111111109⟩ ⟨0, 0, otp.DigitsEight, otp.AlgorithmSHA256⟩
      = .returns (goStr "68084774", none) ∧
    totp.GenerateCodeCustom secSha256 ⟨1111111111⟩ ⟨0, 0, otp.DigitsEight, otp.AlgorithmSHA256⟩
      = .returns (goStr "67062674", none) ∧
    totp.GenerateCodeCustom secSha256 ⟨1234567890⟩ ⟨0, 0, otp.DigitsEight, otp.AlgorithmSHA256⟩
      = .returns (goStr "91819424", none) ∧
    totp.GenerateCodeCustom secSha256 ⟨2000000000⟩ ⟨0, 0, otp.DigitsEight, otp.AlgorithmSHA256⟩
      = .returns (goStr "90698825", none) ∧
    totp.GenerateCodeCustom secSha256 ⟨20000000000⟩ ⟨0, 0, otp.DigitsEight, otp.AlgorithmSHA256⟩
      = .returns (goStr "77737706", none) :=
  ⟨by decide!, by decide!, by decide!, by decide!, by decide!, by decide!⟩

/-- The six vectors of RFC 6238 for the secret `secSha512`. -/
theorem rfc6238_sha512 :
    totp.GenerateCodeCustom secSha512 ⟨59⟩ ⟨0, 0, otp.DigitsEight, otp.AlgorithmSHA512⟩
      = .returns (goStr "90693936", none) ∧
    totp.GenerateCodeCustom secSha512 ⟨1111111109⟩ ⟨0, 0, otp.DigitsEight, otp.AlgorithmSHA512⟩
      = .returns (goStr "25091201", none) ∧
    totp.GenerateCodeCustom secSha512 ⟨1111111111⟩ ⟨0, 0, otp.DigitsEight, otp.AlgorithmSHA512⟩
      = .returns (goStr "99943326", none) ∧
    totp.GenerateCodeCustom secSha512 ⟨1234567890⟩ ⟨0, 0, otp.DigitsEight, otp.AlgorithmSHA512⟩
      = .returns (goStr "93441116", none) ∧
    totp.GenerateCodeCustom secSha512 ⟨2000000000⟩ ⟨0, 0, otp.DigitsEight, otp.AlgorithmSHA512⟩
      = .returns (goStr "38618901", none) ∧
    totp.GenerateCodeCustom secSha512 ⟨20000000000⟩ ⟨0, 0, otp.DigitsEight, otp.AlgorithmSHA512⟩
      = .returns (goStr "47863826", none) :=
  ⟨by decide!, by decide!, by decide!, by decide!, by decide!, by decide!⟩

/-! # The claims -/

/-- C1: for the secret that is the base32 text of the ASCII bytes
`12345678901234567890`, SHA-1 and six digits, `hotp.GenerateCodeCustom` returns
the ten codes of RFC 4226 for the counters 0 to 9, each without an error. -/
theorem hotp_rfc4226_vectors :
    hotp.GenerateCodeCustom secSha1 0 ⟨otp.DigitsSix, otp.AlgorithmSHA1⟩ =
        .returns (goStr "755224", none) ∧
    hotp.GenerateCodeCustom secSha1 1 ⟨otp.DigitsSix, otp.AlgorithmSHA1⟩ =
        .returns (goStr "287082", none) ∧
    hotp.GenerateCodeCustom secSha1 2 ⟨otp.DigitsSix, otp.AlgorithmSHA1⟩ =
        .returns (goStr "359152", none) ∧
    hotp.GenerateCodeCustom secSha1 3 ⟨otp.DigitsSix, otp.AlgorithmSHA1⟩ =
        .returns (goStr "969429", none) ∧
    hotp.GenerateCodeCustom secSha1 4 ⟨otp.DigitsSix, otp.AlgorithmSHA1⟩ =
        .returns (goStr "338314", none) ∧
    hotp.GenerateCodeCustom secSha1 5 ⟨otp.DigitsSix, otp.AlgorithmSHA1⟩ =
        .returns (goStr "254676", none) ∧
    hotp.GenerateCodeCustom secSha1 6 ⟨otp.DigitsSix, otp.AlgorithmSHA1⟩ =
        .returns (goStr "287922", none) ∧
    hotp.GenerateCodeCustom secSha1 7 ⟨otp.DigitsSix, otp.AlgorithmSHA1⟩ =
        .returns (goStr "162583", none) ∧
    hotp.GenerateCodeCustom secSha1 8 ⟨otp.DigitsSix, otp.AlgorithmSHA1⟩ =
        .returns (goStr "399871", none) ∧
    hotp.GenerateCodeCustom secSha1 9 ⟨otp.DigitsSix, otp.AlgorithmSHA1⟩ =
        .returns (goStr "520489", none) :=
  ⟨by decide!, by decide!, by decide!, by decide!, by decide!, by decide!, by decide!,
    by decide!, by decide!, by decide!⟩

/-- C2, at the failing input: with MD5, the RFC 4226 secret and counter 0 the
generation of the code panics, so there is no code to feed back, and validation
at that counter returns `(true, nil)` for no candidate at all. -/
theorem hotp_md5_roundtrip_panics :
    hotp.GenerateCodeCustom secSha1 0 ⟨otp.DigitsSix, otp.AlgorithmMD5⟩ = .panics ∧
    hotp.ValidateCustom (goStr "755224") 0 secSha1 ⟨otp.DigitsSix, otp.AlgorithmMD5⟩ = .panics ∧
    ∀ passcode, hotp.ValidateCustom passcode 0 secSha1 ⟨otp.DigitsSix, otp.AlgorithmMD5⟩ ≠
      .returns (true, none) := by
  have hgen : hotp.GenerateCodeCustom secSha1 0 ⟨otp.DigitsSix, otp.AlgorithmMD5⟩ = .panics := by
    decide!
  refine ⟨hgen, by decide!, ?_⟩
  intro passcode
  unfold hotp.ValidateCustom
  simp only [hgen]
  split <;> simp

/-- C3, at the failing input: with MD5, the RFC 4226 secret, counter 0 and six
digits `hotp.GenerateCodeCustom` returns nothing, neither a code of six digits
nor an error. -/
theorem hotp_md5_no_code :
    ¬ ∃ r, hotp.GenerateCodeCustom secSha1 0 ⟨otp.DigitsSix, otp.AlgorithmMD5⟩ = .returns r := by
  have hgen : hotp.GenerateCodeCustom secSha1 0 ⟨otp.DigitsSix, otp.AlgorithmMD5⟩ = .panics := by
    decide!
  rw [hgen]
  simp

/-- C4, at the failing input: the HMAC-MD5 digest of counter 0 under the key
`12345678901234567890` has 16 bytes and ends in `0xEF`; the offset is 15 and the
bytes 15 to 18 are read, of which only the first exists. The truncation fails
with an index out of range and `hotp.GenerateCodeCustom` panics. -/
theorem hotp_md5_truncation_out_of_range :
    hotp.decodeSecret secSha1 = some (goStr "12345678901234567890") ∧
    (hmac.sum ⟨md5.sum, 64, 16⟩ (goStr "12345678901234567890") (beBytes 8 0)).length = 16 ∧
    (hmac.sum ⟨md5.sum, 64, 16⟩ (goStr "12345678901234567890") (beBytes 8 0))[15]? = some 0xEF ∧
    (hmac.sum ⟨md5.sum, 64, 16⟩ (goStr "12345678901234567890") (beBytes 8 0))[(0xEF &&& 0xF) + 3]?
      = none ∧
    hotp.truncate (hmac.sum ⟨md5.sum, 64, 16⟩ (goStr "12345678901234567890") (beBytes 8 0))
      = none ∧
    hotp.GenerateCodeCustom secSha1 0 ⟨otp.DigitsSix, otp.AlgorithmMD5⟩ = .panics :=
  ⟨by decide!, by decide!, by decide!, by decide!, by decide!, by decide!⟩

/-- C5: a candidate whose trimmed length differs from the digit count is
answered with `(false, ErrValidateInputInvalidLength)`, whatever the counter,
the secret and the algorithm are. -/
theorem hotp_validate_wrong_length (passcode : GoString) (counter : Nat) (secret : GoString)
    (opts : hotp.Options)
    (h : ((strings.TrimSpace passcode).length : Int) ≠ opts.Digits.Length) :
    hotp.ValidateCustom passcode counter secret opts =
      .returns (false, some .ErrValidateInputInvalidLength) := by
  unfold hotp.ValidateCustom
  simp only [h, ne_eq, not_false_eq_true, if_true]

theorem hotp_validate_wrong_length_witness :
    ((strings.TrimSpace (goStr " 12345 ")).length : Int) ≠
        otp.Digits.Length (hotp.Options.mk otp.DigitsSix otp.AlgorithmSHA1).Digits ∧
      hotp.ValidateCustom (goStr " 12345 ") 7 (goStr "not base32!") ⟨otp.DigitsSix, otp.AlgorithmSHA1⟩ =
        .returns (false, some .ErrValidateInputInvalidLength) :=
  ⟨by decide!, hotp_validate_wrong_length (goStr " 12345 ") 7 (goStr "not base32!")
    ⟨otp.DigitsSix, otp.AlgorithmSHA1⟩ (by decide!)⟩

/-- C6, at the failing input: with the skew `2^63 - 1` the condition
`i <= int(opts.Skew)` holds for every `int`, the loop that fills `counters`
does not end and `totp.ValidateCustom` never returns; the error of the secret
that does not decode is not reported. -/
theorem totp_bad_secret_hangs :
    ((strings.TrimSpace (goStr "123456")).length : Int) = otp.Digits.Length otp.DigitsSix ∧
    hotp.decodeSecret (goStr "not base32!") = none ∧
    totp.counters (toInt64 (totp.floorQuot ⟨59⟩ 30)) (2 ^ 63 - 1) = none ∧
    totp.ValidateCustom (goStr "123456") (goStr "not base32!") ⟨59⟩
      ⟨30, 2 ^ 63 - 1, otp.DigitsSix, otp.AlgorithmSHA1⟩ = .hangs := by
  exact ⟨by decide!, by decide!, counters_maxInt _, validate_hangs _ _ _ _ (counters_maxInt _)⟩

/-- C7, a time at which it fails: the code of the time `2^57 + 193` is not
accepted 29 seconds later. At that size the seconds are rounded to a multiple
of 32 on conversion to `float64`; the two times get the counters
4803839602528535 and 4803839602528537, two apart. -/
theorem totp_skew_rejects_far_future :
    totp.GenerateCodeCustom secSha1 ⟨144115188075856065⟩
        ⟨30, 1, otp.DigitsSix, otp.AlgorithmSHA1⟩ = .returns (goStr "607884", none) ∧
    totp.ValidateCustom (goStr "607884") secSha1 ⟨144115188075856065 + 29⟩
        ⟨30, 1, otp.DigitsSix, otp.AlgorithmSHA1⟩ = .returns (false, none) :=
  ⟨by decide!, by decide!⟩

/-- C7, amended: for a decodable secret, SHA-1, SHA-256 or SHA-512, one to nine
digits and a time `t` with `t - 29` not before the epoch and `t + 29` below
`2^53` seconds, the code generated at `t` with period 30 is accepted with
period 30 and skew 1 at `t + 29` and at `t - 29`. -/
theorem totp_skew_accepts (secret : GoString) (key : Bytes) (d a : Int) (t : Time)
    (hk : hotp.decodeSecret secret = some key)
    (ha : a = otp.AlgorithmSHA1 ∨ a = otp.AlgorithmSHA256 ∨ a = otp.AlgorithmSHA512)
    (hd1 : 1 ≤ d) (hd9 : d ≤ 9) (hlo : 29 ≤ t.sec) (hhi : t.sec + 29 < 2 ^ 53) :
    ∃ code, totp.GenerateCodeCustom secret t ⟨30, 1, d, a⟩ = .returns (code, none) ∧
      totp.ValidateCustom code secret ⟨t.sec + 29⟩ ⟨30, 1, d, a⟩ = .returns (true, none) ∧
      totp.ValidateCustom code secret ⟨t.sec - 29⟩ ⟨30, 1, d, a⟩ = .returns (true, none) := by
  have hper : totp.period ⟨30, 1, d, a⟩ = 30 := rfl
  obtain ⟨code, hgen, hclen, hdig⟩ :=
    generate_code secret key (toUint64 (t.sec / 30)) d a hk ha hd1 hd9
  have htrim : strings.TrimSpace code = code := trimSpace_digit code hdig
  have hlen : ((strings.TrimSpace code).length : Int) = d := by rw [htrim, hclen]; omega
  have hq : totp.floorQuot t 30 = t.sec / 30 := by
    have := floorQuot_exact t 30 (by norm_num) (by omega) (by omega)
    simpa using this
  refine ⟨code, ?_, ?_, ?_⟩
  · rw [totp_generate_eq, hper, hq]; exact hgen
  · obtain ⟨b, hb, hiff⟩ := totp_validate_spec secret key code ⟨t.sec + 29⟩ 30 1 d a _ hk ha hlen
      (by show -2 ^ 53 < t.sec + 29; omega) (by show t.sec + 29 < 2 ^ 53; omega)
      (counters_one _)
    have : b = true := by
      rw [hiff, hper, htrim]
      have hcase : (t.sec + 29) / 30 = t.sec / 30 ∨ (t.sec + 29) / 30 - 1 = t.sec / 30 := by
        omega
      rcases hcase with h | h
      · exact ⟨toUint64 (t.sec / 30), by simp [show (Time.mk (t.sec + 29)).sec = t.sec + 29 from rfl, h], hgen⟩
      · exact ⟨toUint64 (t.sec / 30), by simp [show (Time.mk (t.sec + 29)).sec = t.sec + 29 from rfl, h], hgen⟩
    rw [hb, this]
  · obtain ⟨b, hb, hiff⟩ := totp_validate_spec secret key code ⟨t.sec - 29⟩ 30 1 d a _ hk ha hlen
      (by show -2 ^ 53 < t.sec - 29; omega) (by show t.sec - 29 < 2 ^ 53; omega)
      (counters_one _)
    have : b = true := by
      rw [hiff, hper, htrim]
      have hcase : (t.sec - 29) / 30 = t.sec / 30 ∨ (t.sec - 29) / 30 + 1 = t.sec / 30 := by
        omega
      rcases hcase with h | h
      · exact ⟨toUint64 (t.sec / 30), by simp [show (Time.mk (t.sec - 29)).sec = t.sec - 29 from rfl, h], hgen⟩
      · exact ⟨toUint64 (t.sec / 30), by simp [show (Time.mk (t.sec - 29)).sec = t.sec - 29 from rfl, h], hgen⟩
    rw [hb, this]

theorem totp_skew_accepts_witness :
    hotp.decodeSecret secSha1 = some (goStr "12345678901234567890") ∧
    ∃ code, totp.GenerateCodeCustom secSha1 ⟨59⟩ ⟨30, 1, 6, 0⟩ = .returns (code, none) ∧
      totp.ValidateCustom code secSha1 ⟨(Time.mk 59).sec + 29⟩ ⟨30, 1, 6, 0⟩ =
        .returns (true, none) ∧
      totp.ValidateCustom code secSha1 ⟨(Time.mk 59).sec - 29⟩ ⟨30, 1, 6, 0⟩ =
        .returns (true, none) :=
  ⟨by decide!, totp_skew_accepts secSha1 (goStr "12345678901234567890") 6 0 ⟨59⟩ (by decide!)
    (Or.inl rfl) (by decide) (by decide) (by decide) (by decide)⟩

/-- C8, a time at which it fails: the counters 153567 and 153569 have the same
six-digit SHA-1 code under the RFC 4226 secret, so the code of the time 4607010
is accepted 61 seconds later. -/
theorem totp_collision_accepts :
    totp.GenerateCodeCustom secSha1 ⟨4607010⟩ ⟨30, 1, otp.DigitsSix, otp.AlgorithmSHA1⟩ =
        .returns (goStr "468457", none) ∧
    totp.ValidateCustom (goStr "468457") secSha1 ⟨4607010 + 61⟩
        ⟨30, 1, otp.DigitsSix, otp.AlgorithmSHA1⟩ = .returns (true, none) :=
  ⟨by decide!, by decide!⟩

/-- C8, amended: for a decodable secret, SHA-1, SHA-256 or SHA-512, one to nine
digits and a time `t` at or after the epoch with `t + 61` below `2^53` seconds,
validation of the code of `t` (period 30, skew 1) at `t + 61` and at `t - 61`
returns no error and probes the three counters around the quotient of that
time, none of which is the counter of `t`; it returns false unless the code of
`t` is also the code of one of those three counters, and true if it is. -/
theorem totp_beyond_window (secret : GoString) (key : Bytes) (d a : Int) (t : Time)
    (hk : hotp.decodeSecret secret = some key)
    (ha : a = otp.AlgorithmSHA1 ∨ a = otp.AlgorithmSHA256 ∨ a = otp.AlgorithmSHA512)
    (hd1 : 1 ≤ d) (hd9 : d ≤ 9) (hlo : 0 ≤ t.sec) (hhi : t.sec + 61 < 2 ^ 53) :
    ∃ code, totp.GenerateCodeCustom secret t ⟨30, 1, d, a⟩ = .returns (code, none) ∧
      ∀ t2 : Time, t2.sec = t.sec + 61 ∨ t2.sec = t.sec - 61 →
        (∀ k : Int, -1 ≤ k → k ≤ 1 → toUint64 (t2.sec / 30 + k) ≠ toUint64 (t.sec / 30)) ∧
        ∃ b, totp.ValidateCustom code secret t2 ⟨30, 1, d, a⟩ = .returns (b, none) ∧
          (b = true ↔ ∃ k : Int, -1 ≤ k ∧ k ≤ 1 ∧
            hotp.GenerateCodeCustom secret (toUint64 (t2.sec / 30 + k)) ⟨d, a⟩ =
              .returns (code, none)) := by
  have hper : totp.period ⟨30, 1, d, a⟩ = 30 := rfl
  obtain ⟨code, hgen, hclen, hdig⟩ :=
    generate_code secret key (toUint64 (t.sec / 30)) d a hk ha hd1 hd9
  have htrim : strings.TrimSpace code = code := trimSpace_digit code hdig
  have hlen : ((strings.TrimSpace code).length : Int) = d := by rw [htrim, hclen]; omega
  have hq : totp.floorQuot t 30 = t.sec / 30 := by
    have := floorQuot_exact t 30 (by norm_num) (by omega) (by omega)
    simpa using this
  refine ⟨code, ?_, ?_⟩
  · rw [totp_generate_eq, hper, hq]; exact hgen
  · intro t2 ht2
    constructor
    · intro k hk1 hk2
      unfold toUint64
      rcases ht2 with h | h <;> rw [h] <;> omega
    · obtain ⟨b, hb, hiff⟩ := totp_validate_window secret key code t2 30 1 d a hk ha hlen
        (by rcases ht2 with h | h <;> omega) (by rcases ht2 with h | h <;> omega) (by norm_num)
      refine ⟨b, hb, ?_⟩
      rw [hiff, htrim]
      simp

theorem totp_beyond_window_witness :
    hotp.decodeSecret secSha1 = some (goStr "12345678901234567890") ∧
    ∃ code, totp.GenerateCodeCustom secSha1 ⟨59⟩ ⟨30, 1, 6, 0⟩ = .returns (code, none) ∧
      ∀ t2 : Time, t2.sec = (Time.mk 59).sec + 61 ∨ t2.sec = (Time.mk 59).sec - 61 →
        (∀ k : Int, -1 ≤ k → k ≤ 1 →
          toUint64 (t2.sec / 30 + k) ≠ toUint64 ((Time.mk 59).sec / 30)) ∧
        ∃ b, totp.ValidateCustom code secSha1 t2 ⟨30, 1, 6, 0⟩ = .returns (b, none) ∧
          (b = true ↔ ∃ k : Int, -1 ≤ k ∧ k ≤ 1 ∧
            hotp.GenerateCodeCustom secSha1 (toUint64 (t2.sec / 30 + k)) ⟨6, 0⟩ =
              .returns (code, none)) :=
  ⟨by decide!, totp_beyond_window secSha1 (goStr "12345678901234567890") 6 0 ⟨59⟩ (by decide!)
    (Or.inl rfl) (by decide) (by decide) (by decide) (by decide)⟩

/-- C10, a time at which it fails: the time 9007199254741019 is above `2^53`
and becomes 9007199254741020 on conversion to `float64`; the counter is
300239975158034 where the integer quotient by 30 is 300239975158033, and the
two codes differ. -/
theorem totp_counter_rounded :
    (9007199254741019 : Nat) / 30 = 300239975158033 ∧
    totp.floorQuot ⟨9007199254741019⟩ 30 = 300239975158034 ∧
    totp.GenerateCodeCustom secSha1 ⟨9007199254741019⟩
        ⟨0, 0, otp.DigitsSix, otp.AlgorithmSHA1⟩ = .returns (goStr "576809", none) ∧
    hotp.GenerateCodeCustom secSha1 (9007199254741019 / 30)
        ⟨otp.DigitsSix, otp.AlgorithmSHA1⟩ = .returns (goStr "803152", none) :=
  ⟨by decide!, by decide!, by decide!, by decide!⟩

/-- C10, amended: for every secret and options and every time from the epoch up
to `2^53` seconds after it, `totp.GenerateCodeCustom` returns exactly what
`hotp.GenerateCodeCustom` returns for the same secret, digits and algorithm at
the counter `unixSeconds(t) / period` (integer division, period 30 for 0). -/
theorem totp_generate_counter (secret : GoString) (t : Time) (opts : totp.Options)
    (hlo : 0 ≤ t.sec) (hhi : t.sec < 2 ^ 53) :
    totp.GenerateCodeCustom secret t opts =
      hotp.GenerateCodeCustom secret
        (t.sec.toNat / (if opts.Period = 0 then 30 else opts.Period))
        ⟨opts.Digits, opts.Algorithm⟩ := by
  have hp := period_pos opts
  have hper : totp.period opts = if opts.Period = 0 then 30 else opts.Period := rfl
  rw [totp_generate_eq, floorQuot_exact t _ hp (by omega) hhi, hper] at *
  congr 1
  obtain ⟨n, hn⟩ : ∃ n : Nat, t.sec = (n : Int) := ⟨t.sec.toNat, by omega⟩
  rw [hn, ← Int.natCast_div, Int.toNat_ofNat]
  have h1 : n / (if opts.Period = 0 then 30 else opts.Period) ≤ n := Nat.div_le_self _ _
  generalize n / (if opts.Period = 0 then 30 else opts.Period) = m at h1 ⊢
  unfold toUint64
  omega

theorem totp_generate_counter_witness :
    (0 : Int) ≤ (Time.mk 59).sec ∧ (Time.mk 59).sec < 2 ^ 53 ∧
    totp.GenerateCodeCustom secSha1 ⟨59⟩ ⟨0, 1, 8, 0⟩ =
      hotp.GenerateCodeCustom secSha1
        ((Time.mk 59).sec.toNat / (if (totp.Options.mk 0 1 8 0).Period = 0 then 30
          else (totp.Options.mk 0 1 8 0).Period))
        ⟨(totp.Options.mk 0 1 8 0).Digits, (totp.Options.mk 0 1 8 0).Algorithm⟩ :=
  ⟨by decide, by decide, totp_generate_counter secSha1 ⟨59⟩ ⟨0, 1, 8, 0⟩ (by decide) (by decide)⟩

/-- C11. The eighteen vectors of RFC 6238: for the secrets of 20, 32 and 64 ASCII
digits (base32 text), used with SHA-1, SHA-256 and SHA-512, eight digits and the
period left at its default, `totp.GenerateCodeCustom` returns the published
code and no error at the times 59, 1111111109, 1111111111, 1234567890,
2000000000 and 20000000000. -/
theorem totp_rfc6238_vectors :
    totp.GenerateCodeCustom secSha1 ⟨59⟩ ⟨0, 0, otp.DigitsEight, otp.AlgorithmSHA1⟩
      = .returns (goStr "94287082", none) ∧
    totp.GenerateCodeCustom secSha256 ⟨59⟩ ⟨0, 0, otp.DigitsEight, otp.AlgorithmSHA256⟩
      = .returns (goStr "46119246", none) ∧
    totp.GenerateCodeCustom secSha512 ⟨59⟩ ⟨0, 0, otp.DigitsEight, otp.AlgorithmSHA512⟩
      = .returns (goStr "90693936", none) ∧
    totp.GenerateCodeCustom secSha1 ⟨1111111109⟩ ⟨0, 0, otp.DigitsEight, otp.AlgorithmSHA1⟩
      = .returns (goStr "07081804", none) ∧
    totp.GenerateCodeCustom secSha256 ⟨1111111109⟩ ⟨0, 0, otp.DigitsEight, otp.AlgorithmSHA256⟩
      = .returns (goStr "68084774", none) ∧
    totp.GenerateCodeCustom secSha512 ⟨1111111109⟩ ⟨0, 0, otp.DigitsEight, otp.AlgorithmSHA512⟩
      = .returns (goStr "25091201", none) ∧
    totp.GenerateCodeCustom secSha1 ⟨1111111111⟩ ⟨0, 0, otp.DigitsEight, otp.AlgorithmSHA1⟩
      = .returns (goStr "14050471", none) ∧
    totp.GenerateCodeCustom secSha256 ⟨1111111111⟩ ⟨0, 0, otp.DigitsEight, otp.AlgorithmSHA256⟩
      = .returns (goStr "67062674", none) ∧
    totp.GenerateCodeCustom secSha512 ⟨1111111111⟩ ⟨0, 0, otp.DigitsEight, otp.AlgorithmSHA512⟩
      = .returns (goStr "99943326", none) ∧
    totp.GenerateCodeCustom secSha1 ⟨1234567890⟩ ⟨0, 0, otp.DigitsEight, otp.AlgorithmSHA1⟩
      = .returns (goStr "89005924", none) ∧
    totp.GenerateCodeCustom secSha256 ⟨1234567890⟩ ⟨0, 0, otp.DigitsEight, otp.AlgorithmSHA256⟩
      = .returns (goStr "91819424", none) ∧
    totp.GenerateCodeCustom secSha512 ⟨1234567890⟩ ⟨0, 0, otp.DigitsEight, otp.AlgorithmSHA512⟩
      = .returns (goStr "93441116", none) ∧
    totp.GenerateCodeCustom secSha1 ⟨2000000000⟩ ⟨0, 0, otp.DigitsEight, otp.AlgorithmSHA1⟩
      = .returns (goStr "69279037", none) ∧
    totp.GenerateCodeCustom secSha256 ⟨2000000000⟩ ⟨0, 0, otp.DigitsEight, otp.AlgorithmSHA256⟩
      = .returns (goStr "90698825", none) ∧
    totp.GenerateCodeCustom secSha512 ⟨2000000000⟩ ⟨0, 0, otp.DigitsEight, otp.AlgorithmSHA512⟩
      = .returns (goStr "38618901", none) ∧
    totp.GenerateCodeCustom secSha1 ⟨20000000000⟩ ⟨0, 0, otp.DigitsEight, otp.AlgorithmSHA1⟩
      = .returns (goStr "65353130", none) ∧
    totp.GenerateCodeCustom secSha256 ⟨20000000000⟩ ⟨0, 0, otp.DigitsEight, otp.AlgorithmSHA256⟩
      = .returns (goStr "77737706", none) ∧
    totp.GenerateCodeCustom secSha512 ⟨20000000000⟩ ⟨0, 0, otp.DigitsEight, otp.AlgorithmSHA512⟩
      = .returns (goStr "47863826", none) :=
  ⟨rfc6238_sha1.1, rfc6238_sha256.1, rfc6238_sha512.1,
    rfc6238_sha1.2.1, rfc6238_sha256.2.1, rfc6238_sha512.2.1,
    rfc6238_sha1.2.2.1, rfc6238_sha256.2.2.1, rfc6238_sha512.2.2.1,
    rfc6238_sha1.2.2.2.1, rfc6238_sha256.2.2.2.1, rfc6238_sha512.2.2.2.1,
    rfc6238_sha1.2.2.2.2.1, rfc6238_sha256.2.2.2.2.1, rfc6238_sha512.2.2.2.2.1,
    rfc6238_sha1.2.2.2.2.2, rfc6238_sha256.2.2.2.2.2, rfc6238_sha512.2.2.2.2.2⟩

/-- C12, two secrets at which it fails. First the long s U+017F (two bytes, C5 BF) followed
by `AAAAAA`, eight bytes in all. In the order of the claim the text is
upper-cased to the seven bytes `SAAAAAA` and then filled to `SAAAAAA=`, which is
valid base32 for the bytes 90 00 00 00. The code measures the length before it
upper-cases: eight bytes need no filling, the seven characters `SAAAAAA` go to
the decoder and `GenerateCodeCustom` returns `ErrValidateSecretInvalidBase32`.
Second the ASCII secret `AAAA`, eight line feeds, `AAAA`: the normalised text is
the secret itself and holds line feeds, which are no base32 characters, yet the
decoder of Go drops them and `GenerateCodeCustom` returns a code. -/
theorem hotp_normalisation_order :
    specNormalize ([0xC5, 0xBF] ++ goStr "AAAAAA") = goStr "SAAAAAA=" ∧
    base32.DecodeString (specNormalize ([0xC5, 0xBF] ++ goStr "AAAAAA"))
      = some [0x90, 0, 0, 0] ∧
    hotp.normalize ([0xC5, 0xBF] ++ goStr "AAAAAA") = goStr "SAAAAAA" ∧
    hotp.GenerateCodeCustom ([0xC5, 0xBF] ++ goStr "AAAAAA") 0 ⟨6, 0⟩
      = .returns ([], some .ErrValidateSecretInvalidBase32) ∧
    specNormalize (goStr "AAAA" ++ List.replicate 8 10 ++ goStr "AAAA")
      = goStr "AAAA" ++ List.replicate 8 10 ++ goStr "AAAA" ∧
    hotp.GenerateCodeCustom (goStr "AAAA" ++ List.replicate 8 10 ++ goStr "AAAA") 0 ⟨6, 0⟩
      = .returns (goStr "328482", none) :=
  ⟨by decide, by decide, by decide, by decide, by decide, by decide!⟩

/-- C12, amended. For every secret `s` of ASCII characters, `hotp.GenerateCodeCustom`
decodes exactly the text of the claim, `specNormalize s`: the secret trimmed,
then upper-cased, then filled with `=` to the next multiple of eight. It returns
`ErrValidateSecretInvalidBase32` exactly when `DecodeString` rejects that text;
when `DecodeString` accepts it, the decoded bytes are the key of the HMAC from
which the code is computed. -/
theorem hotp_secret_normalisation (s : GoString) (counter : Nat) (opts : hotp.Options)
    (hs : ∀ b ∈ s, b < 128) :
    hotp.normalize s = specNormalize s ∧
    hotp.decodeSecret s = base32.DecodeString (specNormalize s) ∧
    (base32.DecodeString (specNormalize s) = none ↔
      hotp.GenerateCodeCustom s counter opts
        = .returns ([], some .ErrValidateSecretInvalidBase32)) ∧
    (∀ (key : Bytes) (h : HashFn), base32.DecodeString (specNormalize s) = some key →
      opts.Algorithm.Hash = .returns h →
      hotp.GenerateCodeCustom s counter opts =
        match hotp.truncate (hmac.sum h key (beBytes 8 counter)) with
        | none => .panics
        | some v =>
          if pow10Int64 opts.Digits.Length = 0 then .panics
          else .returns (opts.Digits.Format
            (toInt32 (Int.tmod (v : Int) (pow10Int64 opts.Digits.Length))), none)) := by
  have hd : hotp.decodeSecret s = base32.DecodeString (specNormalize s) := by
    rw [← normalize_ascii s hs]
    rfl
  refine ⟨normalize_ascii s hs, hd, ?_, ?_⟩
  · unfold hotp.GenerateCodeCustom
    rw [hd]
    cases hk : base32.DecodeString (specNormalize s) with
    | none => simp
    | some key =>
      simp only [false_iff]
      cases opts.Algorithm.Hash with
      | panics => simp
      | hangs => simp
      | returns h =>
        simp only
        cases hotp.truncate (hmac.sum h key (beBytes 8 counter)) with
        | none => simp
        | some v =>
          simp only
          split <;> simp
  · intro key h hk hh
    unfold hotp.GenerateCodeCustom
    rw [hd, hk]
    simp only [hh]

theorem hotp_secret_normalisation_witness :
    (∀ b ∈ goStr " gezdgnbvgy3tqojq ", b < 128) ∧
    hotp.normalize (goStr " gezdgnbvgy3tqojq ") = specNormalize (goStr " gezdgnbvgy3tqojq ") ∧
    hotp.decodeSecret (goStr " gezdgnbvgy3tqojq ")
      = base32.DecodeString (specNormalize (goStr " gezdgnbvgy3tqojq ")) ∧
    (base32.DecodeString (specNormalize (goStr " gezdgnbvgy3tqojq ")) = none ↔
      hotp.GenerateCodeCustom (goStr " gezdgnbvgy3tqojq ") 0 ⟨6, 0⟩
        = .returns ([], some .ErrValidateSecretInvalidBase32)) ∧
    (∀ (key : Bytes) (h : HashFn),
      base32.DecodeString (specNormalize (goStr " gezdgnbvgy3tqojq ")) = some key →
      otp.Algorithm.Hash (hotp.Options.mk 6 0).Algorithm = .returns h →
      hotp.GenerateCodeCustom (goStr " gezdgnbvgy3tqojq ") 0 ⟨6, 0⟩ =
        match hotp.truncate (hmac.sum h key (beBytes 8 0)) with
        | none => .panics
        | some v =>
          if pow10Int64 (otp.Digits.Length (hotp.Options.mk 6 0).Digits) = 0 then .panics
          else .returns (otp.Digits.Format (hotp.Options.mk 6 0).Digits
            (toInt32 (Int.tmod (v : Int)
              (pow10Int64 (otp.Digits.Length (hotp.Options.mk 6 0).Digits)))), none)) :=
  ⟨by decide, hotp_secret_normalisation (goStr " gezdgnbvgy3tqojq ") 0 ⟨6, 0⟩ (by decide)⟩

/-- C14, at the failing input: `hotp.Generate` with `Digits` and `Algorithm` left at their
zero values. The `algorithm` parameter of the key is `SHA1`, but the `digits`
parameter is `0`: `hotp.Generate` writes `opts.Digits.String()` without
replacing the zero value by six, as `totp.Generate` does. -/
theorem hotp_generate_digits_unset :
    (otp.Generated.toKey
        (hotp.Generate ⟨goStr "BlockCDN", goStr "alice@example.com", 0, 0, 0⟩ zeroRand)).map
        (fun k => (url.Values.Get k.url.Query (goStr "digits"),
          url.Values.Get k.url.Query (goStr "algorithm")))
      = some (goStr "0", goStr "SHA1") ∧
    (otp.Generated.toKey
        (totp.Generate ⟨goStr "BlockCDN", goStr "alice@example.com", 0, 0, 0, 0⟩ zeroRand)).map
        (fun k => url.Values.Get k.url.Query (goStr "digits"))
      = some (goStr "6") :=
  ⟨by decide!, by decide!⟩

/-- C15, at the failing input, the call of `TestGenerate`: with `SecretSize` left at zero
`hotp.Generate` draws 20 bytes, and `Secret()` has 32 characters, not 16.
`totp.Generate` draws 10 bytes and its secret has 16 characters. -/
theorem hotp_generate_secret_length :
    (otp.Generated.toKey
        (hotp.Generate ⟨goStr "BlockCDN", goStr "alice@example.com", 0, 0, 0⟩ zeroRand)).map
        (fun k => k.Secret.length) = some 32 ∧
    (otp.Generated.toKey
        (totp.Generate ⟨goStr "BlockCDN", goStr "alice@example.com", 0, 0, 0, 0⟩ zeroRand)).map
        (fun k => k.Secret.length) = some 16 :=
  ⟨by decide!, by decide!⟩

/-- C16, a key at which it fails: the URL `otpauth://totp/Example:alice?issuer=` has the
`issuer` parameter, with the empty value. `Issuer()` does not return that value
but the part `Example` of the path. -/
theorem key_issuer_empty_parameter :
    (match otp.NewKeyFromURL (goStr "otpauth://totp/Example:alice?issuer=") with
      | .ok k => some (k.url.Query, k.Issuer)
      | _ => none)
      = some ([(goStr "issuer", [[]])], goStr "Example") := by
  decide!

/-- C16, amended. For every key, `Issuer()` returns the first value of the `issuer` query
parameter when that value is not empty. When the parameter is absent or its
value is empty, `Issuer()` returns the part of the path, one leading `/`
removed, before the first `:`, and the empty string when the path has no `:`. -/
theorem key_issuer (k : otp.Key) :
    k.Issuer =
      if url.Values.Get k.url.Query (goStr "issuer") ≠ [] then
        url.Values.Get k.url.Query (goStr "issuer")
      else if 58 ∈ strings.TrimPrefix k.url.Path [47] then
        (strings.TrimPrefix k.url.Path [47]).takeWhile (fun x => x != 58)
      else [] :=
  key_issuer_eq k

/-- C17. For every key with path `p`, `AccountName()` returns the part of `p`, one leading
`/` removed, after the first `:` when there is a `:`, and the whole of it when
there is none. When there is a `:`, the part before the first `:`, then `:`,
then `AccountName()` give the path back; that part is what `Issuer()` returns
for the key without query parameters. -/
theorem key_accountName (k : otp.Key) :
    (k.AccountName =
      if 58 ∈ strings.TrimPrefix k.url.Path [47] then
        ((strings.TrimPrefix k.url.Path [47]).dropWhile (fun x => x != 58)).drop 1
      else strings.TrimPrefix k.url.Path [47]) ∧
    (if 58 ∈ strings.TrimPrefix k.url.Path [47] then
      (strings.TrimPrefix k.url.Path [47]).takeWhile (fun x => x != 58) ++ 58 :: k.AccountName
        = strings.TrimPrefix k.url.Path [47] ∧
      otp.Key.Issuer ⟨k.orig, { k.url with RawQuery := [] }⟩ ++ 58 :: k.AccountName
        = strings.TrimPrefix k.url.Path [47]
    else k.AccountName = strings.TrimPrefix k.url.Path [47]) := by
  have hi := key_issuer_eq ⟨k.orig, { k.url with RawQuery := [] }⟩
  have hq : url.Values.Get (url.URL.Query { k.url with RawQuery := [] }) (goStr "issuer") = [] :=
    rfl
  unfold otp.Key.AccountName
  simp only
  by_cases h58 : 58 ∈ strings.TrimPrefix k.url.Path [47]
  · obtain ⟨h1, -, h3, h4⟩ := (index_slices _ 58).1 h58
    rw [if_neg h1, if_pos h58, if_pos h58, h3]
    refine ⟨rfl, h4, ?_⟩
    rw [hi, if_neg (by simp [hq]), if_pos h58, h4]
  · rw [(index_slices _ 58).2 h58, if_pos rfl, if_neg h58, if_neg h58]
    exact ⟨rfl, rfl⟩

/-- C19. Whenever the four bytes at the offset lie inside the digest, the value of the
dynamic truncation in `hotp.GenerateCodeCustom` is below `2^31`; for every digit
count `d` of at least one the remainder that the code computes is not negative,
is unchanged by the conversion to `int32`, equals the value modulo `10^d`, and
for `d` from 1 to 9 is below `10^d`. -/
theorem hotp_truncation_range (sum : Bytes) (v : Nat) (d : Int)
    (h : hotp.truncate sum = some v) (hd : 1 ≤ d) :
    v < 2 ^ 31 ∧
    0 ≤ Int.tmod (v : Int) (pow10Int64 d) ∧
    toInt32 (Int.tmod (v : Int) (pow10Int64 d)) = Int.tmod (v : Int) (pow10Int64 d) ∧
    Int.tmod (v : Int) (pow10Int64 d) = (v : Int) % 10 ^ d.toNat ∧
    (d ≤ 9 → Int.tmod (v : Int) (pow10Int64 d) < 10 ^ d.toNat) := by
  have hv := truncate_lt sum v h
  have ht := tmod_pow10 v d hv hd
  have hle : v % 10 ^ d.toNat ≤ v := Nat.mod_le _ _
  have hlt : v % 10 ^ d.toNat < 10 ^ d.toNat := Nat.mod_lt _ (by positivity)
  have h4 : ((v % 10 ^ d.toNat : Nat) : Int) = (v : Int) % 10 ^ d.toNat := by
    push_cast
    rfl
  rw [← h4, ht]
  generalize v % 10 ^ d.toNat = r at *
  refine ⟨hv, by positivity, ?_, rfl, fun _ => by exact_mod_cast hlt⟩
  unfold toInt32
  have : (2:Nat) ^ 31 = 2147483648 := by norm_num
  have : (2:Nat) ^ 32 = 4294967296 := by norm_num
  omega

theorem hotp_truncation_range_witness :
    hotp.truncate (hmac.sum ⟨sha1.sum, 64, 20⟩ (goStr "12345678901234567890") (beBytes 8 0))
      = some 1284755224 ∧
    (1284755224 < 2 ^ 31 ∧
    0 ≤ Int.tmod ((1284755224 : Nat) : Int) (pow10Int64 6) ∧
    toInt32 (Int.tmod ((1284755224 : Nat) : Int) (pow10Int64 6))
      = Int.tmod ((1284755224 : Nat) : Int) (pow10Int64 6) ∧
    Int.tmod ((1284755224 : Nat) : Int) (pow10Int64 6) = ((1284755224 : Nat) : Int) % 10 ^ (6 : Int).toNat ∧
    ((6 : Int) ≤ 9 → Int.tmod ((1284755224 : Nat) : Int) (pow10Int64 6) < 10 ^ (6 : Int).toNat)) :=
  ⟨by decide!,
    hotp_truncation_range
      (hmac.sum ⟨sha1.sum, 64, 20⟩ (goStr "12345678901234567890") (beBytes 8 0)) 1284755224 6
      (by decide!) (by decide)⟩

/-- C20. For every sequence `b` of bytes, the secret text that `Generate` stores, the base32
text of `b` without its trailing `=`, is brought back by the normalisation of
`hotp.GenerateCodeCustom` to the base32 text of `b` and decoded to exactly `b`
with no error; code generation with that secret computes the code with `b` as
the HMAC key. -/
theorem generated_secret_decodes (b : Bytes) (h256 : ∀ x ∈ b, x < 256) :
    hotp.normalize (strings.TrimRight (base32.EncodeToString b) 61) = base32.EncodeToString b ∧
    hotp.decodeSecret (strings.TrimRight (base32.EncodeToString b) 61) = some b ∧
    ∀ (counter : Nat) (opts : hotp.Options),
      hotp.GenerateCodeCustom (strings.TrimRight (base32.EncodeToString b) 61) counter opts
        = hotp.codeOfKey b counter opts := by
  have hd := decodeSecret_trimRight b h256
  refine ⟨(normalize_trimRight b).1, hd, fun counter opts => ?_⟩
  unfold hotp.GenerateCodeCustom
  rw [hd]
  rfl

theorem generated_secret_decodes_witness :
    (∀ x ∈ goStr "12345678901", x < 256) ∧
    hotp.normalize (strings.TrimRight (base32.EncodeToString (goStr "12345678901")) 61)
      = base32.EncodeToString (goStr "12345678901") ∧
    hotp.decodeSecret (strings.TrimRight (base32.EncodeToString (goStr "12345678901")) 61)
      = some (goStr "12345678901") ∧
    ∀ (counter : Nat) (opts : hotp.Options),
      hotp.GenerateCodeCustom
          (strings.TrimRight (base32.EncodeToString (goStr "12345678901")) 61) counter opts
        = hotp.codeOfKey (goStr "12345678901") counter opts :=
  ⟨by decide, generated_secret_decodes (goStr "12345678901") (by decide)⟩
